import Mathlib

/-!
Shallow embedding of the `mesh-rand` surface-sampling library.

Scope and conventions of the embedding:
* `f32` machine floats are idealized as exact rationals (`ℚ`).  All the
  arithmetic the library performs on coordinates (add, sub, mul, div by 2,
  squared lengths, comparisons) is modelled exactly; the square root and the
  division by a length, which the source only uses to produce the unit
  `normal` vector, are modelled over `ℝ` as derived quantities.
* The `f32::is_normal(area)` check of `Triangle::from_points` is idealized as
  `area ≠ 0` (exact rationals have no subnormal, infinite or NaN values).
* Rust panics (failing `assert!`, `expect`, out-of-range indexing) are
  modelled by `Option`/error results: `none` (or an error constructor) means
  the corresponding Rust program aborts.
* The caller-supplied random generator is modelled by an explicit stream of
  draws.  A draw holds the triangle index produced by the weighted alias
  table together with the two `gen_range(0.0..1.0)` values; draws whose
  index is out of range or whose reals are outside `[0, 1)` cannot arise
  from a real generator and make the model return `none`.
* `HashMap` is modelled by an association list; the iteration order of
  `keys()` (used once, to seed the subdivision queue) is the list order, and
  theorems about the subdivision loop are stated for an arbitrary initial
  queue whenever the order matters.
* Unbounded `while` loops are modelled with an explicit fuel parameter; a
  distinguished "out of fuel" result separates fuel exhaustion (a model
  artifact) from the program's own termination and panics.
-/

set_option autoImplicit false
set_option linter.unusedVariables false

namespace MeshRand

/-! ### src/vecmath.rs -/

/-- `type Vector = [f32; 3]`, idealized with rational coordinates. -/
structure V3 where
  x : ℚ
  y : ℚ
  z : ℚ
deriving DecidableEq, Repr

namespace Vm

/-- `vecmath::add` -/
def add (a b : V3) : V3 := ⟨a.x + b.x, a.y + b.y, a.z + b.z⟩

/-- `vecmath::diff` -/
def diff (a b : V3) : V3 := ⟨a.x - b.x, a.y - b.y, a.z - b.z⟩

/-- `vecmath::mul` (scaling by a scalar) -/
def mul (a : V3) (k : ℚ) : V3 := ⟨a.x * k, a.y * k, a.z * k⟩

/-- `vecmath::cross` -/
def cross (a b : V3) : V3 :=
  ⟨a.y * b.z - a.z * b.y, a.z * b.x - a.x * b.z, a.x * b.y - a.y * b.x⟩

/-- `vecmath::len_sq` -/
def lenSq (a : V3) : ℚ := a.x * a.x + a.y * a.y + a.z * a.z

/-- `vecmath::dist_sq` -/
def distSq (a b : V3) : ℚ := lenSq (diff a b)

/-- `vecmath::dot` -/
def dot (a b : V3) : ℚ := a.x * b.x + a.y * b.y + a.z * b.z

/-- `vecmath::midpoint` (`div(add(pl, pr), 2.0)`; division by 2 is exact) -/
def midpoint (a b : V3) : V3 :=
  ⟨(a.x + b.x) / 2, (a.y + b.y) / 2, (a.z + b.z) / 2⟩

theorem lenSq_nonneg (a : V3) : 0 ≤ lenSq a := by
  have hx := mul_self_nonneg a.x
  have hy := mul_self_nonneg a.y
  have hz := mul_self_nonneg a.z
  simp only [lenSq]; linarith

theorem distSq_nonneg (a b : V3) : 0 ≤ distSq a b := lenSq_nonneg _

theorem distSq_comm (a b : V3) : distSq a b = distSq b a := by
  simp only [distSq, lenSq, diff]; ring

end Vm

/-! ### src/surface/mod.rs : Triangle -/

/-- `Triangle`.  The source also stores `origin`, `u`, `v`, `normal` and
`area`; those fields are always computed from the three points at
construction time, so the embedding keeps only the points and derives the
rest. -/
structure Triangle where
  p1 : V3
  p2 : V3
  p3 : V3
deriving DecidableEq, Repr

namespace Triangle

/-- `origin = p1` -/
def origin (t : Triangle) : V3 := t.p1

/-- `u = diff(p2, p1)` -/
def u (t : Triangle) : V3 := Vm.diff t.p2 t.p1

/-- `v = diff(p3, p1)` -/
def v (t : Triangle) : V3 := Vm.diff t.p3 t.p1

/-- `normal_dir = cross(u, v)` (the unnormalized normal) -/
def normalDir (t : Triangle) : V3 := Vm.cross t.u t.v

/-- The unit normal `div(normal_dir, len(normal_dir))`.  The length involves
a square root, so this derived quantity lives in `ℝ × ℝ × ℝ`. -/
noncomputable def normal (t : Triangle) : ℝ × ℝ × ℝ :=
  let d := t.normalDir
  let len : ℝ := Real.sqrt ((Vm.lenSq d : ℚ) : ℝ)
  ((d.x : ℝ) / len, (d.y : ℝ) / len, (d.z : ℝ) / len)

/-- `Triangle::from_points`.  Fails (returns `none`, modelling the
`MeshRandError::Initialization` result) when the triangle area fails the
`f32::is_normal` check, idealized as the area — equivalently the squared
length of `cross(u, v)` — being zero. -/
def fromPoints (q1 q2 q3 : V3) : Option Triangle :=
  if Vm.lenSq (Vm.cross (Vm.diff q2 q1) (Vm.diff q3 q1)) = 0 then none
  else some ⟨q1, q2, q3⟩

/-- `Triangle::intersects_sphere`.  The three `assert!`s on the edge lengths
are modelled by returning `none` (a panic) when they fail. -/
def intersectsSphere (t : Triangle) (position : V3) (r : ℚ) : Option Bool :=
  if Vm.distSq t.p1 t.p2 ≤ r * r ∧ Vm.distSq t.p2 t.p3 ≤ r * r ∧
      Vm.distSq t.p3 t.p1 ≤ r * r then
    some (decide (Vm.distSq position t.p1 ≤ r * r ∨
      Vm.distSq position t.p2 ≤ r * r ∨ Vm.distSq position t.p3 ≤ r * r))
  else none

end Triangle

/-- The parallelogram fold of `<Triangle as Distribution>::sample`:
`if v_rand + u_rand > 1.0 { v_rand = 1.0 - v_rand; u_rand = 1.0 - u_rand }`. -/
def foldUV (vr ur : ℚ) : ℚ × ℚ :=
  if 1 < vr + ur then (1 - vr, 1 - ur) else (vr, ur)

/-- `<Triangle as Distribution>::sample`: fold the two uniform draws and
return `origin + v·v_rand + u·u_rand`. -/
def Triangle.samplePoint (t : Triangle) (vr ur : ℚ) : V3 :=
  let p := foldUV vr ur
  Vm.add t.origin (Vm.add (Vm.mul t.v p.1) (Vm.mul t.u p.2))

theorem foldUV_bounds (vr ur : ℚ) (h0 : 0 ≤ vr) (h1 : vr < 1) (h2 : 0 ≤ ur)
    (h3 : ur < 1) :
    0 ≤ (foldUV vr ur).1 ∧ 0 ≤ (foldUV vr ur).2 ∧
      (foldUV vr ur).1 + (foldUV vr ur).2 ≤ 1 := by
  unfold foldUV
  by_cases h : 1 < vr + ur
  · simp only [h, if_pos]
    refine ⟨by linarith, by linarith, by linarith⟩
  · simp only [h, if_neg, not_false_iff]
    refine ⟨h0, h2, by linarith⟩

theorem scalar_bound (a b bX bY bZ rr : ℚ) (ha : 0 ≤ a) (hb : 0 ≤ b)
    (hab : a + b ≤ 1) (hX0 : 0 ≤ bX) (hZ0 : 0 ≤ bZ) (hX : bX ≤ rr)
    (hY : bY ≤ rr) :
    a ^ 2 * bX + b ^ 2 * bY + a * b * (bX + bY - bZ) ≤ rr := by
  have hrr : 0 ≤ rr := le_trans hX0 hX
  have hab0 : 0 ≤ a * b := mul_nonneg ha hb
  have h1 : 0 ≤ a ^ 2 * (rr - bX) := mul_nonneg (sq_nonneg a) (by linarith)
  have h2 : 0 ≤ b ^ 2 * (rr - bY) := mul_nonneg (sq_nonneg b) (by linarith)
  have h3 : 0 ≤ a * b * (rr - bX) := mul_nonneg hab0 (by linarith)
  have h4 : 0 ≤ a * b * (rr - bY) := mul_nonneg hab0 (by linarith)
  have h5 : 0 ≤ a * b * bZ := mul_nonneg hab0 hZ0
  have h6 : 0 ≤ (1 - (a + b)) * (1 + (a + b)) * rr :=
    mul_nonneg (mul_nonneg (by linarith) (by linarith)) hrr
  nlinarith [h1, h2, h3, h4, h5, h6]

/-- A point sampled inside a triangle all of whose squared edge lengths are
at most `rr` lies within squared distance `rr` of the triangle's first
vertex.  This is the reason the root triangle of the conflict search always
passes the vertex-proximity test. -/
theorem samplePoint_close_to_p1 (t : Triangle) (vr ur rr : ℚ)
    (hvr0 : 0 ≤ vr) (hvr1 : vr < 1) (hur0 : 0 ≤ ur) (hur1 : ur < 1)
    (e12 : Vm.distSq t.p1 t.p2 ≤ rr) (e23 : Vm.distSq t.p2 t.p3 ≤ rr)
    (e31 : Vm.distSq t.p3 t.p1 ≤ rr) :
    Vm.distSq (t.samplePoint vr ur) t.p1 ≤ rr := by
  obtain ⟨hb0, ha0, hab⟩ := foldUV_bounds vr ur hvr0 hvr1 hur0 hur1
  set b := (foldUV vr ur).1 with hbdef
  set a := (foldUV vr ur).2 with hadef
  have key : Vm.distSq (t.samplePoint vr ur) t.p1 =
      a ^ 2 * Vm.distSq t.p1 t.p2 + b ^ 2 * Vm.distSq t.p3 t.p1 +
        a * b * (Vm.distSq t.p1 t.p2 + Vm.distSq t.p3 t.p1 -
          Vm.distSq t.p2 t.p3) := by
    simp only [Triangle.samplePoint, Triangle.origin, Triangle.u, Triangle.v,
      Vm.distSq, Vm.lenSq, Vm.add, Vm.diff, Vm.mul, ← hbdef, ← hadef]
    ring
  rw [key]
  exact scalar_bound a b (Vm.distSq t.p1 t.p2) (Vm.distSq t.p3 t.p1)
    (Vm.distSq t.p2 t.p3) rr ha0 hb0 (by linarith)
    (Vm.distSq_nonneg _ _) (Vm.distSq_nonneg _ _) e12 e31

/-! ### src/surface/uniform.rs and the `vert_ids_to_pos` utility of mod.rs -/

/-- The two `MeshRandError::Initialization` cases of `UniformSurface::new`,
distinguished by their message. -/
inductive UniformErr where
  | indexOutOfRange : ℕ → UniformErr
  | emptyInput : UniformErr
deriving DecidableEq, Repr

/-- `vert_ids_to_pos`: look the three vertex indices of a face up, failing
on the first out-of-range one. -/
def vertIdsToPos (face : ℕ × ℕ × ℕ) (verts : List V3) :
    Except UniformErr (V3 × V3 × V3) :=
  match verts.get? face.1 with
  | none => .error (.indexOutOfRange face.1)
  | some a =>
    match verts.get? face.2.1 with
    | none => .error (.indexOutOfRange face.2.1)
    | some b =>
      match verts.get? face.2.2 with
      | none => .error (.indexOutOfRange face.2.2)
      | some c => .ok (a, b, c)

/-- The face-processing loop of `UniformSurface::new`: resolve each face's
vertices (propagating index errors), build its `Triangle`, and skip — not
error on — faces whose `Triangle::from_points` fails. -/
def collectTriangles (verts : List V3) :
    List (ℕ × ℕ × ℕ) → Except UniformErr (List Triangle)
  | [] => .ok []
  | f :: rest =>
    match vertIdsToPos f verts with
    | .error e => .error e
    | .ok (a, b, c) =>
      match collectTriangles verts rest with
      | .error e => .error e
      | .ok tris =>
        match Triangle.fromPoints a b c with
        | none => .ok tris
        | some t => .ok (t :: tris)

/-- `UniformSurface`.  The weighted alias table over the triangle areas is
an external black box; the only property of `WeightedAliasIndex::new` the
library relies on is that, with the (positive) areas collected here, it
fails exactly on an empty weight list. -/
structure UniformSurface where
  triangles : List Triangle
deriving DecidableEq, Repr

/-- `UniformSurface::new` -/
def UniformSurface.new (verts : List V3) (faces : List (ℕ × ℕ × ℕ)) :
    Except UniformErr UniformSurface :=
  match collectTriangles verts faces with
  | .error e => .error e
  | .ok tris => if tris.isEmpty then .error .emptyInput else .ok ⟨tris⟩

/-- `SurfSample` -/
structure SurfSample where
  position : V3
  triangle : Triangle
  tIndex : ℕ
deriving DecidableEq, Repr

/-- One step of the external random generator, as consumed by
`<UniformSurface as Distribution>::sample`: the triangle index produced by
the alias table and the two `gen_range(0.0..1.0)` draws. -/
structure Draw where
  t : ℕ
  vr : ℚ
  ur : ℚ
deriving DecidableEq, Repr

/-- `<UniformSurface as Distribution>::sample`.  A draw whose index is out
of range or whose uniform values fall outside `[0, 1)` cannot be produced
by the alias table / `gen_range`, and makes the model return `none`. -/
def UniformSurface.sample (s : UniformSurface) (d : Draw) : Option SurfSample :=
  match s.triangles.get? d.t with
  | none => none
  | some tri =>
    if 0 ≤ d.vr ∧ d.vr < 1 ∧ 0 ≤ d.ur ∧ d.ur < 1 then
      some ⟨tri.samplePoint d.vr d.ur, tri, d.t⟩
    else none

/-- A face whose three vertex indices are all in range. -/
def faceInRange (verts : List V3) (f : ℕ × ℕ × ℕ) : Prop :=
  f.1 < verts.length ∧ f.2.1 < verts.length ∧ f.2.2 < verts.length

instance (verts : List V3) (f : ℕ × ℕ × ℕ) : Decidable (faceInRange verts f) :=
  inferInstanceAs (Decidable (_ ∧ _ ∧ _))

/-- The triangle a face contributes to the sampler, if any. -/
def survivingTriangle (verts : List V3) (f : ℕ × ℕ × ℕ) : Option Triangle :=
  match vertIdsToPos f verts with
  | .error _ => none
  | .ok (a, b, c) => Triangle.fromPoints a b c

theorem vertIdsToPos_error_iff (f : ℕ × ℕ × ℕ) (verts : List V3) :
    (∃ e, vertIdsToPos f verts = .error e) ↔ ¬ faceInRange verts f := by
  unfold vertIdsToPos faceInRange
  rcases h1 : verts.get? f.1 with _ | a
  · simp only [List.get?_eq_none] at h1
    simp only [not_and, not_lt]
    exact ⟨fun _ => fun h => absurd h (not_lt.mpr h1), fun _ => ⟨_, rfl⟩⟩
  · have hf1 : f.1 < verts.length := (List.get?_eq_some.mp h1).1
    rcases h2 : verts.get? f.2.1 with _ | b
    · simp only [List.get?_eq_none] at h2
      constructor
      · intro _ hc
        exact absurd hc.2.1 (not_lt.mpr h2)
      · intro _
        exact ⟨_, rfl⟩
    · have hf2 : f.2.1 < verts.length := (List.get?_eq_some.mp h2).1
      rcases h3 : verts.get? f.2.2 with _ | c
      · simp only [List.get?_eq_none] at h3
        constructor
        · intro _ hc
          exact absurd hc.2.2 (not_lt.mpr h3)
        · intro _
          exact ⟨_, rfl⟩
      · have hf3 : f.2.2 < verts.length := (List.get?_eq_some.mp h3).1
        constructor
        · rintro ⟨e, he⟩
          exact absurd he (by simp)
        · intro hc
          exact absurd ⟨hf1, hf2, hf3⟩ hc

theorem collectTriangles_error_iff (verts : List V3) (faces : List (ℕ × ℕ × ℕ)) :
    (∃ e, collectTriangles verts faces = .error e) ↔
      ∃ f ∈ faces, ¬ faceInRange verts f := by
  induction faces with
  | nil => simp [collectTriangles]
  | cons f rest ih =>
    unfold collectTriangles
    rcases h1 : vertIdsToPos f verts with e | abc
    · have hf : ¬ faceInRange verts f := (vertIdsToPos_error_iff f verts).mp ⟨e, h1⟩
      simp only [List.mem_cons]
      exact ⟨fun _ => ⟨f, Or.inl rfl, hf⟩, fun _ => ⟨e, rfl⟩⟩
    · have hf : faceInRange verts f := by
        by_contra hc
        obtain ⟨e, he⟩ := (vertIdsToPos_error_iff f verts).mpr hc
        rw [h1] at he
        exact absurd he (by simp)
      obtain ⟨a, b, c⟩ := abc
      rcases h2 : collectTriangles verts rest with e | tris
      · have : ∃ f2 ∈ rest, ¬ faceInRange verts f2 := ih.mp ⟨e, h2⟩
        obtain ⟨f2, hf2, hnf2⟩ := this
        simp only [List.mem_cons]
        exact ⟨fun _ => ⟨f2, Or.inr hf2, hnf2⟩, fun _ => ⟨e, rfl⟩⟩
      · have hrest : ¬ ∃ f2 ∈ rest, ¬ faceInRange verts f2 := by
          intro hc
          obtain ⟨e, he⟩ := ih.mpr hc
          rw [h2] at he
          exact absurd he (by simp)
        constructor
        · rintro ⟨e, he⟩
          rcases h3 : Triangle.fromPoints a b c with _ | t <;> simp [h3] at he
        · rintro ⟨f2, hf2, hnf2⟩
          rcases List.mem_cons.mp hf2 with h | h
          · exact absurd hf (h ▸ hnf2)
          · exact absurd ⟨f2, h, hnf2⟩ hrest

theorem collectTriangles_nil_iff (verts : List V3) (faces : List (ℕ × ℕ × ℕ))
    (tris : List Triangle) (h : collectTriangles verts faces = .ok tris) :
    (tris = [] ↔ ∀ f ∈ faces, survivingTriangle verts f = none) := by
  induction faces generalizing tris with
  | nil =>
    simp only [collectTriangles] at h
    cases h
    simp
  | cons f rest ih =>
    unfold collectTriangles at h
    rcases h1 : vertIdsToPos f verts with e | abc <;> rw [h1] at h
    · exact absurd h (by simp)
    · obtain ⟨a, b, c⟩ := abc
      rcases h2 : collectTriangles verts rest with e | tris2 <;> rw [h2] at h
      · exact absurd h (by simp)
      · have hsurv : survivingTriangle verts f = Triangle.fromPoints a b c := by
          unfold survivingTriangle
          rw [h1]
        rcases h3 : Triangle.fromPoints a b c with _ | t <;>
          simp only [h3] at h <;> cases h
        · simp only [List.mem_cons]
          constructor
          · intro hnil g hg
            rcases hg with hg | hg
            · subst hg
              rw [hsurv, h3]
            · exact ((ih _ h2).mp hnil) g hg
          · intro hall
            exact (ih _ h2).mpr (fun g hg => hall g (Or.inr hg))
        · simp only [List.mem_cons]
          constructor
          · intro hnil
            exact absurd hnil (by simp)
          · intro hall
            have hx := hall f (Or.inl rfl)
            rw [hsurv, h3] at hx
            exact absurd hx (by simp)

theorem normalDir_swap12 (q1 q2 q3 : V3) :
    (Triangle.mk q2 q1 q3).normalDir =
      ⟨-(Triangle.mk q1 q2 q3).normalDir.x, -(Triangle.mk q1 q2 q3).normalDir.y,
        -(Triangle.mk q1 q2 q3).normalDir.z⟩ := by
  simp only [Triangle.normalDir, Triangle.u, Triangle.v, Vm.cross, Vm.diff,
    V3.mk.injEq]
  refine ⟨by ring, by ring, by ring⟩

theorem lenSq_neg3 (a : V3) : Vm.lenSq ⟨-a.x, -a.y, -a.z⟩ = Vm.lenSq a := by
  simp only [Vm.lenSq]
  ring

/-- C9: swapping the first two vertices handed to `Triangle::from_points`
negates the resulting unit normal componentwise, whenever both
constructions succeed. -/
theorem claim9_swap_flips_normal (q1 q2 q3 : V3) (t s : Triangle)
    (h1 : Triangle.fromPoints q1 q2 q3 = some t)
    (h2 : Triangle.fromPoints q2 q1 q3 = some s) :
    s.normal.1 = -t.normal.1 ∧ s.normal.2.1 = -t.normal.2.1 ∧
      s.normal.2.2 = -t.normal.2.2 := by
  unfold Triangle.fromPoints at h1 h2
  by_cases hc1 : Vm.lenSq (Vm.cross (Vm.diff q2 q1) (Vm.diff q3 q1)) = 0
  · rw [if_pos hc1] at h1
    exact absurd h1 (by simp)
  · rw [if_neg hc1] at h1
    by_cases hc2 : Vm.lenSq (Vm.cross (Vm.diff q1 q2) (Vm.diff q3 q2)) = 0
    · rw [if_pos hc2] at h2
      exact absurd h2 (by simp)
    · rw [if_neg hc2] at h2
      cases h1
      cases h2
      have hd := normalDir_swap12 q1 q2 q3
      simp only [Triangle.normal, hd, lenSq_neg3]
      push_cast
      refine ⟨?_, ?_, ?_⟩ <;> rw [neg_div]

/-- C5: `UniformSurface::new` skips individual degenerate faces without
erroring, and returns an error exactly when some face references an
out-of-range vertex index or when no valid triangle survives the filtering
(empty or all-degenerate face list). -/
theorem claim5_uniform_new_error_iff (verts : List V3)
    (faces : List (ℕ × ℕ × ℕ)) :
    (∃ e, UniformSurface.new verts faces = .error e) ↔
      ((∃ f ∈ faces, ¬ faceInRange verts f) ∨
        ∀ f ∈ faces, survivingTriangle verts f = none) := by
  unfold UniformSurface.new
  rcases hc : collectTriangles verts faces with e | tris <;> simp only [hc]
  · have h1 : ∃ f ∈ faces, ¬ faceInRange verts f :=
      (collectTriangles_error_iff verts faces).mp ⟨e, hc⟩
    exact ⟨fun _ => Or.inl h1, fun _ => ⟨e, rfl⟩⟩
  · have hnoerr : ¬ ∃ f ∈ faces, ¬ faceInRange verts f := by
      intro hcon
      obtain ⟨e, he⟩ := (collectTriangles_error_iff verts faces).mpr hcon
      rw [hc] at he
      exact absurd he (by simp)
    have hnil := collectTriangles_nil_iff verts faces tris hc
    by_cases he : tris.isEmpty = true
    · rw [if_pos he]
      have ht1 : tris = [] := List.isEmpty_iff.mp he
      exact ⟨fun _ => Or.inr (hnil.mp ht1), fun _ => ⟨.emptyInput, rfl⟩⟩
    · rw [if_neg he]
      constructor
      · rintro ⟨e2, he2⟩
        exact absurd he2 (by simp)
      · rintro (hl | hr)
        · exact absurd hl hnoerr
        · have ht2 : tris = [] := hnil.mpr hr
          rw [ht2] at he
          exact absurd rfl he

/-- C7: every position returned by uniform surface sampling is
`origin + a·u + b·v` for a triangle of the sampler's set, with the
coefficients produced by the exact parallelogram fold of the two uniform
draws (a single draw pair, never a rejection loop), hence
`a, b ≥ 0` and `a + b ≤ 1`. -/
theorem claim7_uniform_sample_affine (s : UniformSurface) (d : Draw)
    (smp : SurfSample) (h : s.sample d = some smp) :
    ∃ tri ∈ s.triangles,
      smp.position =
        Vm.add tri.origin (Vm.add (Vm.mul tri.v (foldUV d.vr d.ur).1)
          (Vm.mul tri.u (foldUV d.vr d.ur).2)) ∧
      0 ≤ (foldUV d.vr d.ur).2 ∧ 0 ≤ (foldUV d.vr d.ur).1 ∧
      (foldUV d.vr d.ur).2 + (foldUV d.vr d.ur).1 ≤ 1 := by
  unfold UniformSurface.sample at h
  rcases hg : s.triangles.get? d.t with _ | tri <;> simp only [hg] at h
  · exact absurd h (by simp)
  · by_cases hv : 0 ≤ d.vr ∧ d.vr < 1 ∧ 0 ≤ d.ur ∧ d.ur < 1
    · rw [if_pos hv] at h
      obtain ⟨h1, h2, h3, h4⟩ := hv
      obtain ⟨hb, ha, hab⟩ := foldUV_bounds d.vr d.ur h1 h2 h3 h4
      cases h
      exact ⟨tri, List.get?_mem hg, rfl, ha, hb, by linarith⟩
    · rw [if_neg hv] at h
      exact absurd h (by simp)

/-- A fixed nondegenerate triangle used by concrete witnesses. -/
def triW : Triangle := ⟨⟨0, 0, 0⟩, ⟨1, 0, 0⟩, ⟨0, 1, 0⟩⟩

/-- A one-triangle sampler used by concrete witnesses. -/
def uW : UniformSurface := ⟨[triW]⟩

/-- A concrete valid draw used by concrete witnesses. -/
def dW : Draw := ⟨0, 1/2, 1/4⟩

theorem claim7_witness :
    ∃ tri ∈ uW.triangles,
      (SurfSample.mk ⟨1/4, 1/2, 0⟩ triW 0).position =
        Vm.add tri.origin (Vm.add (Vm.mul tri.v (foldUV dW.vr dW.ur).1)
          (Vm.mul tri.u (foldUV dW.vr dW.ur).2)) ∧
      0 ≤ (foldUV dW.vr dW.ur).2 ∧ 0 ≤ (foldUV dW.vr dW.ur).1 ∧
      (foldUV dW.vr dW.ur).2 + (foldUV dW.vr dW.ur).1 ≤ 1 :=
  claim7_uniform_sample_affine uW dW (SurfSample.mk ⟨1/4, 1/2, 0⟩ triW 0)
    (by norm_num [UniformSurface.sample, uW, dW, triW, Triangle.samplePoint,
      foldUV, Triangle.origin, Triangle.u, Triangle.v, Vm.add, Vm.mul, Vm.diff])

theorem claim9_witness :
    (Triangle.mk ⟨1, 0, 0⟩ ⟨0, 0, 0⟩ ⟨0, 1, 0⟩).normal.1 =
        -(Triangle.mk ⟨0, 0, 0⟩ ⟨1, 0, 0⟩ ⟨0, 1, 0⟩).normal.1 ∧
      (Triangle.mk ⟨1, 0, 0⟩ ⟨0, 0, 0⟩ ⟨0, 1, 0⟩).normal.2.1 =
        -(Triangle.mk ⟨0, 0, 0⟩ ⟨1, 0, 0⟩ ⟨0, 1, 0⟩).normal.2.1 ∧
      (Triangle.mk ⟨1, 0, 0⟩ ⟨0, 0, 0⟩ ⟨0, 1, 0⟩).normal.2.2 =
        -(Triangle.mk ⟨0, 0, 0⟩ ⟨1, 0, 0⟩ ⟨0, 1, 0⟩).normal.2.2 :=
  claim9_swap_flips_normal ⟨0, 0, 0⟩ ⟨1, 0, 0⟩ ⟨0, 1, 0⟩
    (Triangle.mk ⟨0, 0, 0⟩ ⟨1, 0, 0⟩ ⟨0, 1, 0⟩)
    (Triangle.mk ⟨1, 0, 0⟩ ⟨0, 0, 0⟩ ⟨0, 1, 0⟩)
    (by norm_num [Triangle.fromPoints, Vm.lenSq, Vm.cross, Vm.diff])
    (by norm_num [Triangle.fromPoints, Vm.lenSq, Vm.cross, Vm.diff])

/-! ### src/surface/poisson_disk.rs : TriMeshGraph -/

/-- An edge key: a pair of vertex indices, canonicalized by `sortPair`
before every map access, mirroring `pair.sort()`. -/
abbrev Edge := ℕ × ℕ

/-- The `HashMap<[usize; 2], Vec<usize>>` of edge connections, modelled as
an association list.  Insertion overwrites the value of an existing key;
the key iteration order (used once, to seed the subdivision queue) is the
list order. -/
abbrev Conns := List (Edge × List ℕ)

def sortPair (p : Edge) : Edge := if p.1 ≤ p.2 then p else (p.2, p.1)

def alookup (m : Conns) (k : Edge) : Option (List ℕ) :=
  match m with
  | [] => none
  | kv :: rest => if kv.1 = k then some kv.2 else alookup rest k

/-- `HashMap::insert` (overwrites an existing binding). -/
def ainsert (m : Conns) (k : Edge) (v : List ℕ) : Conns :=
  (m.filter (fun kv => kv.1 ≠ k)) ++ [(k, v)]

/-- `HashMap::remove` -/
def aremove (m : Conns) (k : Edge) : Conns :=
  m.filter (fun kv => kv.1 ≠ k)

/-- `entry(k).or_default()` followed by an in-place rewrite of the value. -/
def aupdate (m : Conns) (k : Edge) (g : List ℕ → List ℕ) : Conns :=
  ainsert m k (g ((alookup m k).getD []))

/-- `TriMeshGraph` (the field `verticies` is spelled as in the source). -/
structure TriMeshGraph where
  verticies : List V3
  edgeConnections : Conns
  faces : List (ℕ × ℕ × ℕ)
deriving DecidableEq, Repr

/-- The three canonical edge keys of a face, in the source's
`[[i, j], [j, k], [k, i]]` order. -/
def faceSides (f : ℕ × ℕ × ℕ) : List Edge :=
  [sortPair (f.1, f.2.1), sortPair (f.2.1, f.2.2), sortPair (f.2.2, f.1)]

/-- `entry(pair).or_default().push(t_ind)` -/
def pushConn (m : Conns) (k : Edge) (t : ℕ) : Conns :=
  aupdate m k (fun l => l ++ [t])

def buildConnsGo (m : Conns) (tInd : ℕ) : List (ℕ × ℕ × ℕ) → Conns
  | [] => m
  | f :: rest =>
    let m1 := pushConn m (sortPair (f.1, f.2.1)) tInd
    let m2 := pushConn m1 (sortPair (f.2.1, f.2.2)) tInd
    let m3 := pushConn m2 (sortPair (f.2.2, f.1)) tInd
    buildConnsGo m3 (tInd + 1) rest

/-- The adjacency-building loop of `TriMeshGraph::new`. -/
def buildConns (faces : List (ℕ × ℕ × ℕ)) : Conns :=
  buildConnsGo [] 0 faces

/-- `TriMeshGraph::new` before the `subdivide(r)` call. -/
def buildGraph (verts : List V3) (faces : List (ℕ × ℕ × ℕ)) : TriMeshGraph :=
  ⟨verts, buildConns faces, faces⟩

/-- `m::dist_sq(self.verticies[i], self.verticies[j])`; `none` is the panic
of an out-of-range vertex index. -/
def edgeLenSq (g : TriMeshGraph) (e : Edge) : Option ℚ :=
  match g.verticies.get? e.1, g.verticies.get? e.2 with
  | some a, some b => some (Vm.distSq a b)
  | _, _ => none

/-- In-place replacement of one vertex index in a face
(`faces[tri_ind].iter_mut().for_each(...)`). -/
def replaceInFace (f : ℕ × ℕ × ℕ) (old new : ℕ) : ℕ × ℕ × ℕ :=
  (if f.1 = old then new else f.1, if f.2.1 = old then new else f.2.1,
    if f.2.2 = old then new else f.2.2)

/-- The first vertex of a face not belonging to the edge
(`.iter().filter(|i| !edge.contains(i)).next()`). -/
def oppositeVert (f : ℕ × ℕ × ℕ) (e : Edge) : Option ℕ :=
  if f.1 ≠ e.1 ∧ f.1 ≠ e.2 then some f.1
  else if f.2.1 ≠ e.1 ∧ f.2.1 ≠ e.2 then some f.2.1
  else if f.2.2 ≠ e.1 ∧ f.2.2 ≠ e.2 then some f.2.2
  else none

/-- Rewriting every occurrence of a face index inside an incidence list. -/
def replaceAll (l : List ℕ) (old new : ℕ) : List ℕ :=
  l.map (fun t => if t = old then new else t)

/-- The mutable state threaded through the incident-face loop of
`divide_edge`. -/
structure DivState where
  faces : List (ℕ × ℕ × ℕ)
  conns : Conns
  newTris : List ℕ
  newEdges : List Edge
deriving DecidableEq, Repr

/-- One iteration of the `for &tri_ind in &tris` loop of `divide_edge`. -/
def divideEdgeFace (edge : Edge) (newVInd : ℕ) (st : DivState) (triInd : ℕ) :
    Option DivState :=
  match st.faces.get? triInd with
  | none => none
  | some f =>
    match oppositeVert f edge with
    | none => none
    | some oppositeVInd =>
      let faces2 := st.faces.set triInd (replaceInFace f edge.2 newVInd)
      let newTriInd := faces2.length
      let faces3 := faces2 ++ [(edge.2, newVInd, oppositeVInd)]
      let splitEdge := sortPair (edge.2, oppositeVInd)
      let conns2 := aupdate st.conns splitEdge
        (fun l => replaceAll l triInd newTriInd)
      let nEdge := sortPair (newVInd, oppositeVInd)
      let conns3 := ainsert conns2 nEdge [triInd, newTriInd]
      some ⟨faces3, conns3, st.newTris ++ [newTriInd], st.newEdges ++ [nEdge]⟩

def divideEdgeLoop (edge : Edge) (newVInd : ℕ) :
    DivState → List ℕ → Option DivState
  | st, [] => some st
  | st, t :: rest =>
    match divideEdgeFace edge newVInd st t with
    | none => none
    | some st2 => divideEdgeLoop edge newVInd st2 rest

/-- `TriMeshGraph::divide_edge`.  `none` models the panics (`expect`s and
out-of-range indexing). -/
def divideEdge (g : TriMeshGraph) (edge0 : Edge) :
    Option (TriMeshGraph × List Edge) :=
  match g.verticies.get? edge0.1, g.verticies.get? edge0.2 with
  | some vA, some vB =>
    let newVert := Vm.midpoint vA vB
    let newVInd := g.verticies.length
    let verts2 := g.verticies ++ [newVert]
    match alookup g.edgeConnections edge0 with
    | none => none
    | some tris =>
      let conns0 := aremove g.edgeConnections edge0
      match divideEdgeLoop edge0 newVInd ⟨g.faces, conns0, [], []⟩ tris with
      | none => none
      | some st =>
        let newEdge := sortPair (newVInd, edge0.2)
        let conns4 := ainsert st.conns newEdge st.newTris
        let conns5 := aremove conns4 edge0
        let finalEdge := sortPair (edge0.1, newVInd)
        let conns6 := ainsert conns5 finalEdge tris
        some (⟨verts2, conns6, st.faces⟩,
          (st.newEdges ++ [newEdge]) ++ [finalEdge])
  | _, _ => none

/-- The result of a `subdivide` run: normal completion, a panic, or fuel
exhaustion of the model. -/
inductive SubRes where
  | done : TriMeshGraph → SubRes
  | panicked : SubRes
  | outOfFuel : SubRes
deriving DecidableEq, Repr

/-- The queue seeding of `subdivide`: every current edge key whose squared
length exceeds `r²`, in map iteration order. -/
def seedQueueGo (g : TriMeshGraph) (r : ℚ) : Conns → Option (List Edge)
  | [] => some []
  | kv :: rest =>
    match edgeLenSq g kv.1 with
    | none => none
    | some len2 =>
      match seedQueueGo g r rest with
      | none => none
      | some q => some (if r * r < len2 then kv.1 :: q else q)

def seedQueue (g : TriMeshGraph) (r : ℚ) : Option (List Edge) :=
  seedQueueGo g r g.edgeConnections

/-- `new_edges.retain(|e| dist_sq(...) > r * r)` -/
def filterLong (g : TriMeshGraph) (r : ℚ) : List Edge → Option (List Edge)
  | [] => some []
  | e :: rest =>
    match edgeLenSq g e with
    | none => none
    | some len2 =>
      match filterLong g r rest with
      | none => none
      | some q => some (if r * r < len2 then e :: q else q)

/-- The `while let Some(edge) = too_long_edges.pop_front()` loop of
`subdivide`, with fuel. -/
def subdivideLoop (r : ℚ) : ℕ → TriMeshGraph → List Edge → SubRes
  | _, g, [] => .done g
  | 0, _, _ :: _ => .outOfFuel
  | fuel + 1, g, e :: qt =>
    match divideEdge g e with
    | none => .panicked
    | some (g2, newEdges) =>
      match filterLong g2 r newEdges with
      | none => .panicked
      | some keep => subdivideLoop r fuel g2 (qt ++ keep)

/-- `TriMeshGraph::subdivide` -/
def subdivideFuel (fuel : ℕ) (g : TriMeshGraph) (r : ℚ) : SubRes :=
  match seedQueue g r with
  | none => .panicked
  | some q => subdivideLoop r fuel g q

/-- `TriMeshGraph::new` -/
def triMeshGraphNew (fuel : ℕ) (r : ℚ) (verts : List V3)
    (faces : List (ℕ × ℕ × ℕ)) : SubRes :=
  subdivideFuel fuel (buildGraph verts faces) r

/-- `TriMeshGraph::neighbors`, fully evaluated (the Rust iterator is always
drained by its caller).  `none` is the panic of indexing
`edge_connections[&s]` with a missing key or `faces[tri_ind]` out of
range. -/
def neighborsList (g : TriMeshGraph) (triInd : ℕ) : Option (List ℕ) :=
  match g.faces.get? triInd with
  | none => none
  | some f =>
    match alookup g.edgeConnections (sortPair (f.1, f.2.1)),
        alookup g.edgeConnections (sortPair (f.2.1, f.2.2)),
        alookup g.edgeConnections (sortPair (f.2.2, f.1)) with
    | some l1, some l2, some l3 =>
      some ((l1 ++ l2 ++ l3).filter (fun t => t ≠ triInd))
    | _, _, _ => none

/-! ### src/surface/poisson_disk.rs : PoissonDiskSurface -/

structure PoissonDiskSurface where
  mesh : TriMeshGraph
  sampler : UniformSurface
  r : ℚ
deriving DecidableEq, Repr

/-- `PoissonDiskSurface::new` (with subdivision fuel).  `none` covers both
the `Err` result and a panic inside subdivision. -/
def PoissonDiskSurface.new (fuel : ℕ) (r : ℚ) (verts : List V3)
    (faces : List (ℕ × ℕ × ℕ)) : Option PoissonDiskSurface :=
  match triMeshGraphNew fuel r verts faces with
  | .done g =>
    match UniformSurface.new g.verticies g.faces with
    | .ok s => some ⟨g, s, r⟩
    | .error _ => none
  | _ => none

inductive BfsErr where
  | panic : BfsErr
  | fuel : BfsErr
deriving DecidableEq, Repr

/-- The neighbor-pushing loop of `exists_point_within_sphere`: push each
not-yet-visited neighbor onto the search stack (list head = top of the
`Vec`) and record it as visited. -/
def pushUnvisited : List ℕ → List ℕ → List ℕ → List ℕ × List ℕ
  | search, visited, [] => (search, visited)
  | search, visited, n :: ns =>
    if n ∈ visited then pushUnvisited search visited ns
    else pushUnvisited (n :: search) (visited ++ [n]) ns

/-- The `while let Some(tri_ind) = searching.pop()` loop of
`exists_point_within_sphere`. -/
def existsPointLoop (pd : PoissonDiskSurface) (r : ℚ) (position : V3)
    (buckets : List (List V3)) : ℕ → List ℕ → List ℕ → Except BfsErr Bool
  | _, [], _ => .ok false
  | 0, _ :: _, _ => .error .fuel
  | fuel + 1, triInd :: searchRest, visited =>
    match pd.sampler.triangles.get? triInd with
    | none => .error .panic
    | some tri =>
      match tri.intersectsSphere position r with
      | none => .error .panic
      | some false => existsPointLoop pd r position buckets fuel searchRest visited
      | some true =>
        match neighborsList pd.mesh triInd with
        | none => .error .panic
        | some ns =>
          let pushed := pushUnvisited searchRest visited ns
          match buckets.get? triInd with
          | none => .error .panic
          | some samplesInTri =>
            if samplesInTri.any (fun p => decide (Vm.distSq p position < r * r))
            then .ok true
            else existsPointLoop pd r position buckets fuel pushed.1 pushed.2

/-- `PoissonDiskSurface::exists_point_within_sphere` -/
def existsPointWithinSphere (pd : PoissonDiskSurface) (r : ℚ) (position : V3)
    (tIndex : ℕ) (buckets : List (List V3)) (fuel : ℕ) : Except BfsErr Bool :=
  existsPointLoop pd r position buckets fuel [tIndex] [tIndex]

/-- The result of a `sample_naive` run: the final buckets together with the
final failure and acceptance counters, a panic, an impossible random draw
(a model artifact: the stream ended or contained a draw no real generator
produces), or conflict-search fuel exhaustion (a model artifact). -/
inductive SRes where
  | ok : List (List V3) → ℕ → ℕ → SRes
  | panic : SRes
  | invalidRng : SRes
  | bfsOut : SRes
deriving DecidableEq, Repr

/-- The `while retries > failures && count < max` loop of `sample_naive`. -/
def sampleNaiveLoop (pd : PoissonDiskSurface) (retries maxS bfsFuel : ℕ) :
    List Draw → List (List V3) → ℕ → ℕ → SRes
  | [], buckets, failures, count =>
    if failures < retries ∧ count < maxS then .invalidRng
    else .ok buckets failures count
  | d :: rest, buckets, failures, count =>
    if failures < retries ∧ count < maxS then
      match pd.sampler.sample d with
      | none => .invalidRng
      | some smp =>
        match existsPointWithinSphere pd pd.r smp.position smp.tIndex buckets
            bfsFuel with
        | .error .panic => .panic
        | .error .fuel => .bfsOut
        | .ok true => sampleNaiveLoop pd retries maxS bfsFuel rest buckets
            (failures + 1) count
        | .ok false =>
          match buckets.get? smp.tIndex with
          | none => .panic
          | some b =>
            sampleNaiveLoop pd retries maxS bfsFuel rest
              (buckets.set smp.tIndex (b ++ [smp.position])) failures (count + 1)
    else .ok buckets failures count

/-- `PoissonDiskSurface::sample_naive` -/
def sampleNaive (pd : PoissonDiskSurface) (retries maxS bfsFuel : ℕ)
    (draws : List Draw) : SRes :=
  sampleNaiveLoop pd retries maxS bfsFuel draws
    (List.replicate pd.sampler.triangles.length []) 0 0

/-- The vector `sample_naive` returns: `tri_buckets.concat()`. -/
def SRes.resultList : SRes → Option (List V3)
  | .ok buckets _ _ => some buckets.flatten
  | _ => none

/-! ### Concrete inputs used by counterexamples and witnesses -/

/-- Two coincident copies of one triangle (a "pillow"/dihedron: every edge
is shared by exactly two faces, so the mesh respects the documented
at-most-two-faces-per-edge input invariant). -/
def facesDup : List (ℕ × ℕ × ℕ) := [(0, 1, 2), (0, 1, 2)]

def vertsC8 : List V3 := [⟨0, 0, 0⟩, ⟨2, 0, 0⟩, ⟨0, 1, 0⟩]

/-- The graph obtained from the duplicated-face mesh by one split of the
shared edge `(0, 1)` (checked below against `divideEdge`). -/
def graphC8 : TriMeshGraph :=
  ⟨[⟨0, 0, 0⟩, ⟨2, 0, 0⟩, ⟨0, 1, 0⟩, ⟨1, 0, 0⟩],
    [((0, 2), [0, 1]), ((1, 2), [2, 3]), ((2, 3), [1, 3]), ((1, 3), [2, 3]),
      ((0, 3), [0, 1])],
    [(0, 3, 2), (0, 3, 2), (1, 3, 2), (1, 3, 2)]⟩

def vertsC6 : List V3 := [⟨0, 0, 0⟩, ⟨2, 0, 0⟩, ⟨1, 2, 0⟩]

/-- Two parallel, disconnected triangles at vertical distance `1/2`, all
edges shorter than `r = 1`. -/
def vertsC1 : List V3 :=
  [⟨1/2, 0, 0⟩, ⟨-1/4, 3/8, 0⟩, ⟨-1/4, -3/8, 0⟩,
    ⟨1/2, 0, 1/2⟩, ⟨-1/4, 3/8, 1/2⟩, ⟨-1/4, -3/8, 1/2⟩]

def facesTwo : List (ℕ × ℕ × ℕ) := [(0, 1, 2), (3, 4, 5)]

def pdC1 : PoissonDiskSurface :=
  ⟨⟨vertsC1,
      [((0, 1), [0]), ((1, 2), [0]), ((0, 2), [0]), ((3, 4), [1]),
        ((4, 5), [1]), ((3, 5), [1])],
      facesTwo⟩,
    ⟨[⟨⟨1/2, 0, 0⟩, ⟨-1/4, 3/8, 0⟩, ⟨-1/4, -3/8, 0⟩⟩,
        ⟨⟨1/2, 0, 1/2⟩, ⟨-1/4, 3/8, 1/2⟩, ⟨-1/4, -3/8, 1/2⟩⟩]⟩, 1⟩

/-- Two well-separated disconnected triangles (the second is the first
translated by `(10, 0, 0)`). -/
def vertsC3 : List V3 :=
  [⟨1/2, 0, 0⟩, ⟨-1/4, 3/8, 0⟩, ⟨-1/4, -3/8, 0⟩,
    ⟨21/2, 0, 0⟩, ⟨39/4, 3/8, 0⟩, ⟨39/4, -3/8, 0⟩]

def pdC3 : PoissonDiskSurface :=
  ⟨⟨vertsC3,
      [((0, 1), [0]), ((1, 2), [0]), ((0, 2), [0]), ((3, 4), [1]),
        ((4, 5), [1]), ((3, 5), [1])],
      facesTwo⟩,
    ⟨[⟨⟨1/2, 0, 0⟩, ⟨-1/4, 3/8, 0⟩, ⟨-1/4, -3/8, 0⟩⟩,
        ⟨⟨21/2, 0, 0⟩, ⟨39/4, 3/8, 0⟩, ⟨39/4, -3/8, 0⟩⟩]⟩, 1⟩

/-- A mesh whose face 0 is degenerate (collinear) while faces 1 and 2 share
an edge; all edges are at most `r = 1` long. -/
def vertsC4 : List V3 :=
  [⟨0, 0, 0⟩, ⟨1/2, 0, 0⟩, ⟨0, 1/2, 0⟩, ⟨1/2, 1/2, 0⟩,
    ⟨0, 0, 2⟩, ⟨1/4, 0, 2⟩, ⟨1/2, 0, 2⟩]

def facesC4 : List (ℕ × ℕ × ℕ) := [(4, 5, 6), (0, 1, 2), (1, 2, 3)]

def pdC4 : PoissonDiskSurface :=
  ⟨⟨vertsC4,
      [((4, 5), [0]), ((5, 6), [0]), ((4, 6), [0]), ((0, 1), [1]),
        ((0, 2), [1]), ((1, 2), [1, 2]), ((2, 3), [2]), ((1, 3), [2])],
      facesC4⟩,
    ⟨[⟨⟨0, 0, 0⟩, ⟨1/2, 0, 0⟩, ⟨0, 1/2, 0⟩⟩,
        ⟨⟨1/2, 0, 0⟩, ⟨0, 1/2, 0⟩, ⟨1/2, 1/2, 0⟩⟩]⟩, 1⟩

/-! ### Counterexample theorems -/

/-- C8 counterexample: in the topology state reached from the duplicated
"pillow" mesh by one split of the shared edge `(0, 1)`, faces `0` and `3`
share the side `(2, 3)`, face `3` appears in `neighbors(0)`, but face `0`
does not appear in `neighbors(3)` — neighbor symmetry fails in a reachable
state.  (The no-self-neighbor half survives: see the amended theorem.) -/
theorem claim8_counterexample :
    ∃ rest, divideEdge (buildGraph vertsC8 facesDup) (0, 1) =
        some (graphC8, rest) ∧
      sortPair (3, 2) ∈ faceSides (graphC8.faces.getD 0 (0, 0, 0)) ∧
      sortPair (3, 2) ∈ faceSides (graphC8.faces.getD 3 (0, 0, 0)) ∧
      neighborsList graphC8 0 = some [1, 1, 3, 1] ∧
      neighborsList graphC8 3 = some [2, 1, 2] ∧
      3 ∈ [1, 1, 3, 1] ∧ 0 ∉ [2, 1, 2] := by
  refine ⟨[(2, 3), (2, 3), (1, 3), (0, 3)], ?_, by decide, by decide,
    by decide, by decide, by decide, by decide⟩
  norm_num [divideEdge, buildGraph, buildConns, buildConnsGo, pushConn,
    aupdate, ainsert, alookup, aremove, sortPair, divideEdgeLoop,
    divideEdgeFace, oppositeVert, replaceInFace, replaceAll, Vm.midpoint,
    vertsC8, facesDup, graphC8, List.filter]

/-- C1 counterexample: a mesh accepted by `PoissonDiskSurface::new` with
`r = 1` (two disconnected parallel triangles half a unit apart) and a
two-draw rng stream for which `sample_naive` returns two distinct points at
distance `1/2 < r`: the conflict search never reaches the other connected
component, so both candidates are accepted. -/
theorem claim1_counterexample :
    ∃ pd, PoissonDiskSurface.new 1 1 vertsC1 facesTwo = some pd ∧
      (sampleNaive pd 1 2 9 [⟨1, 1/4, 1/4⟩, ⟨0, 1/4, 1/4⟩]).resultList =
        some [⟨1/8, 0, 0⟩, ⟨1/8, 0, 1/2⟩] ∧
      (⟨1/8, 0, 0⟩ : V3) ≠ ⟨1/8, 0, 1/2⟩ ∧
      Vm.distSq ⟨1/8, 0, 0⟩ ⟨1/8, 0, 1/2⟩ < pd.r * pd.r := by
  refine ⟨pdC1, ?_, ?_, by norm_num [V3.mk.injEq], ?_⟩
  · norm_num [PoissonDiskSurface.new, triMeshGraphNew, subdivideFuel,
      seedQueue, seedQueueGo, subdivideLoop, buildGraph, buildConns,
      buildConnsGo, pushConn, aupdate, ainsert, alookup, aremove, sortPair,
      edgeLenSq, Vm.distSq, Vm.lenSq, Vm.diff, UniformSurface.new,
      collectTriangles, vertIdsToPos, Triangle.fromPoints, Vm.cross, vertsC1,
      facesTwo, pdC1, List.filter]
  · norm_num [sampleNaive, sampleNaiveLoop, UniformSurface.sample, pdC1,
      vertsC1, facesTwo, Triangle.samplePoint, foldUV, Triangle.origin,
      Triangle.u, Triangle.v, Vm.add, Vm.mul, Vm.diff, existsPointWithinSphere,
      existsPointLoop, Triangle.intersectsSphere, Vm.distSq, Vm.lenSq,
      neighborsList, alookup, sortPair, pushUnvisited, List.replicate,
      List.set, List.filter, SRes.resultList]
  · norm_num [Vm.distSq, Vm.lenSq, Vm.diff, pdC1]

/-- C3 counterexample: a run of `sample_naive` whose final step is an
acceptance (the acceptance counter goes from 1 to 2) yet whose failure
counter stays at 1 instead of being reset to 0: the code never resets the
failure counter, so the retry limit bounds total rejections, not
consecutive ones.  The second conjunct shows the single acceptance step
from the state with `failures = 1` explicitly. -/
theorem claim3_counterexample :
    ∃ pd, PoissonDiskSurface.new 1 1 vertsC3 facesTwo = some pd ∧
      sampleNaiveLoop pd 2 2 9 [⟨1, 1/4, 1/4⟩] [[⟨1/8, 0, 0⟩], []] 1 1 =
        SRes.ok [[⟨1/8, 0, 0⟩], [⟨81/8, 0, 0⟩]] 1 2 ∧
      sampleNaive pd 2 2 9 [⟨0, 1/4, 1/4⟩, ⟨0, 1/4, 1/4⟩, ⟨1, 1/4, 1/4⟩] =
        SRes.ok [[⟨1/8, 0, 0⟩], [⟨81/8, 0, 0⟩]] 1 2 ∧
      (1 : ℕ) ≠ 0 := by
  refine ⟨pdC3, ?_, ?_, ?_, by decide⟩
  · norm_num [PoissonDiskSurface.new, triMeshGraphNew, subdivideFuel,
      seedQueue, seedQueueGo, subdivideLoop, buildGraph, buildConns,
      buildConnsGo, pushConn, aupdate, ainsert, alookup, aremove, sortPair,
      edgeLenSq, Vm.distSq, Vm.lenSq, Vm.diff, UniformSurface.new,
      collectTriangles, vertIdsToPos, Triangle.fromPoints, Vm.cross, vertsC3,
      facesTwo, pdC3, List.filter]
  · norm_num [sampleNaiveLoop, UniformSurface.sample, pdC3, vertsC3,
      facesTwo, Triangle.samplePoint, foldUV, Triangle.origin, Triangle.u,
      Triangle.v, Vm.add, Vm.mul, Vm.diff, existsPointWithinSphere,
      existsPointLoop, Triangle.intersectsSphere, Vm.distSq, Vm.lenSq,
      neighborsList, alookup, sortPair, pushUnvisited, List.set, List.filter]
  · norm_num [sampleNaive, sampleNaiveLoop, UniformSurface.sample, pdC3,
      vertsC3, facesTwo, Triangle.samplePoint, foldUV, Triangle.origin,
      Triangle.u, Triangle.v, Vm.add, Vm.mul, Vm.diff, existsPointWithinSphere,
      existsPointLoop, Triangle.intersectsSphere, Vm.distSq, Vm.lenSq,
      neighborsList, alookup, sortPair, pushUnvisited, List.replicate,
      List.set, List.filter]

/-- C4: on a successfully constructed sampler whose refined mesh contains a
degenerate face, a sampling call panics for every rng stream beginning with
a draw of triangle 1: the adjacency graph indexes faces `0..2` but
`sampler.triangles` skipped the degenerate face and has length 2, so the
conflict search evaluates `self.sampler.triangles[2]` — out of range —
whatever conflict-search fuel the model is given. -/
theorem claim4_sampling_panics :
    ∃ pd, PoissonDiskSurface.new 1 1 vertsC4 facesC4 = some pd ∧
      ∀ n rest, sampleNaive pd 5 5 (n + 2) (⟨1, 1/4, 1/4⟩ :: rest) =
        SRes.panic := by
  refine ⟨pdC4, ?_, ?_⟩
  · norm_num [PoissonDiskSurface.new, triMeshGraphNew, subdivideFuel,
      seedQueue, seedQueueGo, subdivideLoop, buildGraph, buildConns,
      buildConnsGo, pushConn, aupdate, ainsert, alookup, aremove, sortPair,
      edgeLenSq, Vm.distSq, Vm.lenSq, Vm.diff, UniformSurface.new,
      collectTriangles, vertIdsToPos, Triangle.fromPoints, Vm.cross, vertsC4,
      facesC4, pdC4, List.filter]
  · intro n rest
    norm_num [sampleNaive, sampleNaiveLoop, UniformSurface.sample, pdC4,
      vertsC4, facesC4, Triangle.samplePoint, foldUV, Triangle.origin,
      Triangle.u, Triangle.v, Vm.add, Vm.mul, Vm.diff, existsPointWithinSphere,
      existsPointLoop, Triangle.intersectsSphere, Vm.distSq, Vm.lenSq,
      neighborsList, alookup, sortPair, pushUnvisited, List.replicate,
      List.set, List.filter]

/-- Fuel monotonicity: a subdivision run that finishes (normally or by
panicking) within `n` loop iterations gives the same result with any larger
fuel. -/
theorem subdivideLoop_stable (r : ℚ) :
    ∀ (n : ℕ) (g : TriMeshGraph) (q : List Edge) (m : ℕ), n ≤ m →
      subdivideLoop r n g q ≠ SubRes.outOfFuel →
      subdivideLoop r m g q = subdivideLoop r n g q := by
  intro n
  induction n with
  | zero =>
    intro g q m hm hne
    cases q with
    | nil => cases m <;> rfl
    | cons e qt => exact absurd rfl hne
  | succ n ih =>
    intro g q m hm hne
    cases q with
    | nil => cases m <;> rfl
    | cons e qt =>
      obtain ⟨m2, rfl⟩ : ∃ m2, m = m2 + 1 := ⟨m - 1, by omega⟩
      simp only [subdivideLoop] at hne ⊢
      cases hde : divideEdge g e with
      | none => simp [hde]
      | some p =>
        obtain ⟨g2, ne2⟩ := p
        simp only [hde] at hne ⊢
        cases hfl : filterLong g2 r ne2 with
        | none => simp
        | some keep =>
          simp only [hfl] at hne ⊢
          exact ih g2 (qt ++ keep) m2 (by omega) hne

/-- The seed queue of the dihedron mesh at `r = 1`. -/
def queueC6 : List Edge := [(0, 1), (1, 2), (0, 2)]

theorem seedQueue_c6 : seedQueue (buildGraph vertsC6 facesDup) 1 = some queueC6 := by
  norm_num [seedQueue, seedQueueGo, buildGraph, buildConns, buildConnsGo,
    pushConn, aupdate, ainsert, alookup, sortPair, edgeLenSq, Vm.distSq,
    Vm.lenSq, Vm.diff, vertsC6, facesDup, queueC6, List.filter]

theorem subdivide_c6_panics :
    subdivideLoop 1 5 (buildGraph vertsC6 facesDup) queueC6 = SubRes.panicked := by
  norm_num [subdivideLoop, divideEdge, buildGraph, buildConns, buildConnsGo,
    pushConn, aupdate, ainsert, alookup, aremove, sortPair, divideEdgeLoop,
    divideEdgeFace, oppositeVert, replaceInFace, replaceAll, Vm.midpoint,
    filterLong, edgeLenSq, Vm.distSq, Vm.lenSq, Vm.diff, vertsC6, facesDup,
    queueC6, List.filter, List.set]

/-- C6 counterexample: on the duplicated-face "pillow" mesh (which respects
the documented at-most-two-faces-per-edge input invariant) with `r = 1`,
`subdivide` never empties its work queue: the split of the shared edge
queues the same new cross edge twice, and the second pop panics
(`"edge had no associated tris"`) after five loop iterations, for every
fuel. -/
theorem claim6_counterexample :
    subdivideFuel 5 (buildGraph vertsC6 facesDup) 1 = SubRes.panicked ∧
      ∀ n g2, subdivideFuel n (buildGraph vertsC6 facesDup) 1 ≠
        SubRes.done g2 := by
  constructor
  · simp only [subdivideFuel, seedQueue_c6]
    exact subdivide_c6_panics
  · intro n g2 hdone
    simp only [subdivideFuel, seedQueue_c6] at hdone
    have h1 := subdivideLoop_stable 1 n (buildGraph vertsC6 facesDup) queueC6
      (n + 5) (by omega) (by rw [hdone]; simp)
    have h2 := subdivideLoop_stable 1 5 (buildGraph vertsC6 facesDup) queueC6
      (n + 5) (by omega) (by rw [subdivide_c6_panics]; simp)
    rw [hdone] at h1
    rw [subdivide_c6_panics] at h2
    rw [h1] at h2
    exact absurd h2 (by simp)

/-- Inversion of a successful `neighbors` call: the face exists, all three
side keys are present, and the result is the concatenation of their
incidence lists with the face itself filtered out. -/
theorem neighborsList_spec (g : TriMeshGraph) (t : ℕ) (l : List ℕ)
    (h : neighborsList g t = some l) :
    ∃ f l1 l2 l3, g.faces.get? t = some f ∧
      alookup g.edgeConnections (sortPair (f.1, f.2.1)) = some l1 ∧
      alookup g.edgeConnections (sortPair (f.2.1, f.2.2)) = some l2 ∧
      alookup g.edgeConnections (sortPair (f.2.2, f.1)) = some l3 ∧
      l = (l1 ++ l2 ++ l3).filter (fun x => x ≠ t) := by
  unfold neighborsList at h
  rcases hf : g.faces.get? t with _ | f <;> simp only [hf] at h
  · exact absurd h (by simp)
  · rcases h1 : alookup g.edgeConnections (sortPair (f.1, f.2.1)) with _ | l1 <;>
      rcases h2 : alookup g.edgeConnections (sortPair (f.2.1, f.2.2)) with _ | l2 <;>
        rcases h3 : alookup g.edgeConnections (sortPair (f.2.2, f.1)) with _ | l3 <;>
          simp only [h1, h2, h3] at h
    all_goals first
      | exact Option.noConfusion h
      | exact ⟨f, l1, l2, l3, rfl, h1, h2, h3, (Option.some_inj.mp h).symm⟩

/-- If `u` is listed under an edge key that is a side of face `t`, and
`neighbors(t)` completes, then `u ≠ t` appears in `neighbors(t)`. -/
theorem mem_neighbors_of_colisted (g : TriMeshGraph) (e : Edge) (el : List ℕ)
    (t u : ℕ) (ft : ℕ × ℕ × ℕ) (lt : List ℕ)
    (hel : alookup g.edgeConnections e = some el) (huel : u ∈ el)
    (hut : u ≠ t) (hft : g.faces.get? t = some ft) (heft : e ∈ faceSides ft)
    (hlt : neighborsList g t = some lt) : u ∈ lt := by
  obtain ⟨f, l1, l2, l3, hf, h1, h2, h3, hl⟩ := neighborsList_spec g t lt hlt
  rw [hft] at hf
  cases Option.some_inj.mp hf
  simp only [faceSides, List.mem_cons, List.not_mem_nil, or_false] at heft
  have hmem : u ∈ l1 ++ l2 ++ l3 := by
    rcases heft with he | he | he
    · have h1e : alookup g.edgeConnections e = some l1 := by rw [he]; exact h1
      rw [hel] at h1e
      cases Option.some_inj.mp h1e
      exact List.mem_append_left _ (List.mem_append_left _ huel)
    · have h2e : alookup g.edgeConnections e = some l2 := by rw [he]; exact h2
      rw [hel] at h2e
      cases Option.some_inj.mp h2e
      exact List.mem_append_left _ (List.mem_append_right _ huel)
    · have h3e : alookup g.edgeConnections e = some l3 := by rw [he]; exact h3
      rw [hel] at h3e
      cases Option.some_inj.mp h3e
      exact List.mem_append_right _ huel
  subst hl
  exact List.mem_filter.mpr ⟨hmem, by simp [hut]⟩

/-- C8 amended: in every topology state, (1) `neighbors(f)` never yields
`f` itself; and (2) for every pair of distinct faces co-listed in the
incidence list of an edge key that is a side of both — which is how two
faces share an edge in a consistent adjacency state — each appears in the
other's neighbor iteration, whenever those iterations complete without
panicking. -/
theorem claim8_neighbors_no_self_and_symm :
    (∀ (g : TriMeshGraph) (t : ℕ) (l : List ℕ),
      neighborsList g t = some l → t ∉ l) ∧
    (∀ (g : TriMeshGraph) (e : Edge) (el : List ℕ) (t u : ℕ)
      (ft fu : ℕ × ℕ × ℕ) (lt lu : List ℕ),
      alookup g.edgeConnections e = some el → t ∈ el → u ∈ el → t ≠ u →
      g.faces.get? t = some ft → e ∈ faceSides ft →
      g.faces.get? u = some fu → e ∈ faceSides fu →
      neighborsList g t = some lt → neighborsList g u = some lu →
      u ∈ lt ∧ t ∈ lu) := by
  constructor
  · intro g t l h ht
    obtain ⟨f, l1, l2, l3, _, _, _, _, hl⟩ := neighborsList_spec g t l h
    subst hl
    have hmf := List.mem_filter.mp ht
    simp at hmf
  · intro g e el t u ft fu lt lu hel htel huel htu hft heft hfu hefu hlt hlu
    exact ⟨mem_neighbors_of_colisted g e el t u ft lt hel huel
        (fun hc => htu hc.symm) hft heft hlt,
      mem_neighbors_of_colisted g e el u t fu lu hel htel htu hfu hefu hlu⟩

theorem claim8_witness :
    ((0 : ℕ) ∉ ([1, 1, 3, 1] : List ℕ)) ∧
      ((3 : ℕ) ∈ ([3, 1, 3, 3] : List ℕ) ∧ (2 : ℕ) ∈ ([2, 1, 2] : List ℕ)) :=
  ⟨claim8_neighbors_no_self_and_symm.1 graphC8 0 [1, 1, 3, 1] (by decide),
    claim8_neighbors_no_self_and_symm.2 graphC8 (1, 3) [2, 3] 2 3 (1, 3, 2)
      (1, 3, 2) [3, 1, 3, 3] [2, 1, 2] (by decide) (by decide) (by decide)
      (by decide) (by decide) (by decide) (by decide) (by decide) (by decide)
      (by decide)⟩

/-- Any normal exit of the `sample_naive` loop happens exactly at the first
state where the failure counter has reached the retry budget or the
acceptance counter has reached the sample budget. -/
theorem sampleNaiveLoop_ok_inv (pd : PoissonDiskSurface)
    (retries maxS bfsFuel : ℕ) :
    ∀ (draws : List Draw) (buckets : List (List V3)) (f c : ℕ),
      f ≤ retries → c ≤ maxS →
      ∀ (b2 : List (List V3)) (f2 c2 : ℕ),
      sampleNaiveLoop pd retries maxS bfsFuel draws buckets f c =
        SRes.ok b2 f2 c2 →
      (f2 = retries ∨ c2 = maxS) ∧ f2 ≤ retries ∧ c2 ≤ maxS := by
  intro draws
  induction draws with
  | nil =>
    intro buckets f c hf hc b2 f2 c2 h
    by_cases hg : f < retries ∧ c < maxS
    · simp only [sampleNaiveLoop, if_pos hg] at h
      exact absurd h (by simp)
    · simp only [sampleNaiveLoop, if_neg hg] at h
      cases h
      rw [not_and_or, not_lt, not_lt] at hg
      exact ⟨by omega, hf, hc⟩
  | cons d rest ih =>
    intro buckets f c hf hc b2 f2 c2 h
    by_cases hg : f < retries ∧ c < maxS
    · simp only [sampleNaiveLoop, if_pos hg] at h
      rcases hs : pd.sampler.sample d with _ | smp <;> simp only [hs] at h
      · exact absurd h (by simp)
      · rcases hb : existsPointWithinSphere pd pd.r smp.position smp.tIndex
            buckets bfsFuel with e | bres <;> simp only [hb] at h
        · cases e <;> simp only [] at h <;> exact absurd h (by simp)
        · cases bres
          · rcases hget : buckets.get? smp.tIndex with _ | bl <;>
              simp only [hget] at h
            · exact absurd h (by simp)
            · exact ih _ f (c + 1) hf (by omega) b2 f2 c2 h
          · exact ih buckets (f + 1) c (by omega) hc b2 f2 c2 h
    · simp only [sampleNaiveLoop, if_neg hg] at h
      cases h
      rw [not_and_or, not_lt, not_lt] at hg
      exact ⟨by omega, hf, hc⟩

/-- C3 amended: (1) the sampling loop returns normally exactly when the
failure counter has reached `retries` or the acceptance counter has reached
`max`, each counter growing by single increments up to its bound; and
(2) an acceptance step leaves the failure counter unchanged — it is never
reset — so `retries` bounds the total number of rejections over the whole
run rather than consecutive rejections since the last acceptance. -/
theorem claim3_loop_characterization :
    (∀ (pd : PoissonDiskSurface) (retries maxS bfsFuel : ℕ)
      (draws : List Draw) (b2 : List (List V3)) (f2 c2 : ℕ),
      sampleNaive pd retries maxS bfsFuel draws = SRes.ok b2 f2 c2 →
      (f2 = retries ∨ c2 = maxS) ∧ f2 ≤ retries ∧ c2 ≤ maxS) ∧
    (∀ (pd : PoissonDiskSurface) (retries maxS bfsFuel : ℕ) (d : Draw)
      (rest : List Draw) (buckets : List (List V3)) (f c : ℕ)
      (smp : SurfSample) (bl : List V3),
      f < retries → c < maxS → pd.sampler.sample d = some smp →
      existsPointWithinSphere pd pd.r smp.position smp.tIndex buckets
        bfsFuel = .ok false →
      buckets.get? smp.tIndex = some bl →
      sampleNaiveLoop pd retries maxS bfsFuel (d :: rest) buckets f c =
        sampleNaiveLoop pd retries maxS bfsFuel rest
          (buckets.set smp.tIndex (bl ++ [smp.position])) f (c + 1)) := by
  constructor
  · intro pd retries maxS bfsFuel draws b2 f2 c2 h
    exact sampleNaiveLoop_ok_inv pd retries maxS bfsFuel draws _ 0 0
      (Nat.zero_le _) (Nat.zero_le _) b2 f2 c2 h
  · intro pd retries maxS bfsFuel d rest buckets f c smp bl hf hc hs hb hget
    simp only [sampleNaiveLoop, if_pos (And.intro hf hc), hs, hb, hget]

theorem claim3_witness :
    (((1 : ℕ) = 2 ∨ (2 : ℕ) = 2) ∧ (1 : ℕ) ≤ 2 ∧ (2 : ℕ) ≤ 2) ∧
      sampleNaiveLoop pdC3 2 2 9 [⟨1, 1/4, 1/4⟩] [[⟨1/8, 0, 0⟩], []] 1 1 =
        sampleNaiveLoop pdC3 2 2 9 []
          (([[⟨1/8, 0, 0⟩], []] : List (List V3)).set 1 ([] ++ [⟨81/8, 0, 0⟩]))
          1 (1 + 1) := by
  constructor
  · refine claim3_loop_characterization.1 pdC3 2 2 9
      [⟨0, 1/4, 1/4⟩, ⟨0, 1/4, 1/4⟩, ⟨1, 1/4, 1/4⟩]
      [[⟨1/8, 0, 0⟩], [⟨81/8, 0, 0⟩]] 1 2 ?_
    norm_num [sampleNaive, sampleNaiveLoop, UniformSurface.sample, pdC3,
      vertsC3, facesTwo, Triangle.samplePoint, foldUV, Triangle.origin,
      Triangle.u, Triangle.v, Vm.add, Vm.mul, Vm.diff, existsPointWithinSphere,
      existsPointLoop, Triangle.intersectsSphere, Vm.distSq, Vm.lenSq,
      neighborsList, alookup, sortPair, pushUnvisited, List.replicate,
      List.set, List.filter]
  · refine claim3_loop_characterization.2 pdC3 2 2 9 ⟨1, 1/4, 1/4⟩ []
      [[⟨1/8, 0, 0⟩], []] 1 1
      ⟨⟨81/8, 0, 0⟩, ⟨⟨21/2, 0, 0⟩, ⟨39/4, 3/8, 0⟩, ⟨39/4, -3/8, 0⟩⟩, 1⟩ []
      (by decide) (by decide) ?_ ?_ (by rfl)
    · norm_num [UniformSurface.sample, pdC3, vertsC3, Triangle.samplePoint,
        foldUV, Triangle.origin, Triangle.u, Triangle.v, Vm.add, Vm.mul,
        Vm.diff]
    · norm_num [existsPointWithinSphere, existsPointLoop, pdC3, vertsC3,
        facesTwo, Triangle.intersectsSphere, Vm.distSq, Vm.lenSq, Vm.diff,
        neighborsList, alookup, sortPair, pushUnvisited, List.filter]

/-- Frame property of the incident-face loop of `divide_edge`: each
iteration appends exactly one face and rewrites only its own incident face
in place; faces at indices outside the processed list are untouched. -/
theorem divideEdgeLoop_frame (e : Edge) (m : ℕ) :
    ∀ (ts : List ℕ) (st st2 : DivState),
      divideEdgeLoop e m st ts = some st2 →
      st2.faces.length = st.faces.length + ts.length ∧
      ∀ k, k < st.faces.length → k ∉ ts →
        st2.faces.get? k = st.faces.get? k := by
  intro ts
  induction ts with
  | nil =>
    intro st st2 h
    cases h
    exact ⟨rfl, fun _ _ _ => rfl⟩
  | cons t rest ih =>
    intro st st2 h
    simp only [divideEdgeLoop] at h
    rcases hstep : divideEdgeFace e m st t with _ | st1 <;>
      simp only [hstep] at h
    · exact absurd h (by simp)
    · unfold divideEdgeFace at hstep
      rcases hget : st.faces.get? t with _ | f <;> simp only [hget] at hstep
      · exact absurd hstep (by simp)
      · rcases hopp : oppositeVert f e with _ | opp <;>
          simp only [hopp] at hstep
        · exact absurd hstep (by simp)
        · cases hstep
          obtain ⟨ihlen, ihframe⟩ := ih _ st2 h
          constructor
          · simp only [List.length_append, List.length_set, List.length_cons,
              List.length_nil] at ihlen ⊢
            omega
          · intro k hk hkmem
            have hkt : k ≠ t := fun hc => hkmem (hc ▸ List.mem_cons_self t rest)
            have hkrest : k ∉ rest := fun hc => hkmem (List.mem_cons_of_mem t hc)
            have hk1 : k < (st.faces.set t
                (replaceInFace f e.2 m) ++
                  [(e.2, m, opp)]).length := by
              simp only [List.length_append, List.length_set]
              omega
            rw [ihframe k (by simpa using hk1) hkrest]
            simp only [List.get?_eq_getElem?, List.getElem?_append,
              List.length_set, if_pos hk]
            rw [List.getElem?_set_ne (fun hc => hkt hc.symm)]

/-- C10: a successful `divide_edge` call appends exactly one vertex — the
midpoint of the split edge — to the vertex buffer without touching any
existing entry, appends exactly one new face per entry of the split edge's
incidence list, keeps every pre-existing face at its index (no removal or
reordering), and leaves faces not incident to the edge entirely
unchanged. -/
theorem claim10_divide_edge_frame (g : TriMeshGraph) (e : Edge)
    (g2 : TriMeshGraph) (ne : List Edge)
    (h : divideEdge g e = some (g2, ne)) :
    ∃ vA vB tris,
      g.verticies.get? e.1 = some vA ∧ g.verticies.get? e.2 = some vB ∧
      alookup g.edgeConnections e = some tris ∧
      g2.verticies = g.verticies ++ [Vm.midpoint vA vB] ∧
      g2.faces.length = g.faces.length + tris.length ∧
      (∀ k, k < g.faces.length → k ∉ tris →
        g2.faces.get? k = g.faces.get? k) ∧
      (∀ k, k < g.faces.length → ∃ f2, g2.faces.get? k = some f2) := by
  unfold divideEdge at h
  rcases hA : g.verticies.get? e.1 with _ | vA <;> simp only [hA] at h
  · exact absurd h (by simp)
  rcases hB : g.verticies.get? e.2 with _ | vB <;> simp only [hB] at h
  · exact absurd h (by simp)
  rcases hT : alookup g.edgeConnections e with _ | tris <;> simp only [hT] at h
  · exact absurd h (by simp)
  rcases hL : divideEdgeLoop e g.verticies.length
      ⟨g.faces, aremove g.edgeConnections e, [], []⟩ tris with _ | st <;>
    simp only [hL] at h
  · exact absurd h (by simp)
  obtain ⟨hlen, hframe⟩ := divideEdgeLoop_frame e g.verticies.length tris _ st hL
  have hlen2 : st.faces.length = g.faces.length + tris.length := hlen
  cases h
  refine ⟨vA, vB, tris, rfl, rfl, rfl, rfl, hlen2, hframe, ?_⟩
  intro k hk
  have hk2 : k < st.faces.length := by omega
  exact ⟨_, List.get?_eq_get hk2⟩

theorem claim10_witness :
    ∃ vA vB tris,
      (buildGraph vertsC8 facesDup).verticies.get? 0 = some vA ∧
      (buildGraph vertsC8 facesDup).verticies.get? 1 = some vB ∧
      alookup (buildGraph vertsC8 facesDup).edgeConnections (0, 1) = some tris ∧
      graphC8.verticies =
        (buildGraph vertsC8 facesDup).verticies ++ [Vm.midpoint vA vB] ∧
      graphC8.faces.length =
        (buildGraph vertsC8 facesDup).faces.length + tris.length ∧
      (∀ k, k < (buildGraph vertsC8 facesDup).faces.length → k ∉ tris →
        graphC8.faces.get? k = (buildGraph vertsC8 facesDup).faces.get? k) ∧
      (∀ k, k < (buildGraph vertsC8 facesDup).faces.length →
        ∃ f2, graphC8.faces.get? k = some f2) :=
  claim10_divide_edge_frame (buildGraph vertsC8 facesDup) (0, 1) graphC8
    [(2, 3), (2, 3), (1, 3), (0, 3)]
    (by norm_num [divideEdge, buildGraph, buildConns, buildConnsGo, pushConn,
      aupdate, ainsert, alookup, aremove, sortPair, divideEdgeLoop,
      divideEdgeFace, oppositeVert, replaceInFace, replaceAll, Vm.midpoint,
      vertsC8, facesDup, graphC8, List.filter])

/-- If the conflict search reports "no conflict", then the bucket of the
root triangle holds no point within `r` of the candidate.  The root
triangle is always scanned: the candidate was sampled inside it, and a
point of a triangle whose edges are all at most `r` (enforced by the
`assert!`s) is within `r` of the triangle's first vertex, so the
vertex-proximity test cannot prune the root. -/
theorem bfs_false_root_clean (pd : PoissonDiskSurface) (fuel : ℕ) (t : ℕ)
    (tri : Triangle) (vr ur : ℚ) (buckets : List (List V3)) (bl : List V3)
    (htri : pd.sampler.triangles.get? t = some tri)
    (hvr0 : 0 ≤ vr) (hvr1 : vr < 1) (hur0 : 0 ≤ ur) (hur1 : ur < 1)
    (hbl : buckets.get? t = some bl)
    (hbfs : existsPointWithinSphere pd pd.r (tri.samplePoint vr ur) t buckets
      fuel = .ok false) :
    ∀ p ∈ bl, pd.r * pd.r ≤ Vm.distSq p (tri.samplePoint vr ur) := by
  unfold existsPointWithinSphere at hbfs
  cases fuel with
  | zero => exact absurd hbfs (by simp [existsPointLoop])
  | succ n =>
    simp only [existsPointLoop, htri] at hbfs
    unfold Triangle.intersectsSphere at hbfs
    by_cases hcond : Vm.distSq tri.p1 tri.p2 ≤ pd.r * pd.r ∧
        Vm.distSq tri.p2 tri.p3 ≤ pd.r * pd.r ∧
        Vm.distSq tri.p3 tri.p1 ≤ pd.r * pd.r
    · rw [if_pos hcond] at hbfs
      obtain ⟨e12, e23, e31⟩ := hcond
      have hclose : Vm.distSq (tri.samplePoint vr ur) tri.p1 ≤ pd.r * pd.r :=
        samplePoint_close_to_p1 tri vr ur (pd.r * pd.r) hvr0 hvr1 hur0 hur1
          e12 e23 e31
      have hdec : decide (Vm.distSq (tri.samplePoint vr ur) tri.p1 ≤
            pd.r * pd.r ∨
          Vm.distSq (tri.samplePoint vr ur) tri.p2 ≤ pd.r * pd.r ∨
          Vm.distSq (tri.samplePoint vr ur) tri.p3 ≤ pd.r * pd.r) = true :=
        decide_eq_true (Or.inl hclose)
      rw [hdec] at hbfs
      rcases hns : neighborsList pd.mesh t with _ | ns <;>
        simp only [hns] at hbfs
      · exact absurd hbfs (by simp)
      · simp only [hbl] at hbfs
        by_cases hany : bl.any
            (fun p => decide (Vm.distSq p (tri.samplePoint vr ur) <
              pd.r * pd.r)) = true
        · rw [if_pos hany] at hbfs
          exact absurd hbfs (by simp)
        · rw [Bool.not_eq_true] at hany
          intro p hp
          have hall := List.any_eq_false.mp hany p hp
          rw [decide_eq_true_eq] at hall
          exact not_lt.mp hall
    · rw [if_neg hcond] at hbfs
      exact absurd hbfs (by simp)

/-- All buckets hold pairwise points at squared distance at least `rr`. -/
def bucketsSep (rr : ℚ) (buckets : List (List V3)) : Prop :=
  ∀ bl ∈ buckets, bl.Pairwise (fun p q => rr ≤ Vm.distSq p q)

theorem sampleNaiveLoop_sep (pd : PoissonDiskSurface)
    (retries maxS bfsFuel : ℕ) :
    ∀ (draws : List Draw) (buckets : List (List V3)) (f c : ℕ)
      (b2 : List (List V3)) (f2 c2 : ℕ),
      bucketsSep (pd.r * pd.r) buckets →
      sampleNaiveLoop pd retries maxS bfsFuel draws buckets f c =
        SRes.ok b2 f2 c2 →
      bucketsSep (pd.r * pd.r) b2 := by
  intro draws
  induction draws with
  | nil =>
    intro buckets f c b2 f2 c2 hsep h
    by_cases hg : f < retries ∧ c < maxS <;>
      simp only [sampleNaiveLoop, if_pos, if_neg, hg, not_false_iff] at h
    · exact absurd h (by simp)
    · cases h
      exact hsep
  | cons d rest ih =>
    intro buckets f c b2 f2 c2 hsep h
    by_cases hg : f < retries ∧ c < maxS <;>
      simp only [sampleNaiveLoop, if_pos, if_neg, hg, not_false_iff] at h
    · rcases hs : pd.sampler.sample d with _ | smp <;> simp only [hs] at h
      · exact absurd h (by simp)
      · rcases hb : existsPointWithinSphere pd pd.r smp.position smp.tIndex
            buckets bfsFuel with e | bres <;> simp only [hb] at h
        · cases e <;> simp only [] at h <;> exact absurd h (by simp)
        · cases bres
          · rcases hget : buckets.get? smp.tIndex with _ | bl <;>
              simp only [hget] at h
            · exact absurd h (by simp)
            · refine ih _ f (c + 1) b2 f2 c2 ?_ h
              -- the accepted point is at distance ≥ r from its whole bucket
              unfold UniformSurface.sample at hs
              rcases htri : pd.sampler.triangles.get? d.t with _ | tri <;>
                simp only [htri] at hs
              · exact absurd hs (by simp)
              · by_cases hv : 0 ≤ d.vr ∧ d.vr < 1 ∧ 0 ≤ d.ur ∧ d.ur < 1
                · rw [if_pos hv] at hs
                  cases Option.some_inj.mp hs
                  obtain ⟨hv1, hv2, hv3, hv4⟩ := hv
                  have hroot := bfs_false_root_clean pd bfsFuel d.t tri d.vr
                    d.ur buckets bl htri hv1 hv2 hv3 hv4 hget hb
                  intro bl2 hbl2
                  rcases List.mem_or_eq_of_mem_set hbl2 with hmem | heq
                  · exact hsep bl2 hmem
                  · subst heq
                    rw [List.pairwise_append]
                    refine ⟨hsep bl (List.get?_mem hget), by simp, ?_⟩
                    intro p hp q hq
                    rw [List.mem_singleton] at hq
                    subst hq
                    exact hroot p hp
                · rw [if_neg hv] at hs
                  exact absurd hs (by simp)
          · exact ih buckets (f + 1) c b2 f2 c2 hsep h
    · cases h
      exact hsep

/-- C1 amended: for every sampler and rng stream, any two entries of the
same per-triangle bucket of a completed `sample_naive` run — in particular
any two accepted points whose candidate triangles coincide — lie at
distance at least `r` from each other.  (Across different buckets the bound
can fail, as the counterexample shows: the conflict search prunes by a
vertex-proximity test and never scans buckets of triangles it considers
non-intersecting or cannot reach.) -/
theorem claim1_same_bucket_separation (pd : PoissonDiskSurface)
    (retries maxS bfsFuel : ℕ) (draws : List Draw) (b2 : List (List V3))
    (f2 c2 : ℕ)
    (h : sampleNaive pd retries maxS bfsFuel draws = SRes.ok b2 f2 c2) :
    ∀ bl ∈ b2, bl.Pairwise (fun p q => pd.r * pd.r ≤ Vm.distSq p q) := by
  refine sampleNaiveLoop_sep pd retries maxS bfsFuel draws _ 0 0 b2 f2 c2
    ?_ h
  intro bl hbl
  rw [List.eq_of_mem_replicate hbl]
  exact List.Pairwise.nil

theorem claim1_witness :
    [(⟨1/8, 0, 0⟩ : V3)].Pairwise
      (fun p q => pdC1.r * pdC1.r ≤ Vm.distSq p q) ∧
    [(⟨1/8, 0, 1/2⟩ : V3)].Pairwise
      (fun p q => pdC1.r * pdC1.r ≤ Vm.distSq p q) := by
  have h := claim1_same_bucket_separation pdC1 1 2 9
    [⟨1, 1/4, 1/4⟩, ⟨0, 1/4, 1/4⟩]
    [[⟨1/8, 0, 0⟩], [⟨1/8, 0, 1/2⟩]] 0 2
    (by norm_num [sampleNaive, sampleNaiveLoop, UniformSurface.sample, pdC1,
      vertsC1, facesTwo, Triangle.samplePoint, foldUV, Triangle.origin,
      Triangle.u, Triangle.v, Vm.add, Vm.mul, Vm.diff, existsPointWithinSphere,
      existsPointLoop, Triangle.intersectsSphere, Vm.distSq, Vm.lenSq,
      neighborsList, alookup, sortPair, pushUnvisited, List.replicate,
      List.set, List.filter])
  exact ⟨h [⟨1/8, 0, 0⟩] (by simp), h [⟨1/8, 0, 1/2⟩] (by simp)⟩

/-! ### Association-list lemmas for the edge-connection map -/

theorem alookup_append (a b : Conns) (k : Edge) :
    alookup (a ++ b) k =
      match alookup a k with
      | some v => some v
      | none => alookup b k := by
  induction a with
  | nil => simp [alookup]
  | cons kv rest ih =>
    by_cases h : kv.1 = k <;> simp [alookup, h, ih]

theorem aremove_cons_self (kv : Edge × List ℕ) (rest : Conns) (k : Edge)
    (h : kv.1 = k) : aremove (kv :: rest) k = aremove rest k := by
  simp [aremove, List.filter, h]

theorem aremove_cons_ne (kv : Edge × List ℕ) (rest : Conns) (k : Edge)
    (h : kv.1 ≠ k) : aremove (kv :: rest) k = kv :: aremove rest k := by
  simp [aremove, List.filter, h]

theorem alookup_aremove_self (m : Conns) (k : Edge) :
    alookup (aremove m k) k = none := by
  induction m with
  | nil => rfl
  | cons kv rest ih =>
    by_cases h : kv.1 = k
    · rw [aremove_cons_self kv rest k h, ih]
    · rw [aremove_cons_ne kv rest k h, alookup, if_neg h, ih]

theorem alookup_aremove_ne (m : Conns) (k k2 : Edge) (h : k2 ≠ k) :
    alookup (aremove m k) k2 = alookup m k2 := by
  induction m with
  | nil => rfl
  | cons kv rest ih =>
    by_cases hk : kv.1 = k
    · rw [aremove_cons_self kv rest k hk, ih, alookup,
        if_neg (fun hc => h (by rw [← hc, hk]))]
    · rw [aremove_cons_ne kv rest k hk]
      by_cases h2 : kv.1 = k2
      · rw [alookup, if_pos h2, alookup, if_pos h2]
      · rw [alookup, if_neg h2, alookup, if_neg h2, ih]

theorem alookup_aremove (m : Conns) (k k2 : Edge) :
    alookup (aremove m k) k2 = if k2 = k then none else alookup m k2 := by
  by_cases h : k2 = k
  · rw [if_pos h, h, alookup_aremove_self]
  · rw [if_neg h, alookup_aremove_ne m k k2 h]

theorem alookup_ainsert (m : Conns) (k : Edge) (v : List ℕ) (k2 : Edge) :
    alookup (ainsert m k v) k2 = if k2 = k then some v else alookup m k2 := by
  show alookup (aremove m k ++ [(k, v)]) k2 = _
  rw [alookup_append, alookup_aremove]
  by_cases h : k2 = k
  · simp [h, alookup]
  · rw [if_neg h, if_neg h]
    cases hx : alookup m k2 with
    | some w => rfl
    | none => rw [alookup, if_neg (fun hc => h hc.symm)]; rfl

theorem alookup_aupdate (m : Conns) (k : Edge) (g : List ℕ → List ℕ)
    (k2 : Edge) :
    alookup (aupdate m k g) k2 =
      if k2 = k then some (g ((alookup m k).getD [])) else alookup m k2 :=
  alookup_ainsert m k _ k2

theorem mem_ainsert_iff (m : Conns) (k : Edge) (v : List ℕ)
    (kv : Edge × List ℕ) :
    kv ∈ ainsert m k v ↔ (kv ∈ m ∧ kv.1 ≠ k) ∨ kv = (k, v) := by
  simp [ainsert, List.mem_filter, List.mem_append, decide_eq_true_eq]

theorem mem_aremove_iff (m : Conns) (k : Edge) (kv : Edge × List ℕ) :
    kv ∈ aremove m k ↔ kv ∈ m ∧ kv.1 ≠ k := by
  simp [aremove, List.mem_filter, decide_eq_true_eq]

theorem mem_aupdate_iff (m : Conns) (k : Edge) (g : List ℕ → List ℕ)
    (kv : Edge × List ℕ) :
    kv ∈ aupdate m k g ↔
      (kv ∈ m ∧ kv.1 ≠ k) ∨ kv = (k, g ((alookup m k).getD [])) :=
  mem_ainsert_iff m k _ kv

theorem mem_of_alookup_eq_some (m : Conns) (k : Edge) (v : List ℕ)
    (h : alookup m k = some v) : (k, v) ∈ m := by
  induction m with
  | nil => simp [alookup] at h
  | cons kv rest ih =>
    rw [alookup] at h
    by_cases hk : kv.1 = k
    · rw [if_pos hk] at h
      cases Option.some_inj.mp h
      subst hk
      exact List.mem_cons_self _ _
    · rw [if_neg hk] at h
      exact List.mem_cons_of_mem _ (ih h)

theorem alookup_isSome_of_mem (m : Conns) (kv : Edge × List ℕ) (h : kv ∈ m) :
    ∃ v, alookup m kv.1 = some v := by
  induction m with
  | nil => simp at h
  | cons kv2 rest ih =>
    rcases List.mem_cons.mp h with h1 | h1
    · subst h1
      exact ⟨kv.2, by simp [alookup]⟩
    · by_cases hk : kv2.1 = kv.1
      · exact ⟨kv2.2, by simp [alookup, hk]⟩
      · obtain ⟨v, hv⟩ := ih h1
        exact ⟨v, by simp [alookup, hk, hv]⟩

/-! ### Combinatorics of faces and their canonical sides -/

/-- The three vertex indices of a face. -/
def faceVerts (f : ℕ × ℕ × ℕ) : List ℕ := [f.1, f.2.1, f.2.2]

/-- A face whose three slots are pairwise distinct. -/
def faceDistinct (f : ℕ × ℕ × ℕ) : Prop :=
  f.1 ≠ f.2.1 ∧ f.2.1 ≠ f.2.2 ∧ f.2.2 ≠ f.1

instance (f : ℕ × ℕ × ℕ) : Decidable (faceDistinct f) :=
  inferInstanceAs (Decidable (_ ∧ _ ∧ _))

theorem sortPair_comm (x y : ℕ) : sortPair (x, y) = sortPair (y, x) := by
  simp only [sortPair]
  split_ifs with h1 h2 h2
  · have hxy : x = y := le_antisymm h1 h2
    subst hxy; rfl
  · rfl
  · rfl
  · exact absurd (Nat.le_of_not_le h1) h2

theorem sortPair_lt (x y : ℕ) (h : x ≠ y) :
    (sortPair (x, y)).1 < (sortPair (x, y)).2 := by
  simp only [sortPair]
  split_ifs with h1 <;> omega

theorem sortPair_fst_mem (x y : ℕ) :
    (sortPair (x, y)).1 = x ∨ (sortPair (x, y)).1 = y := by
  simp only [sortPair]
  split_ifs <;> simp

theorem sortPair_snd_mem (x y : ℕ) :
    (sortPair (x, y)).2 = x ∨ (sortPair (x, y)).2 = y := by
  simp only [sortPair]
  split_ifs <;> simp

theorem sortPair_eq_iff (x y a b : ℕ) (hab : a ≤ b) :
    sortPair (x, y) = (a, b) ↔ (x = a ∧ y = b) ∨ (x = b ∧ y = a) := by
  simp only [sortPair]
  split_ifs with h1 <;> constructor <;> intro h <;>
    first
      | (cases h; simp_all [Prod.ext_iff]; omega)
      | (simp only [Prod.ext_iff] at h ⊢; omega)

/-- In a face with distinct slots containing both endpoints of an edge with
distinct endpoints, the opposite-vertex search succeeds, and the face's
vertex set is exactly the two endpoints plus the opposite vertex. -/
theorem oppositeVert_spec (f : ℕ × ℕ × ℕ) (e : Edge) (hd : faceDistinct f)
    (he : e.1 ≠ e.2) (h1 : e.1 ∈ faceVerts f) (h2 : e.2 ∈ faceVerts f) :
    ∃ opp, oppositeVert f e = some opp ∧ opp ≠ e.1 ∧ opp ≠ e.2 ∧
      opp ∈ faceVerts f ∧
      ∀ v ∈ faceVerts f, v = e.1 ∨ v = e.2 ∨ v = opp := by
  obtain ⟨a, b, c⟩ := f
  obtain ⟨hab, hbc, hca⟩ := hd
  have hab2 : a ≠ b := hab
  have hbc2 : b ≠ c := hbc
  have hca2 : c ≠ a := hca
  simp only [faceVerts, List.mem_cons, List.not_mem_nil, or_false] at h1 h2
  simp only [oppositeVert, faceVerts, List.mem_cons, List.not_mem_nil,
    or_false]
  rcases h1 with ha1 | hb1 | hc1 <;> rcases h2 with ha2 | hb2 | hc2
  · exact (he (by omega)).elim
  · exact ⟨c, by rw [if_neg (by omega), if_neg (by omega), if_pos (by omega)],
      by omega, by omega, by omega, by intro v hv; omega⟩
  · exact ⟨b, by rw [if_neg (by omega), if_pos (by omega)],
      by omega, by omega, by omega, by intro v hv; omega⟩
  · exact ⟨c, by rw [if_neg (by omega), if_neg (by omega), if_pos (by omega)],
      by omega, by omega, by omega, by intro v hv; omega⟩
  · exact (he (by omega)).elim
  · exact ⟨a, by rw [if_pos (by omega)],
      by omega, by omega, by omega, by intro v hv; omega⟩
  · exact ⟨b, by rw [if_neg (by omega), if_pos (by omega)],
      by omega, by omega, by omega, by intro v hv; omega⟩
  · exact ⟨a, by rw [if_pos (by omega)],
      by omega, by omega, by omega, by intro v hv; omega⟩
  · exact (he (by omega)).elim

/-- For a distinct-slot face, the canonical sides are exactly the sorted
pairs of two distinct vertices of the face. -/
theorem faceSides_char (f : ℕ × ℕ × ℕ) (hd : faceDistinct f) (s : Edge) :
    s ∈ faceSides f ↔
      ∃ x y, x ∈ faceVerts f ∧ y ∈ faceVerts f ∧ x ≠ y ∧
        s = sortPair (x, y) := by
  obtain ⟨a, b, c⟩ := f
  obtain ⟨hab, hbc, hca⟩ := hd
  simp only [faceSides, faceVerts, List.mem_cons, List.not_mem_nil, or_false]
  constructor
  · rintro (rfl | rfl | rfl)
    · exact ⟨a, b, Or.inl rfl, Or.inr (Or.inl rfl), hab, rfl⟩
    · exact ⟨b, c, Or.inr (Or.inl rfl), Or.inr (Or.inr rfl), hbc, rfl⟩
    · exact ⟨c, a, Or.inr (Or.inr rfl), Or.inl rfl, hca, rfl⟩
  · rintro ⟨x, y, hx, hy, hxy, rfl⟩
    rcases hx with rfl | rfl | rfl <;> rcases hy with rfl | rfl | rfl <;>
      first
        | exact absurd rfl hxy
        | exact Or.inl rfl
        | exact Or.inr (Or.inl rfl)
        | exact Or.inr (Or.inr rfl)
        | (rw [sortPair_comm]; exact Or.inl rfl)
        | (rw [sortPair_comm]; exact Or.inr (Or.inl rfl))
        | (rw [sortPair_comm]; exact Or.inr (Or.inr rfl))

/-- Vertex set of an in-place rewrite replacing `old` (present exactly
once) by a fresh index `new`. -/
theorem replaceInFace_verts (f : ℕ × ℕ × ℕ) (old new : ℕ)
    (hd : faceDistinct f) (hnew : new ∉ faceVerts f) :
    faceDistinct (replaceInFace f old new) ∧
      ∀ v, v ∈ faceVerts (replaceInFace f old new) ↔
        ((v ∈ faceVerts f ∧ v ≠ old) ∨ (v = new ∧ old ∈ faceVerts f)) := by
  obtain ⟨a, b, c⟩ := f
  obtain ⟨hab, hbc, hca⟩ := hd
  have hab2 : a ≠ b := hab
  have hbc2 : b ≠ c := hbc
  have hca2 : c ≠ a := hca
  simp only [faceVerts, List.mem_cons, List.not_mem_nil, or_false,
    not_or] at hnew
  obtain ⟨hna, hnb, hnc⟩ := hnew
  constructor
  · simp only [replaceInFace, faceDistinct]
    refine ⟨?_, ?_, ?_⟩ <;> split_ifs <;> omega
  · intro v
    simp only [replaceInFace, faceVerts, List.mem_cons, List.not_mem_nil,
      or_false]
    split_ifs <;> omega

/-! ### The subdivision invariant -/

/-- Default face used with `List.getD` (never reached on valid indices). -/
def faceD : ℕ × ℕ × ℕ := (0, 0, 0)

/-- The edge's squared length is defined and at most `r²`. -/
def shortIn (g : TriMeshGraph) (r : ℚ) (e : Edge) : Prop :=
  ∃ L, edgeLenSq g e = some L ∧ L ≤ r * r

/-- The edge's squared length is defined and exceeds `r²`. -/
def longIn (g : TriMeshGraph) (r : ℚ) (e : Edge) : Prop :=
  ∃ L, edgeLenSq g e = some L ∧ r * r < L

/-- The invariant maintained by the subdivision loop, tying the graph state
to the work queue.  It packages: index bounds and slot distinctness of
faces; canonical, incidence-sound, at-most-two-entry edge lists with
pairwise-distinct faces and opposite vertices (manifoldness); completeness
(every side of every face is a key listing the face); the central length
property that every key is short or queued; and queue sanity. -/
structure SubInv (r : ℚ) (g : TriMeshGraph) (q : List Edge) : Prop where
  faceBound : ∀ t, t < g.faces.length →
    ∀ v ∈ faceVerts (g.faces.getD t faceD), v < g.verticies.length
  faceDist : ∀ t, t < g.faces.length → faceDistinct (g.faces.getD t faceD)
  keysCanon : ∀ kv ∈ g.edgeConnections, kv.1.1 < kv.1.2
  incident : ∀ kv ∈ g.edgeConnections, ∀ t ∈ kv.2, t < g.faces.length ∧
    kv.1.1 ∈ faceVerts (g.faces.getD t faceD) ∧
    kv.1.2 ∈ faceVerts (g.faces.getD t faceD)
  listSize : ∀ kv ∈ g.edgeConnections, kv.2 ≠ [] ∧ kv.2.length ≤ 2
  distinctOpp : ∀ kv ∈ g.edgeConnections, kv.2.Pairwise (fun s t => s ≠ t ∧
    oppositeVert (g.faces.getD s faceD) kv.1 ≠
      oppositeVert (g.faces.getD t faceD) kv.1)
  complete : ∀ t, t < g.faces.length →
    ∀ s ∈ faceSides (g.faces.getD t faceD),
      ∃ l, alookup g.edgeConnections s = some l ∧ t ∈ l
  shortOrQueued : ∀ kv ∈ g.edgeConnections, shortIn g r kv.1 ∨ kv.1 ∈ q
  queueKeys : ∀ e ∈ q, ∃ l, alookup g.edgeConnections e = some l
  queueLong : ∀ e ∈ q, longIn g r e
  queueNodup : q.Nodup

theorem getD_eq_of_get?_eq {α} (l : List α) (n : ℕ) (x d : α)
    (h : l.get? n = some x) : l.getD n d = x := by
  simp [List.getD, List.get?_eq_getElem?] at h ⊢
  simp [h]

theorem get?_eq_of_lt_getD {α} (l : List α) (n : ℕ) (d : α)
    (h : n < l.length) : l.get? n = some (l.getD n d) := by
  rw [List.getD_eq_getElem?_getD, List.get?_eq_getElem?]
  rcases List.getElem?_eq_some_iff.mpr ⟨h, rfl⟩ with hx
  rw [hx]
  rfl

/-- Endpoints of any key are valid vertex indices. -/
theorem SubInv.keyBound {r : ℚ} {g : TriMeshGraph} {q : List Edge}
    (inv : SubInv r g q) (kv : Edge × List ℕ) (h : kv ∈ g.edgeConnections) :
    kv.1.1 < g.verticies.length ∧ kv.1.2 < g.verticies.length := by
  obtain ⟨hne, _⟩ := inv.listSize kv h
  rcases hk2 : kv.2 with _ | ⟨t, rest⟩
  · exact absurd hk2 hne
  · have ht : t ∈ kv.2 := by rw [hk2]; exact List.mem_cons_self _ _
    obtain ⟨htl, h1, h2⟩ := inv.incident kv h t ht
    exact ⟨inv.faceBound t htl kv.1.1 h1, inv.faceBound t htl kv.1.2 h2⟩

/-- The squared length of an edge between existing vertices is unchanged by
appending a vertex. -/
theorem edgeLenSq_append (verts : List V3) (conns conns2 : Conns)
    (faces faces2 : List (ℕ × ℕ × ℕ)) (w : V3) (e : Edge)
    (h1 : e.1 < verts.length) (h2 : e.2 < verts.length) :
    edgeLenSq ⟨verts ++ [w], conns2, faces2⟩ e =
      edgeLenSq ⟨verts, conns, faces⟩ e := by
  unfold edgeLenSq
  simp only [List.get?_eq_getElem?, List.getElem?_append, h1, h2, if_pos]

theorem filterLong_sublist (g : TriMeshGraph) (r : ℚ) :
    ∀ (es ks : List Edge), filterLong g r es = some ks → ks.Sublist es := by
  intro es
  induction es with
  | nil =>
    intro ks h
    cases h
    exact List.Sublist.refl []
  | cons e rest ih =>
    intro ks h
    unfold filterLong at h
    rcases hL : edgeLenSq g e with _ | L <;> simp only [hL] at h
    · exact absurd h (by simp)
    rcases hr : filterLong g r rest with _ | ks2 <;> simp only [hr] at h
    · exact absurd h (by simp)
    by_cases hlong : r * r < L
    · rw [if_pos hlong] at h
      cases h
      exact List.cons_sublist_cons.mpr (ih _ hr)
    · rw [if_neg hlong] at h
      cases h
      exact (ih _ hr).cons e

theorem filterLong_spec (g : TriMeshGraph) (r : ℚ) :
    ∀ (es ks : List Edge), filterLong g r es = some ks →
      ∀ x ∈ es, (longIn g r x → x ∈ ks) ∧
        (x ∈ ks → longIn g r x) ∧ (¬ longIn g r x → shortIn g r x) := by
  intro es
  induction es with
  | nil =>
    intro ks h x hx
    exact absurd hx (by simp)
  | cons e rest ih =>
    intro ks h x hx
    unfold filterLong at h
    rcases hL : edgeLenSq g e with _ | L <;> simp only [hL] at h
    · exact absurd h (by simp)
    rcases hr : filterLong g r rest with _ | ks2 <;> simp only [hr] at h
    · exact absurd h (by simp)
    have hsub := filterLong_sublist g r rest _ hr
    rcases List.mem_cons.mp hx with rfl | hx2
    · by_cases hlong : r * r < L
      · rw [if_pos hlong] at h
        cases h
        refine ⟨fun _ => List.mem_cons_self _ _, fun _ => ⟨L, hL, hlong⟩,
          fun hc => absurd ⟨L, hL, hlong⟩ hc⟩
      · rw [if_neg hlong] at h
        cases h
        refine ⟨?_, ?_, fun _ => ⟨L, hL, not_lt.mp hlong⟩⟩
        · rintro ⟨L2, hL2, hlong2⟩
          rw [hL] at hL2
          cases Option.some_inj.mp hL2
          exact absurd hlong2 hlong
        · intro hmem
          exact (ih _ hr x (hsub.mem hmem)).2.1 hmem
    · by_cases hlong : r * r < L
      · rw [if_pos hlong] at h
        cases h
        refine ⟨fun hl => List.mem_cons_of_mem _ ((ih _ hr x hx2).1 hl),
          ?_, (ih _ hr x hx2).2.2⟩
        intro hmem
        rcases List.mem_cons.mp hmem with rfl | hmem2
        · exact ⟨L, hL, hlong⟩
        · exact (ih _ hr x hx2).2.1 hmem2
      · rw [if_neg hlong] at h
        cases h
        exact ih _ hr x hx2

theorem divideEdgeFace_spec (e : Edge) (m : ℕ) (st : DivState) (t : ℕ)
    (st2 : DivState) (h : divideEdgeFace e m st t = some st2) :
    ∃ f opp, st.faces.get? t = some f ∧ oppositeVert f e = some opp ∧
      st2 = ⟨(st.faces.set t (replaceInFace f e.2 m)) ++ [(e.2, m, opp)],
        ainsert (aupdate st.conns (sortPair (e.2, opp))
            (fun l => replaceAll l t st.faces.length))
          (sortPair (m, opp)) [t, st.faces.length],
        st.newTris ++ [st.faces.length],
        st.newEdges ++ [sortPair (m, opp)]⟩ := by
  unfold divideEdgeFace at h
  rcases hf : st.faces.get? t with _ | f <;> simp only [hf] at h
  · exact absurd h (by simp)
  rcases ho : oppositeVert f e with _ | opp <;> simp only [ho] at h
  · exact absurd h (by simp)
  cases h
  exact ⟨f, opp, rfl, ho, by simp [List.length_set]⟩

/-- Explicit form of a successful `divide_edge` on an edge with exactly one
incident face. -/
theorem divideEdge_spec_one (g : TriMeshGraph) (e : Edge) (t1 : ℕ)
    (htris : alookup g.edgeConnections e = some [t1]) (g2 : TriMeshGraph)
    (ne : List Edge) (h : divideEdge g e = some (g2, ne)) :
    ∃ vA vB f1 opp1,
      g.verticies.get? e.1 = some vA ∧ g.verticies.get? e.2 = some vB ∧
      g.faces.get? t1 = some f1 ∧ oppositeVert f1 e = some opp1 ∧
      g2 = ⟨g.verticies ++ [Vm.midpoint vA vB],
        ainsert (aremove (ainsert
          (ainsert
            (aupdate (aremove g.edgeConnections e) (sortPair (e.2, opp1))
              (fun l => replaceAll l t1 g.faces.length))
            (sortPair (g.verticies.length, opp1)) [t1, g.faces.length])
          (sortPair (g.verticies.length, e.2)) [g.faces.length]) e)
          (sortPair (e.1, g.verticies.length)) [t1],
        (g.faces.set t1 (replaceInFace f1 e.2 g.verticies.length)) ++
          [(e.2, g.verticies.length, opp1)]⟩ ∧
      ne = [sortPair (g.verticies.length, opp1),
        sortPair (g.verticies.length, e.2),
        sortPair (e.1, g.verticies.length)] := by
  unfold divideEdge at h
  rcases hA : g.verticies.get? e.1 with _ | vA <;> simp only [hA] at h
  · exact absurd h (by simp)
  rcases hB : g.verticies.get? e.2 with _ | vB <;> simp only [hB] at h
  · exact absurd h (by simp)
  rw [htris] at h
  simp only [divideEdgeLoop] at h
  rcases hs1 : divideEdgeFace e g.verticies.length
      ⟨g.faces, aremove g.edgeConnections e, [], []⟩ t1 with _ | st1 <;>
    simp only [hs1] at h
  · exact absurd h (by simp)
  obtain ⟨f1, opp1, hf1, ho1, hst1⟩ := divideEdgeFace_spec _ _ _ _ _ hs1
  subst hst1
  cases h
  exact ⟨vA, vB, f1, opp1, rfl, rfl, hf1, ho1, rfl, rfl⟩

/-- Explicit form of a successful `divide_edge` on an edge with exactly two
incident faces. -/
theorem divideEdge_spec_two (g : TriMeshGraph) (e : Edge) (t1 t2 : ℕ)
    (htris : alookup g.edgeConnections e = some [t1, t2]) (g2 : TriMeshGraph)
    (ne : List Edge) (h : divideEdge g e = some (g2, ne)) :
    ∃ vA vB f1 opp1 f2 opp2,
      g.verticies.get? e.1 = some vA ∧ g.verticies.get? e.2 = some vB ∧
      g.faces.get? t1 = some f1 ∧ oppositeVert f1 e = some opp1 ∧
      ((g.faces.set t1 (replaceInFace f1 e.2 g.verticies.length)) ++
        [(e.2, g.verticies.length, opp1)]).get? t2 = some f2 ∧
      oppositeVert f2 e = some opp2 ∧
      g2 = ⟨g.verticies ++ [Vm.midpoint vA vB],
        ainsert (aremove (ainsert
          (ainsert
            (aupdate
              (ainsert
                (aupdate (aremove g.edgeConnections e)
                  (sortPair (e.2, opp1))
                  (fun l => replaceAll l t1 g.faces.length))
                (sortPair (g.verticies.length, opp1)) [t1, g.faces.length])
              (sortPair (e.2, opp2))
              (fun l => replaceAll l t2 (g.faces.length + 1)))
            (sortPair (g.verticies.length, opp2)) [t2, g.faces.length + 1])
          (sortPair (g.verticies.length, e.2))
          [g.faces.length, g.faces.length + 1]) e)
          (sortPair (e.1, g.verticies.length)) [t1, t2],
        ((g.faces.set t1 (replaceInFace f1 e.2 g.verticies.length)) ++
            [(e.2, g.verticies.length, opp1)]).set t2
            (replaceInFace f2 e.2 g.verticies.length) ++
          [(e.2, g.verticies.length, opp2)]⟩ ∧
      ne = [sortPair (g.verticies.length, opp1),
        sortPair (g.verticies.length, opp2),
        sortPair (g.verticies.length, e.2),
        sortPair (e.1, g.verticies.length)] := by
  unfold divideEdge at h
  rcases hA : g.verticies.get? e.1 with _ | vA <;> simp only [hA] at h
  · exact absurd h (by simp)
  rcases hB : g.verticies.get? e.2 with _ | vB <;> simp only [hB] at h
  · exact absurd h (by simp)
  rw [htris] at h
  simp only [divideEdgeLoop] at h
  rcases hs1 : divideEdgeFace e g.verticies.length
      ⟨g.faces, aremove g.edgeConnections e, [], []⟩ t1 with _ | st1 <;>
    simp only [hs1] at h
  · exact absurd h (by simp)
  rcases hs2 : divideEdgeFace e g.verticies.length st1 t2 with _ | st2a <;>
    simp only [hs2] at h
  · exact absurd h (by simp)
  obtain ⟨f1, opp1, hf1, ho1, hst1⟩ := divideEdgeFace_spec _ _ _ _ _ hs1
  subst hst1
  obtain ⟨f2, opp2, hf2, ho2, hst2⟩ := divideEdgeFace_spec _ _ _ _ _ hs2
  subst hst2
  cases h
  refine ⟨vA, vB, f1, opp1, f2, opp2, rfl, rfl, hf1, ho1, hf2, ho2, ?_, ?_⟩
  · simp [List.length_set]
  · simp [List.length_set]

theorem sortPair_eq_left (x y : ℕ) (h : x ≤ y) : sortPair (x, y) = (x, y) :=
  if_pos h

theorem sortPair_cases (x y : ℕ) :
    sortPair (x, y) = (x, y) ∨ sortPair (x, y) = (y, x) := by
  unfold sortPair
  split_ifs <;> simp

theorem sortPair_eq_right (x y : ℕ) (h : y < x) : sortPair (x, y) = (y, x) :=
  if_neg (by omega)

theorem mem_replaceAll (l : List ℕ) (a b x : ℕ) :
    x ∈ replaceAll l a b ↔ (x ∈ l ∧ x ≠ a) ∨ (a ∈ l ∧ x = b) := by
  simp only [replaceAll, List.mem_map]
  constructor
  · rintro ⟨y, hy, rfl⟩
    by_cases h : y = a
    · rw [if_pos h]
      exact Or.inr ⟨h ▸ hy, rfl⟩
    · rw [if_neg h]
      exact Or.inl ⟨hy, h⟩
  · rintro (⟨hx, hxa⟩ | ⟨ha, rfl⟩)
    · exact ⟨x, hx, by rw [if_neg hxa]⟩
    · exact ⟨a, ha, by rw [if_pos rfl]⟩

theorem replaceAll_length (l : List ℕ) (a b : ℕ) :
    (replaceAll l a b).length = l.length := by
  simp [replaceAll]

theorem replaceAll_ne_nil (l : List ℕ) (a b : ℕ) (h : l ≠ []) :
    replaceAll l a b ≠ [] := by
  cases l with
  | nil => exact absurd rfl h
  | cons x rest => simp [replaceAll]

theorem get?_set_self {α} (l : List α) (n : ℕ) (x : α) (h : n < l.length) :
    (l.set n x).get? n = some x := by
  rw [List.get?_eq_getElem?]
  simp [List.getElem?_set_self, h]

theorem get?_set_ne {α} (l : List α) (n m : ℕ) (x : α) (h : m ≠ n) :
    (l.set n x).get? m = l.get? m := by
  rw [List.get?_eq_getElem?, List.get?_eq_getElem?,
    List.getElem?_set_ne (fun hc => h hc.symm)]

theorem get?_append_left {α} (l l2 : List α) (n : ℕ) (h : n < l.length) :
    (l ++ l2).get? n = l.get? n := by
  rw [List.get?_eq_getElem?, List.get?_eq_getElem?, List.getElem?_append_left h]

theorem get?_append_length {α} (l : List α) (x : α) :
    (l ++ [x]).get? l.length = some x := by
  rw [List.get?_eq_getElem?, List.getElem?_append_right (le_refl _)]
  simp

theorem pairwise_pair {P : ℕ → ℕ → Prop} (s t : ℕ) :
    ([s, t].Pairwise P) ↔ P s t := by
  simp

/-- Uniqueness form of the opposite-vertex search: any face vertex avoiding
both endpoints is the result. -/
theorem oppositeVert_eq_of (f : ℕ × ℕ × ℕ) (e : Edge) (hd : faceDistinct f)
    (he : e.1 ≠ e.2) (h1 : e.1 ∈ faceVerts f) (h2 : e.2 ∈ faceVerts f)
    (x : ℕ) (hx : x ∈ faceVerts f) (hx1 : x ≠ e.1) (hx2 : x ≠ e.2) :
    oppositeVert f e = some x := by
  obtain ⟨opp, hv, ho1, ho2, hom, htr⟩ := oppositeVert_spec f e hd he h1 h2
  rcases htr x hx with h | h | h
  · exact absurd h hx1
  · exact absurd h hx2
  · rw [hv, h]

/-- Preservation of the subdivision invariant by one split of an edge with a
single incident face. -/
theorem subInv_step_one (r : ℚ) (g : TriMeshGraph) (e : Edge) (qt : List Edge)
    (t1 : ℕ) (inv : SubInv r g (e :: qt))
    (htris : alookup g.edgeConnections e = some [t1])
    (g2 : TriMeshGraph) (ne keep : List Edge)
    (hde : divideEdge g e = some (g2, ne))
    (hfl : filterLong g2 r ne = some keep) :
    SubInv r g2 (qt ++ keep) := by
  obtain ⟨vA, vB, f1, opp1, hA, hB, hf1, ho1, hg2, hne⟩ :=
    divideEdge_spec_one g e t1 htris g2 ne hde
  have hee : (e, [t1]) ∈ g.edgeConnections := mem_of_alookup_eq_some _ _ _ htris
  have hij : e.1 < e.2 := inv.keysCanon _ hee
  obtain ⟨hiM0, hjM0⟩ := inv.keyBound (e, [t1]) hee
  have hiM : e.1 < g.verticies.length := hiM0
  have hjM : e.2 < g.verticies.length := hjM0
  obtain ⟨ht1N, hif10, hjf10⟩ := inv.incident (e, [t1]) hee t1 (by simp)
  have hgd1 : g.faces.getD t1 faceD = f1 := getD_eq_of_get?_eq _ _ _ _ hf1
  rw [hgd1] at hif10 hjf10
  have hif1 : e.1 ∈ faceVerts f1 := hif10
  have hjf1 : e.2 ∈ faceVerts f1 := hjf10
  have hd1 : faceDistinct f1 := hgd1 ▸ inv.faceDist t1 ht1N
  have hb1 : ∀ v ∈ faceVerts f1, v < g.verticies.length :=
    fun v hv => inv.faceBound t1 ht1N v (hgd1.symm ▸ hv)
  have hene : e.1 ≠ e.2 := by omega
  obtain ⟨opp, hoveq, hop1, hop2, hopmem, htr1⟩ :=
    oppositeVert_spec f1 e hd1 hene hif1 hjf1
  rw [ho1] at hoveq
  cases Option.some_inj.mp hoveq
  have hoM : opp1 < g.verticies.length := hb1 _ hopmem
  rw [sortPair_eq_right g.verticies.length opp1 hoM,
    sortPair_eq_right g.verticies.length e.2 hjM,
    sortPair_eq_left e.1 g.verticies.length (by omega)] at hg2 hne
  subst hne
  have hg2v : g2.verticies = g.verticies ++ [Vm.midpoint vA vB] := by rw [hg2]
  have hg2c : g2.edgeConnections =
      ainsert (aremove (ainsert
        (ainsert
          (aupdate (aremove g.edgeConnections e) (sortPair (e.2, opp1))
            (fun l => replaceAll l t1 g.faces.length))
          (opp1, g.verticies.length) [t1, g.faces.length])
        (e.2, g.verticies.length) [g.faces.length]) e)
        (e.1, g.verticies.length) [t1] := by rw [hg2]
  have hg2f : g2.faces =
      (g.faces.set t1 (replaceInFace f1 e.2 g.verticies.length)) ++
        [(e.2, g.verticies.length, opp1)] := by rw [hg2]
  have hvl2 : g2.verticies.length = g.verticies.length + 1 := by
    rw [hg2v]; simp
  have hlen2 : g2.faces.length = g.faces.length + 1 := by
    rw [hg2f]; simp [List.length_set]
  -- facts about the split-off side `S1 = sortPair (e.2, opp1)`
  have hjo : e.2 ≠ opp1 := fun h => hop2 h.symm
  have hS1lt : (sortPair (e.2, opp1)).1 < (sortPair (e.2, opp1)).2 :=
    sortPair_lt _ _ hjo
  have hS1c1 := sortPair_fst_mem e.2 opp1
  have hS1c2 := sortPair_snd_mem e.2 opp1
  have hS1M1 : (sortPair (e.2, opp1)).1 < g.verticies.length := by
    rcases hS1c1 with h | h <;> omega
  have hS1M2 : (sortPair (e.2, opp1)).2 < g.verticies.length := by
    rcases hS1c2 with h | h <;> omega
  have hS1e : sortPair (e.2, opp1) ≠ e := by
    intro h
    have h1 := congrArg Prod.fst h
    have h2 := congrArg Prod.snd h
    rcases hS1c1 with h3 | h3 <;> rcases hS1c2 with h4 | h4 <;> omega
  -- the incidence list of that side
  have hS1side : sortPair (e.2, opp1) ∈ faceSides (g.faces.getD t1 faceD) := by
    rw [hgd1]
    exact (faceSides_char f1 hd1 _).mpr ⟨e.2, opp1, hjf1, hopmem, hjo, rfl⟩
  obtain ⟨l1, hl1, ht1l1⟩ := inv.complete t1 ht1N _ hS1side
  have hl1mem : (sortPair (e.2, opp1), l1) ∈ g.edgeConnections :=
    mem_of_alookup_eq_some _ _ _ hl1
  -- membership characterization of the new connection map
  have hmem2 : ∀ kv : Edge × List ℕ, kv ∈ g2.edgeConnections ↔
      (kv ∈ g.edgeConnections ∧ kv.1 ≠ e ∧ kv.1 ≠ sortPair (e.2, opp1)) ∨
      kv = (sortPair (e.2, opp1), replaceAll l1 t1 g.faces.length) ∨
      kv = ((opp1, g.verticies.length), [t1, g.faces.length]) ∨
      kv = ((e.2, g.verticies.length), [g.faces.length]) ∨
      kv = ((e.1, g.verticies.length), [t1]) := by
    intro kv
    rw [hg2c, mem_ainsert_iff, mem_aremove_iff, mem_ainsert_iff,
      mem_ainsert_iff, mem_aupdate_iff, mem_aremove_iff,
      alookup_aremove_ne _ _ _ hS1e, hl1]
    constructor
    · rintro (⟨⟨(⟨(⟨(⟨⟨hC, hkve⟩, hS1⟩ | hS1eq), hK1⟩ | hK1eq), hKJ⟩ |
        hKJeq), hkve2⟩, hKI⟩ | hKIeq)
      · exact Or.inl ⟨hC, hkve, hS1⟩
      · exact Or.inr (Or.inl hS1eq)
      · exact Or.inr (Or.inr (Or.inl hK1eq))
      · exact Or.inr (Or.inr (Or.inr (Or.inl hKJeq)))
      · exact Or.inr (Or.inr (Or.inr (Or.inr hKIeq)))
    · have hMbound := inv.keyBound
      rintro (⟨hC, hkve, hS1⟩ | heq | heq | heq | heq)
      · obtain ⟨hm1, hm2⟩ := hMbound kv hC
        refine Or.inl ⟨⟨Or.inl ⟨Or.inl ⟨Or.inl ⟨⟨hC, hkve⟩, hS1⟩, ?_⟩, ?_⟩,
          hkve⟩, ?_⟩ <;>
          (intro h; have := congrArg Prod.snd h; simp at this; omega)
      · refine Or.inl ⟨⟨Or.inl ⟨Or.inl ⟨Or.inr heq, ?_⟩, ?_⟩, ?_⟩, ?_⟩ <;>
          (rw [heq];
           first
             | exact hS1e
             | (intro h; have := congrArg Prod.snd h; simp at this; omega))
      · refine Or.inl ⟨⟨Or.inl ⟨Or.inr heq, ?_⟩, ?_⟩, ?_⟩ <;>
          (rw [heq]; intro h;
            first
              | (have h1 := congrArg Prod.fst h;
                 have h2 := congrArg Prod.snd h; simp at h1 h2; omega)
              | (have h1 := congrArg Prod.fst h; simp at h1; omega))
      · refine Or.inl ⟨⟨Or.inr heq, ?_⟩, ?_⟩ <;>
          (rw [heq]; intro h;
            first
              | (have h1 := congrArg Prod.fst h;
                 have h2 := congrArg Prod.snd h; simp at h1 h2; omega)
              | (have h1 := congrArg Prod.fst h; simp at h1; omega))
      · exact Or.inr heq
  -- lookup characterization of the new connection map
  have hlook2 : ∀ k, alookup g2.edgeConnections k =
      if k = (e.1, g.verticies.length) then some [t1]
      else if k = e then none
      else if k = (e.2, g.verticies.length) then some [g.faces.length]
      else if k = (opp1, g.verticies.length) then some [t1, g.faces.length]
      else if k = sortPair (e.2, opp1) then
        some (replaceAll l1 t1 g.faces.length)
      else alookup g.edgeConnections k := by
    intro k
    rw [hg2c, alookup_ainsert]
    by_cases h1 : k = (e.1, g.verticies.length)
    · rw [if_pos h1, if_pos h1]
    rw [if_neg h1, if_neg h1, alookup_aremove]
    by_cases h2 : k = e
    · rw [if_pos h2, if_pos h2]
    rw [if_neg h2, if_neg h2, alookup_ainsert]
    by_cases h3 : k = (e.2, g.verticies.length)
    · rw [if_pos h3, if_pos h3]
    rw [if_neg h3, if_neg h3, alookup_ainsert]
    by_cases h4 : k = (opp1, g.verticies.length)
    · rw [if_pos h4, if_pos h4]
    rw [if_neg h4, if_neg h4, alookup_aupdate]
    by_cases h5 : k = sortPair (e.2, opp1)
    · rw [if_pos h5, if_pos h5, alookup_aremove_ne _ _ _ hS1e, hl1]
      rfl
    · rw [if_neg h5, if_neg h5, alookup_aremove_ne _ _ _ h2]
  -- getters for the new face buffer
  have hgf_t1 : g2.faces.getD t1 faceD =
      replaceInFace f1 e.2 g.verticies.length := by
    rw [hg2f]
    refine getD_eq_of_get?_eq _ _ _ _ ?_
    rw [get?_append_left _ _ _ (by simp [List.length_set]; omega),
      get?_set_self _ _ _ ht1N]
  have hgf_N : g2.faces.getD g.faces.length faceD =
      (e.2, g.verticies.length, opp1) := by
    rw [hg2f]
    refine getD_eq_of_get?_eq _ _ _ _ ?_
    have hls : (g.faces.set t1
        (replaceInFace f1 e.2 g.verticies.length)).length =
        g.faces.length := by simp
    rw [← hls, get?_append_length]
  have hgf_old : ∀ t, t < g.faces.length → t ≠ t1 →
      g2.faces.getD t faceD = g.faces.getD t faceD := by
    intro t ht htne
    rw [hg2f]
    refine getD_eq_of_get?_eq _ _ _ _ ?_
    rw [get?_append_left _ _ _ (by simp [List.length_set]; omega),
      get?_set_ne _ _ _ _ htne]
    exact get?_eq_of_lt_getD _ _ _ ht
  -- combinatorics of the rewritten face
  have hMf1 : g.verticies.length ∉ faceVerts f1 := by
    intro h
    exact absurd (hb1 _ h) (lt_irrefl _)
  obtain ⟨hdF1, hvF1⟩ :=
    replaceInFace_verts f1 e.2 g.verticies.length hd1 hMf1
  have hF1chr : ∀ v, v ∈ faceVerts (replaceInFace f1 e.2 g.verticies.length) ↔
      (v = e.1 ∨ v = opp1 ∨ v = g.verticies.length) := by
    intro v
    rw [hvF1 v]
    constructor
    · rintro (⟨hvf, hvj⟩ | ⟨rfl, _⟩)
      · rcases htr1 v hvf with h | h | h
        · exact Or.inl h
        · exact absurd h hvj
        · exact Or.inr (Or.inl h)
      · exact Or.inr (Or.inr rfl)
    · rintro (rfl | rfl | rfl)
      · exact Or.inl ⟨hif1, by omega⟩
      · exact Or.inl ⟨hopmem, hop2⟩
      · exact Or.inr ⟨rfl, hjf1⟩
  have hdT1 : faceDistinct (e.2, g.verticies.length, opp1) :=
    ⟨show e.2 ≠ g.verticies.length by omega,
     show g.verticies.length ≠ opp1 by omega,
     show opp1 ≠ e.2 by omega⟩
  -- old keys listing the rewritten face avoid its replaced vertex
  have hkey_t1 : ∀ kv : Edge × List ℕ, kv ∈ g.edgeConnections →
      kv.1 ≠ e → kv.1 ≠ sortPair (e.2, opp1) → t1 ∈ kv.2 →
      (kv.1.1 = e.1 ∨ kv.1.1 = opp1) ∧ (kv.1.2 = e.1 ∨ kv.1.2 = opp1) := by
    intro kv hC hkve hkvS1 ht1m
    obtain ⟨_, h1, h2⟩ := inv.incident kv hC t1 ht1m
    rw [hgd1] at h1 h2
    have hcan := inv.keysCanon kv hC
    have hx1 := htr1 _ h1
    have hx2 := htr1 _ h2
    rcases hx1 with ha | ha | ha <;> rcases hx2 with hb | hb | hb
    · omega
    · exact absurd (Prod.ext_iff.mpr ⟨ha, hb⟩) hkve
    · exact ⟨Or.inl ha, Or.inr hb⟩
    · omega
    · omega
    · exact absurd (by
        rw [sortPair_eq_left e.2 opp1 (by omega)]
        exact Prod.ext_iff.mpr ⟨ha, hb⟩) hkvS1
    · exact ⟨Or.inr ha, Or.inl hb⟩
    · exact absurd (by
        rw [sortPair_eq_right e.2 opp1 (by omega)]
        exact Prod.ext_iff.mpr ⟨ha, hb⟩) hkvS1
    · omega
  -- opposite-vertex computations in the new faces
  have hoppF1M : ∀ k : Edge, k.1 ≠ k.2 → (k.1 = e.1 ∨ k.1 = opp1) →
      (k.2 = e.1 ∨ k.2 = opp1) →
      oppositeVert (replaceInFace f1 e.2 g.verticies.length) k =
        some g.verticies.length := by
    intro k hk h1 h2
    refine oppositeVert_eq_of _ _ hdF1 hk ?_ ?_ _ ?_ ?_ ?_
    · rcases h1 with h | h <;>
        [exact (hF1chr _).mpr (Or.inl h);
         exact (hF1chr _).mpr (Or.inr (Or.inl h))]
    · rcases h2 with h | h <;>
        [exact (hF1chr _).mpr (Or.inl h);
         exact (hF1chr _).mpr (Or.inr (Or.inl h))]
    · exact (hF1chr _).mpr (Or.inr (Or.inr rfl))
    · rcases h1 with h | h <;> omega
    · rcases h2 with h | h <;> omega
  have hoppOld : ∀ t, t < g.faces.length → ∀ k : Edge, k.1 ≠ k.2 →
      k.1 ∈ faceVerts (g.faces.getD t faceD) →
      k.2 ∈ faceVerts (g.faces.getD t faceD) →
      ∃ v, oppositeVert (g.faces.getD t faceD) k = some v ∧
        v < g.verticies.length := by
    intro t ht k hk h1 h2
    obtain ⟨opp, ho, _, _, hom, _⟩ :=
      oppositeVert_spec _ k (inv.faceDist t ht) hk h1 h2
    exact ⟨opp, ho, inv.faceBound t ht _ hom⟩
  have hmemT1 : ∀ x, x ∈ faceVerts (e.2, g.verticies.length, opp1) ↔
      (x = e.2 ∨ x = g.verticies.length ∨ x = opp1) := by
    intro x
    simp [faceVerts]
  have hoppT1S1 : oppositeVert (e.2, g.verticies.length, opp1)
      (sortPair (e.2, opp1)) = some g.verticies.length := by
    refine oppositeVert_eq_of _ _ hdT1 (by omega) ?_ ?_ _ ?_ (by omega)
      (by omega)
    · rcases hS1c1 with h | h <;> rw [h] <;> simp [faceVerts]
    · rcases hS1c2 with h | h <;> rw [h] <;> simp [faceVerts]
    · simp [faceVerts]
  have hoppT1K1 : oppositeVert (e.2, g.verticies.length, opp1)
      (opp1, g.verticies.length) = some e.2 := by
    refine oppositeVert_eq_of _ _ hdT1 (by omega) (by simp [faceVerts])
      (by simp [faceVerts]) _ (by simp [faceVerts]) (by omega) (by omega)
  have hoppF1K1 : oppositeVert (replaceInFace f1 e.2 g.verticies.length)
      (opp1, g.verticies.length) = some e.1 := by
    refine oppositeVert_eq_of _ _ hdF1 (by omega) ?_ ?_ _ ?_ (by omega)
      (by omega)
    · exact (hF1chr _).mpr (Or.inr (Or.inl rfl))
    · exact (hF1chr _).mpr (Or.inr (Or.inr rfl))
    · exact (hF1chr _).mpr (Or.inl rfl)
  -- length transfer to the extended vertex buffer
  have hlen_eq : ∀ k : Edge, k.1 < g.verticies.length →
      k.2 < g.verticies.length → edgeLenSq g2 k = edgeLenSq g k := by
    intro k h1 h2
    unfold edgeLenSq
    rw [hg2v, get?_append_left _ _ _ h1, get?_append_left _ _ _ h2]
  have hshort_lift : ∀ k : Edge, k.1 < g.verticies.length →
      k.2 < g.verticies.length → shortIn g r k → shortIn g2 r k := by
    rintro k h1 h2 ⟨L, hL, hLr⟩
    exact ⟨L, by rw [hlen_eq k h1 h2]; exact hL, hLr⟩
  have henotqt : e ∉ qt := (List.nodup_cons.mp inv.queueNodup).1
  refine ⟨?_, ?_, ?_, ?_, ?_, ?_, ?_, ?_, ?_, ?_, ?_⟩
  · -- faceBound
    intro t ht v hv
    rw [hvl2]
    rw [hlen2] at ht
    by_cases h1 : t = t1
    · obtain rfl := h1.symm
      rw [hgf_t1] at hv
      rcases (hF1chr v).mp hv with rfl | rfl | rfl <;> omega
    by_cases h2 : t = g.faces.length
    · subst h2
      rw [hgf_N] at hv
      rcases (hmemT1 v).mp hv with rfl | rfl | rfl <;> omega
    · have ht' : t < g.faces.length := by omega
      rw [hgf_old t ht' h1] at hv
      have := inv.faceBound t ht' v hv
      omega
  · -- faceDist
    intro t ht
    rw [hlen2] at ht
    by_cases h1 : t = t1
    · obtain rfl := h1.symm; rw [hgf_t1]; exact hdF1
    by_cases h2 : t = g.faces.length
    · subst h2; rw [hgf_N]; exact hdT1
    · have ht' : t < g.faces.length := by omega
      rw [hgf_old t ht' h1]
      exact inv.faceDist t ht'
  · -- keysCanon
    intro kv hkv
    rcases (hmem2 kv).mp hkv with ⟨hC, _, _⟩ | heq | heq | heq | heq
    · exact inv.keysCanon kv hC
    · rw [heq]; exact hS1lt
    · rw [heq]; exact hoM
    · rw [heq]; exact hjM
    · rw [heq]; exact hiM
  · -- incident
    intro kv hkv t ht
    rw [hlen2]
    rcases (hmem2 kv).mp hkv with ⟨hC, hkve, hkvS1⟩ | heq | heq | heq | heq
    · obtain ⟨htN, h1, h2⟩ := inv.incident kv hC t ht
      by_cases h : t = t1
      · subst h
        obtain ⟨ha, hb⟩ := hkey_t1 kv hC hkve hkvS1 ht
        rw [hgf_t1]
        refine ⟨by omega, ?_, ?_⟩
        · rcases ha with h | h <;>
            [exact (hF1chr _).mpr (Or.inl h);
             exact (hF1chr _).mpr (Or.inr (Or.inl h))]
        · rcases hb with h | h <;>
            [exact (hF1chr _).mpr (Or.inl h);
             exact (hF1chr _).mpr (Or.inr (Or.inl h))]
      · rw [hgf_old t htN h]
        exact ⟨by omega, h1, h2⟩
    · rw [heq] at ht ⊢
      rcases (mem_replaceAll l1 t1 g.faces.length t).mp ht with
        ⟨htl, htne⟩ | ⟨_, rfl⟩
      · obtain ⟨htN, h1, h2⟩ := inv.incident _ hl1mem t htl
        rw [hgf_old t htN htne]
        exact ⟨by omega, h1, h2⟩
      · rw [hgf_N]
        refine ⟨by omega, ?_, ?_⟩
        · rcases hS1c1 with h | h <;> rw [h] <;> simp [faceVerts]
        · rcases hS1c2 with h | h <;> rw [h] <;> simp [faceVerts]
    · rw [heq] at ht ⊢
      simp only [List.mem_cons, List.mem_singleton, List.not_mem_nil,
        or_false] at ht
      rcases ht with rfl | rfl
      · rw [hgf_t1]
        exact ⟨by omega, (hF1chr _).mpr (Or.inr (Or.inl rfl)),
          (hF1chr _).mpr (Or.inr (Or.inr rfl))⟩
      · rw [hgf_N]
        exact ⟨by omega, by simp [faceVerts], by simp [faceVerts]⟩
    · rw [heq] at ht ⊢
      simp only [List.mem_singleton] at ht
      subst ht
      rw [hgf_N]
      exact ⟨by omega, by simp [faceVerts], by simp [faceVerts]⟩
    · rw [heq] at ht ⊢
      simp only [List.mem_singleton] at ht
      subst ht
      rw [hgf_t1]
      exact ⟨by omega, (hF1chr _).mpr (Or.inl rfl),
        (hF1chr _).mpr (Or.inr (Or.inr rfl))⟩
  · -- listSize
    intro kv hkv
    rcases (hmem2 kv).mp hkv with ⟨hC, _, _⟩ | heq | heq | heq | heq
    · exact inv.listSize kv hC
    · rw [heq]
      exact ⟨replaceAll_ne_nil _ _ _ (inv.listSize _ hl1mem).1,
        by rw [replaceAll_length]; exact (inv.listSize _ hl1mem).2⟩
    · rw [heq]; exact ⟨by simp, by simp⟩
    · rw [heq]; exact ⟨by simp, by simp⟩
    · rw [heq]; exact ⟨by simp, by simp⟩
  · -- distinctOpp
    intro kv hkv
    rcases (hmem2 kv).mp hkv with ⟨hC, hkve, hkvS1⟩ | heq | heq | heq | heq
    · obtain ⟨hnil, hlen⟩ := inv.listSize kv hC
      have hpw := inv.distinctOpp kv hC
      rcases hk2 : kv.2 with _ | ⟨s, _ | ⟨t, _ | ⟨u, rest⟩⟩⟩
      · simp
      · simp
      · rw [hk2, pairwise_pair] at hpw
        obtain ⟨hst, hoppne⟩ := hpw
        rw [pairwise_pair]
        refine ⟨hst, ?_⟩
        obtain ⟨hsN, hs1, hs2⟩ := inv.incident kv hC s (by rw [hk2]; simp)
        obtain ⟨htN, ht1x, ht2x⟩ := inv.incident kv hC t (by rw [hk2]; simp)
        have hcan := inv.keysCanon kv hC
        by_cases hs : s = t1 <;> by_cases htt : t = t1
        · omega
        · subst hs
          obtain ⟨ha, hb⟩ := hkey_t1 kv hC hkve hkvS1 (by rw [hk2]; simp)
          rw [hgf_t1, hgf_old t htN htt,
            hoppF1M kv.1 (by omega) ha hb]
          obtain ⟨v, hv, hvM⟩ := hoppOld t htN kv.1 (by omega) ht1x ht2x
          rw [hv]
          intro hc
          cases Option.some_inj.mp hc
          omega
        · subst htt
          obtain ⟨ha, hb⟩ := hkey_t1 kv hC hkve hkvS1 (by rw [hk2]; simp)
          rw [hgf_t1, hgf_old s hsN hs,
            hoppF1M kv.1 (by omega) ha hb]
          obtain ⟨v, hv, hvM⟩ := hoppOld s hsN kv.1 (by omega) hs1 hs2
          rw [hv]
          intro hc
          cases Option.some_inj.mp hc
          omega
        · rw [hgf_old s hsN hs, hgf_old t htN htt]
          exact hoppne
      · rw [hk2] at hlen
        simp at hlen
    · have hk1 : kv.1 = sortPair (e.2, opp1) := by rw [heq]
      have hk2 : kv.2 = replaceAll l1 t1 g.faces.length := by rw [heq]
      rw [hk2, hk1]
      obtain ⟨hnil1, hlen1⟩ := inv.listSize _ hl1mem
      have hpw := inv.distinctOpp _ hl1mem
      rcases hl1c : l1 with _ | ⟨s, _ | ⟨t, _ | ⟨u, rest⟩⟩⟩
      · rw [hl1c] at ht1l1; simp at ht1l1
      · rw [hl1c] at ht1l1
        simp only [List.mem_singleton] at ht1l1
        obtain rfl := ht1l1
        have hra : replaceAll [t1] t1 g.faces.length = [g.faces.length] := by
          simp [replaceAll]
        rw [hra]
        simp
      · rw [hl1c, pairwise_pair] at hpw
        obtain ⟨hst, hoppne⟩ := hpw
        rw [hl1c] at ht1l1
        obtain ⟨hsN, hs1, hs2⟩ := inv.incident _ hl1mem s (by rw [hl1c]; simp)
        obtain ⟨htN, ht1x, ht2x⟩ := inv.incident _ hl1mem t (by rw [hl1c]; simp)
        simp only [List.mem_cons, List.mem_singleton, List.not_mem_nil,
          or_false] at ht1l1
        rcases ht1l1 with hcase | hcase
        · obtain rfl := hcase
          have hrw : replaceAll [t1, t] t1 g.faces.length =
              [g.faces.length, t] := by
            have ht' : t ≠ t1 := fun h => hst h.symm
            simp [replaceAll, ht']
          rw [hrw, pairwise_pair]
          refine ⟨by omega, ?_⟩
          rw [hgf_N, hgf_old t htN (fun h => hst h.symm), hoppT1S1]
          obtain ⟨v, hv, hvM⟩ :=
            hoppOld t htN (sortPair (e.2, opp1)) (by omega) ht1x ht2x
          rw [hv]
          intro hc
          cases Option.some_inj.mp hc
          omega
        · obtain rfl := hcase
          have hrw : replaceAll [s, t1] t1 g.faces.length =
              [s, g.faces.length] := by
            simp [replaceAll, hst]
          rw [hrw, pairwise_pair]
          refine ⟨by omega, ?_⟩
          rw [hgf_N, hgf_old s hsN hst, hoppT1S1]
          obtain ⟨v, hv, hvM⟩ :=
            hoppOld s hsN (sortPair (e.2, opp1)) (by omega) hs1 hs2
          rw [hv]
          intro hc
          cases Option.some_inj.mp hc
          omega
      · rw [hl1c] at hlen1
        simp at hlen1
    · have hk1 : kv.1 = (opp1, g.verticies.length) := by rw [heq]
      have hk2 : kv.2 = [t1, g.faces.length] := by rw [heq]
      rw [hk2, hk1, pairwise_pair]
      refine ⟨by omega, ?_⟩
      rw [hgf_t1, hgf_N, hoppF1K1, hoppT1K1]
      intro hc
      exact hene (Option.some_inj.mp hc)
    · have hk2 : kv.2 = [g.faces.length] := by rw [heq]
      rw [hk2]; simp
    · have hk2 : kv.2 = [t1] := by rw [heq]
      rw [hk2]; simp
  · -- complete
    intro t ht s hs
    rw [hlen2] at ht
    by_cases h1 : t = t1
    · obtain rfl := h1.symm
      rw [hgf_t1] at hs
      obtain ⟨x, y, hx, hy, hxy, rfl⟩ := (faceSides_char _ hdF1 s).mp hs
      have hself : ∀ a b : ℕ, (a = e.1 ∨ a = opp1) → (b = e.1 ∨ b = opp1) →
          a ≠ b →
          ∃ l, alookup g2.edgeConnections (sortPair (a, b)) = some l ∧
            t1 ∈ l := by
        intro a b hau hbu hab
        have hs0 : sortPair (a, b) ∈ faceSides (g.faces.getD t1 faceD) := by
          rw [hgd1]
          refine (faceSides_char f1 hd1 _).mpr ⟨a, b, ?_, ?_, hab, rfl⟩
          · rcases hau with rfl | rfl <;> [exact hif1; exact hopmem]
          · rcases hbu with rfl | rfl <;> [exact hif1; exact hopmem]
        obtain ⟨l0, hl0, ht1l0⟩ := inv.complete t1 ht1N _ hs0
        have hc1 := sortPair_fst_mem a b
        have hc2 := sortPair_snd_mem a b
        have hcM1 : (sortPair (a, b)).1 < g.verticies.length := by
          rcases hc1 with h | h <;> rcases hau with rfl | rfl <;>
            rcases hbu with rfl | rfl <;> omega
        have hcM2 : (sortPair (a, b)).2 < g.verticies.length := by
          rcases hc2 with h | h <;> rcases hau with rfl | rfl <;>
            rcases hbu with rfl | rfl <;> omega
        have hne_e : sortPair (a, b) ≠ e := by
          intro h
          have hh1 := congrArg Prod.fst h
          have hh2 := congrArg Prod.snd h
          rcases hc1 with h3 | h3 <;> rcases hc2 with h4 | h4 <;>
            rcases hau with rfl | rfl <;> rcases hbu with rfl | rfl <;> omega
        have hne_S1 : sortPair (a, b) ≠ sortPair (e.2, opp1) := by
          intro h
          have hh1 := congrArg Prod.fst h
          have hh2 := congrArg Prod.snd h
          rcases hc1 with h3 | h3 <;> rcases hc2 with h4 | h4 <;>
            rcases hS1c1 with h5 | h5 <;> rcases hS1c2 with h6 | h6 <;>
            rcases hau with rfl | rfl <;> rcases hbu with rfl | rfl <;> omega
        refine ⟨l0, ?_, ht1l0⟩
        rw [hlook2]
        rw [if_neg (fun h => by
          have := congrArg Prod.snd h; simp at this; omega),
          if_neg hne_e,
          if_neg (fun h => by
            have := congrArg Prod.snd h; simp at this; omega),
          if_neg (fun h => by
            have := congrArg Prod.snd h; simp at this; omega),
          if_neg hne_S1]
        exact hl0
      rcases (hF1chr x).mp hx with rfl | rfl | rfl <;>
        rcases (hF1chr y).mp hy with rfl | rfl | rfl
      · exact absurd rfl hxy
      · exact hself _ _ (Or.inl rfl) (Or.inr rfl) hxy
      · refine ⟨[t1], ?_, by simp⟩
        rw [sortPair_eq_left _ _ (by omega), hlook2, if_pos rfl]
      · exact hself _ _ (Or.inr rfl) (Or.inl rfl) hxy
      · exact absurd rfl hxy
      · refine ⟨[t1, g.faces.length], ?_, by simp⟩
        rw [sortPair_eq_left _ _ (by omega), hlook2]
        rw [if_neg (fun h => by
          have := congrArg Prod.fst h; simp at this; omega),
          if_neg (fun h => by
            have := congrArg Prod.snd h; simp at this; omega),
          if_neg (fun h => by
            have := congrArg Prod.fst h; simp at this; omega),
          if_pos rfl]
      · refine ⟨[t1], ?_, by simp⟩
        rw [sortPair_eq_right _ _ (by omega), hlook2, if_pos rfl]
      · refine ⟨[t1, g.faces.length], ?_, by simp⟩
        rw [sortPair_eq_right _ _ (by omega), hlook2]
        rw [if_neg (fun h => by
          have := congrArg Prod.fst h; simp at this; omega),
          if_neg (fun h => by
            have := congrArg Prod.snd h; simp at this; omega),
          if_neg (fun h => by
            have := congrArg Prod.fst h; simp at this; omega),
          if_pos rfl]
      · exact absurd rfl hxy
    by_cases h2 : t = g.faces.length
    · subst h2
      rw [hgf_N] at hs
      simp only [faceSides, List.mem_cons, List.not_mem_nil, or_false] at hs
      rcases hs with rfl | rfl | rfl
      · refine ⟨[g.faces.length], ?_, by simp⟩
        rw [sortPair_eq_left _ _ (by omega), hlook2]
        rw [if_neg (fun h => by
          have := congrArg Prod.fst h; simp at this; omega),
          if_neg (fun h => by
            have := congrArg Prod.snd h; simp at this; omega),
          if_pos rfl]
      · refine ⟨[t1, g.faces.length], ?_, by simp⟩
        rw [sortPair_eq_right _ _ (by omega), hlook2]
        rw [if_neg (fun h => by
          have := congrArg Prod.fst h; simp at this; omega),
          if_neg (fun h => by
            have := congrArg Prod.snd h; simp at this; omega),
          if_neg (fun h => by
            have := congrArg Prod.fst h; simp at this; omega),
          if_pos rfl]
      · refine ⟨replaceAll l1 t1 g.faces.length, ?_,
          (mem_replaceAll _ _ _ _).mpr (Or.inr ⟨ht1l1, rfl⟩)⟩
        rw [sortPair_comm, hlook2]
        rw [if_neg (fun h => by
          have := congrArg Prod.snd h; simp at this; omega),
          if_neg hS1e,
          if_neg (fun h => by
            have := congrArg Prod.snd h; simp at this; omega),
          if_neg (fun h => by
            have := congrArg Prod.snd h; simp at this; omega),
          if_pos rfl]
    · have ht' : t < g.faces.length := by omega
      rw [hgf_old t ht' h1] at hs
      obtain ⟨l, hl, htl⟩ := inv.complete t ht' s hs
      obtain ⟨x, y, hx, hy, hxy, hsxy⟩ :=
        (faceSides_char _ (inv.faceDist t ht') s).mp hs
      have hxM := inv.faceBound t ht' x hx
      have hyM := inv.faceBound t ht' y hy
      have hsM2 : s.2 < g.verticies.length := by
        rcases sortPair_snd_mem x y with h | h <;> rw [hsxy] <;> omega
      have hse : s ≠ e := by
        intro hc
        rw [hc, htris] at hl
        cases Option.some_inj.mp hl
        simp at htl
        omega
      by_cases hsS1 : s = sortPair (e.2, opp1)
      · have hll1 : l = l1 := by
          rw [hsS1, hl1] at hl
          exact Option.some_inj.mp hl.symm
        refine ⟨replaceAll l1 t1 g.faces.length, ?_,
          (mem_replaceAll _ _ _ _).mpr (Or.inl ⟨hll1 ▸ htl, h1⟩)⟩
        rw [hlook2]
        rw [if_neg (fun h => by
          have := congrArg Prod.snd h; simp at this; omega),
          if_neg hse,
          if_neg (fun h => by
            have := congrArg Prod.snd h; simp at this; omega),
          if_neg (fun h => by
            have := congrArg Prod.snd h; simp at this; omega),
          if_pos hsS1]
      · refine ⟨l, ?_, htl⟩
        rw [hlook2]
        rw [if_neg (fun h => by
          have := congrArg Prod.snd h; simp at this; omega),
          if_neg hse,
          if_neg (fun h => by
            have := congrArg Prod.snd h; simp at this; omega),
          if_neg (fun h => by
            have := congrArg Prod.snd h; simp at this; omega),
          if_neg hsS1]
        exact hl
  · -- shortOrQueued
    intro kv hkv
    rcases (hmem2 kv).mp hkv with ⟨hC, hkve, hkvS1⟩ | heq | heq | heq | heq
    · rcases inv.shortOrQueued kv hC with hsh | hq
      · obtain ⟨hm1, hm2⟩ := inv.keyBound kv hC
        exact Or.inl (hshort_lift _ hm1 hm2 hsh)
      · rcases List.mem_cons.mp hq with hc | hc
        · exact absurd hc hkve
        · exact Or.inr (List.mem_append_left _ hc)
    · rcases inv.shortOrQueued _ hl1mem with hsh | hq
      · rw [heq]
        exact Or.inl (hshort_lift _ hS1M1 hS1M2 hsh)
      · rcases List.mem_cons.mp hq with hc | hc
        · exact absurd hc hS1e
        · rw [heq]
          exact Or.inr (List.mem_append_left _ hc)
    all_goals {
      rw [heq]
      have hx : ((opp1, g.verticies.length) : Edge) ∈
          [((opp1 : ℕ), g.verticies.length), (e.2, g.verticies.length),
            (e.1, g.verticies.length)] ∧
          ((e.2, g.verticies.length) : Edge) ∈
          [((opp1 : ℕ), g.verticies.length), (e.2, g.verticies.length),
            (e.1, g.verticies.length)] ∧
          ((e.1, g.verticies.length) : Edge) ∈
          [((opp1 : ℕ), g.verticies.length), (e.2, g.verticies.length),
            (e.1, g.verticies.length)] := by simp
      first
        | (by_cases hlong : longIn g2 r ((opp1, g.verticies.length) : Edge)
           · exact Or.inr (List.mem_append_right _
               ((filterLong_spec g2 r _ keep hfl _ hx.1).1 hlong))
           · exact Or.inl ((filterLong_spec g2 r _ keep hfl _ hx.1).2.2
               hlong))
        | (by_cases hlong : longIn g2 r ((e.2, g.verticies.length) : Edge)
           · exact Or.inr (List.mem_append_right _
               ((filterLong_spec g2 r _ keep hfl _ hx.2.1).1 hlong))
           · exact Or.inl ((filterLong_spec g2 r _ keep hfl _ hx.2.1).2.2
               hlong))
        | (by_cases hlong : longIn g2 r ((e.1, g.verticies.length) : Edge)
           · exact Or.inr (List.mem_append_right _
               ((filterLong_spec g2 r _ keep hfl _ hx.2.2).1 hlong))
           · exact Or.inl ((filterLong_spec g2 r _ keep hfl _ hx.2.2).2.2
               hlong)) }
  · -- queueKeys
    intro x hx
    rcases List.mem_append.mp hx with hq | hk
    · obtain ⟨l, hl⟩ := inv.queueKeys x (List.mem_cons_of_mem _ hq)
      obtain ⟨hm10, hm20⟩ :=
        inv.keyBound (x, l) (mem_of_alookup_eq_some _ _ _ hl)
      have hm1 : x.1 < g.verticies.length := hm10
      have hm2 : x.2 < g.verticies.length := hm20
      have hxe : x ≠ e := fun hc => henotqt (hc ▸ hq)
      by_cases hxS1 : x = sortPair (e.2, opp1)
      · refine ⟨replaceAll l1 t1 g.faces.length, ?_⟩
        rw [hlook2]
        rw [if_neg (fun h => by
          have := congrArg Prod.snd h; simp at this; omega),
          if_neg hxe,
          if_neg (fun h => by
            have := congrArg Prod.snd h; simp at this; omega),
          if_neg (fun h => by
            have := congrArg Prod.snd h; simp at this; omega),
          if_pos hxS1]
      · refine ⟨l, ?_⟩
        rw [hlook2]
        rw [if_neg (fun h => by
          have := congrArg Prod.snd h; simp at this; omega),
          if_neg hxe,
          if_neg (fun h => by
            have := congrArg Prod.snd h; simp at this; omega),
          if_neg (fun h => by
            have := congrArg Prod.snd h; simp at this; omega),
          if_neg hxS1]
        exact hl
    · have hkm := (filterLong_sublist g2 r _ keep hfl).subset hk
      simp only [List.mem_cons, List.not_mem_nil, or_false] at hkm
      rcases hkm with rfl | rfl | rfl
      · refine ⟨[t1, g.faces.length], ?_⟩
        rw [hlook2]
        rw [if_neg (fun h => by
          have := congrArg Prod.fst h; simp at this; omega),
          if_neg (fun h => by
            have := congrArg Prod.snd h; simp at this; omega),
          if_neg (fun h => by
            have := congrArg Prod.fst h; simp at this; omega),
          if_pos rfl]
      · refine ⟨[g.faces.length], ?_⟩
        rw [hlook2]
        rw [if_neg (fun h => by
          have := congrArg Prod.fst h; simp at this; omega),
          if_neg (fun h => by
            have := congrArg Prod.snd h; simp at this; omega),
          if_pos rfl]
      · exact ⟨[t1], by rw [hlook2, if_pos rfl]⟩
  · -- queueLong
    intro x hx
    rcases List.mem_append.mp hx with hq | hk
    · obtain ⟨L, hL, hLr⟩ := inv.queueLong x (List.mem_cons_of_mem _ hq)
      obtain ⟨l, hl⟩ := inv.queueKeys x (List.mem_cons_of_mem _ hq)
      obtain ⟨hm10, hm20⟩ :=
        inv.keyBound (x, l) (mem_of_alookup_eq_some _ _ _ hl)
      have hm1 : x.1 < g.verticies.length := hm10
      have hm2 : x.2 < g.verticies.length := hm20
      exact ⟨L, by rw [hlen_eq x hm1 hm2]; exact hL, hLr⟩
    · exact (filterLong_spec g2 r _ keep hfl x
        ((filterLong_sublist g2 r _ keep hfl).subset hk)).2.1 hk
  · -- queueNodup
    rw [List.nodup_append]
    refine ⟨(List.nodup_cons.mp inv.queueNodup).2, ?_, ?_⟩
    · refine List.Nodup.sublist (filterLong_sublist g2 r _ keep hfl) ?_
      simp [Prod.ext_iff]
      omega
    · intro x hq hk
      obtain ⟨l, hl⟩ := inv.queueKeys x (List.mem_cons_of_mem _ hq)
      obtain ⟨hm10, hm20⟩ :=
        inv.keyBound (x, l) (mem_of_alookup_eq_some _ _ _ hl)
      have hm2 : x.2 < g.verticies.length := hm20
      have hkm := (filterLong_sublist g2 r _ keep hfl).subset hk
      simp only [List.mem_cons, List.not_mem_nil, or_false] at hkm
      rcases hkm with rfl | rfl | rfl <;> simp at hm2

set_option maxHeartbeats 2000000 in
/-- Preservation of the subdivision invariant by one split of an edge with
two incident faces. -/
theorem subInv_step_two (r : ℚ) (g : TriMeshGraph) (e : Edge) (qt : List Edge)
    (t1 t2 : ℕ) (inv : SubInv r g (e :: qt))
    (htris : alookup g.edgeConnections e = some [t1, t2])
    (g2 : TriMeshGraph) (ne keep : List Edge)
    (hde : divideEdge g e = some (g2, ne))
    (hfl : filterLong g2 r ne = some keep) :
    SubInv r g2 (qt ++ keep) := by
  obtain ⟨vA, vB, f1, opp1, f2, opp2, hA, hB, hf1, ho1, hf2, ho2, hg2, hne⟩ :=
    divideEdge_spec_two g e t1 t2 htris g2 ne hde
  have hee : (e, [t1, t2]) ∈ g.edgeConnections :=
    mem_of_alookup_eq_some _ _ _ htris
  have hij : e.1 < e.2 := inv.keysCanon _ hee
  obtain ⟨hiM0, hjM0⟩ := inv.keyBound (e, [t1, t2]) hee
  have hiM : e.1 < g.verticies.length := hiM0
  have hjM : e.2 < g.verticies.length := hjM0
  obtain ⟨ht1N, hif10, hjf10⟩ := inv.incident (e, [t1, t2]) hee t1 (by simp)
  obtain ⟨ht2N, hif20, hjf20⟩ := inv.incident (e, [t1, t2]) hee t2 (by simp)
  have hpw12 := inv.distinctOpp (e, [t1, t2]) hee
  rw [pairwise_pair] at hpw12
  obtain ⟨ht12, hoppne12⟩ := hpw12
  have hgd1 : g.faces.getD t1 faceD = f1 := getD_eq_of_get?_eq _ _ _ _ hf1
  have hf2b : g.faces.get? t2 = some f2 := by
    rw [get?_append_left _ _ _ (by simp [List.length_set]; omega),
      get?_set_ne _ _ _ _ (fun h => ht12 h.symm)] at hf2
    exact hf2
  have hgd2 : g.faces.getD t2 faceD = f2 := getD_eq_of_get?_eq _ _ _ _ hf2b
  rw [hgd1] at hif10 hjf10
  rw [hgd2] at hif20 hjf20
  have hif1 : e.1 ∈ faceVerts f1 := hif10
  have hjf1 : e.2 ∈ faceVerts f1 := hjf10
  have hif2 : e.1 ∈ faceVerts f2 := hif20
  have hjf2 : e.2 ∈ faceVerts f2 := hjf20
  have hd1 : faceDistinct f1 := hgd1 ▸ inv.faceDist t1 ht1N
  have hd2 : faceDistinct f2 := hgd2 ▸ inv.faceDist t2 ht2N
  have hb1 : ∀ v ∈ faceVerts f1, v < g.verticies.length :=
    fun v hv => inv.faceBound t1 ht1N v (hgd1.symm ▸ hv)
  have hb2 : ∀ v ∈ faceVerts f2, v < g.verticies.length :=
    fun v hv => inv.faceBound t2 ht2N v (hgd2.symm ▸ hv)
  have hene : e.1 ≠ e.2 := by omega
  obtain ⟨oppA, hoveqA, hop1, hop2, hopmem, htr1⟩ :=
    oppositeVert_spec f1 e hd1 hene hif1 hjf1
  rw [ho1] at hoveqA
  cases Option.some_inj.mp hoveqA
  obtain ⟨oppB, hoveqB, hop1b, hop2b, hopmem2, htr2⟩ :=
    oppositeVert_spec f2 e hd2 hene hif2 hjf2
  rw [ho2] at hoveqB
  cases Option.some_inj.mp hoveqB
  have hoM : opp1 < g.verticies.length := hb1 _ hopmem
  have ho2M : opp2 < g.verticies.length := hb2 _ hopmem2
  have hoppne12b : oppositeVert (g.faces.getD t1 faceD) e ≠
      oppositeVert (g.faces.getD t2 faceD) e := hoppne12
  rw [hgd1, hgd2, ho1, ho2] at hoppne12b
  have hoo : opp1 ≠ opp2 := fun h => hoppne12b (by rw [h])
  rw [sortPair_eq_right g.verticies.length opp1 hoM,
    sortPair_eq_right g.verticies.length opp2 ho2M,
    sortPair_eq_right g.verticies.length e.2 hjM,
    sortPair_eq_left e.1 g.verticies.length (by omega)] at hg2 hne
  subst hne
  have hg2v : g2.verticies = g.verticies ++ [Vm.midpoint vA vB] := by rw [hg2]
  have hg2c : g2.edgeConnections =
      ainsert (aremove (ainsert
        (ainsert
          (aupdate
            (ainsert
              (aupdate (aremove g.edgeConnections e) (sortPair (e.2, opp1))
                (fun l => replaceAll l t1 g.faces.length))
              (opp1, g.verticies.length) [t1, g.faces.length])
            (sortPair (e.2, opp2))
            (fun l => replaceAll l t2 (g.faces.length + 1)))
          (opp2, g.verticies.length) [t2, g.faces.length + 1])
        (e.2, g.verticies.length) [g.faces.length, g.faces.length + 1]) e)
        (e.1, g.verticies.length) [t1, t2] := by rw [hg2]
  have hg2f : g2.faces =
      ((g.faces.set t1 (replaceInFace f1 e.2 g.verticies.length)) ++
          [(e.2, g.verticies.length, opp1)]).set t2
          (replaceInFace f2 e.2 g.verticies.length) ++
        [(e.2, g.verticies.length, opp2)] := by rw [hg2]
  have hvl2 : g2.verticies.length = g.verticies.length + 1 := by
    rw [hg2v]; simp
  have hlen2 : g2.faces.length = g.faces.length + 2 := by
    rw [hg2f]; simp [List.length_set]
  -- facts about the two split-off sides
  have hjo : e.2 ≠ opp1 := fun h => hop2 h.symm
  have hjo2 : e.2 ≠ opp2 := fun h => hop2b h.symm
  have hS1lt : (sortPair (e.2, opp1)).1 < (sortPair (e.2, opp1)).2 :=
    sortPair_lt _ _ hjo
  have hS2lt : (sortPair (e.2, opp2)).1 < (sortPair (e.2, opp2)).2 :=
    sortPair_lt _ _ hjo2
  have hS1c1 := sortPair_fst_mem e.2 opp1
  have hS1c2 := sortPair_snd_mem e.2 opp1
  have hS2c1 := sortPair_fst_mem e.2 opp2
  have hS2c2 := sortPair_snd_mem e.2 opp2
  have hS1M1 : (sortPair (e.2, opp1)).1 < g.verticies.length := by
    rcases hS1c1 with h | h <;> omega
  have hS1M2 : (sortPair (e.2, opp1)).2 < g.verticies.length := by
    rcases hS1c2 with h | h <;> omega
  have hS2M1 : (sortPair (e.2, opp2)).1 < g.verticies.length := by
    rcases hS2c1 with h | h <;> omega
  have hS2M2 : (sortPair (e.2, opp2)).2 < g.verticies.length := by
    rcases hS2c2 with h | h <;> omega
  have hS1e : sortPair (e.2, opp1) ≠ e := by
    intro h
    have h1 := congrArg Prod.fst h
    have h2 := congrArg Prod.snd h
    rcases hS1c1 with h3 | h3 <;> rcases hS1c2 with h4 | h4 <;> omega
  have hS2e : sortPair (e.2, opp2) ≠ e := by
    intro h
    have h1 := congrArg Prod.fst h
    have h2 := congrArg Prod.snd h
    rcases hS2c1 with h3 | h3 <;> rcases hS2c2 with h4 | h4 <;> omega
  have hS1S2 : sortPair (e.2, opp1) ≠ sortPair (e.2, opp2) := by
    intro h
    have h1 := congrArg Prod.fst h
    have h2 := congrArg Prod.snd h
    rcases hS1c1 with h3 | h3 <;> rcases hS1c2 with h4 | h4 <;>
      rcases hS2c1 with h5 | h5 <;> rcases hS2c2 with h6 | h6 <;> omega
  have hS2S1 : sortPair (e.2, opp2) ≠ sortPair (e.2, opp1) := fun h =>
    hS1S2 h.symm
  have hS2K1 : sortPair (e.2, opp2) ≠ (opp1, g.verticies.length) := by
    intro h
    have h2 := congrArg Prod.snd h
    simp at h2
    omega
  -- the incidence lists of the two sides
  have hS1side : sortPair (e.2, opp1) ∈ faceSides (g.faces.getD t1 faceD) := by
    rw [hgd1]
    exact (faceSides_char f1 hd1 _).mpr ⟨e.2, opp1, hjf1, hopmem, hjo, rfl⟩
  obtain ⟨l1, hl1, ht1l1⟩ := inv.complete t1 ht1N _ hS1side
  have hl1mem : (sortPair (e.2, opp1), l1) ∈ g.edgeConnections :=
    mem_of_alookup_eq_some _ _ _ hl1
  have hS2side : sortPair (e.2, opp2) ∈ faceSides (g.faces.getD t2 faceD) := by
    rw [hgd2]
    exact (faceSides_char f2 hd2 _).mpr ⟨e.2, opp2, hjf2, hopmem2, hjo2, rfl⟩
  obtain ⟨l2, hl2, ht2l2⟩ := inv.complete t2 ht2N _ hS2side
  have hl2mem : (sortPair (e.2, opp2), l2) ∈ g.edgeConnections :=
    mem_of_alookup_eq_some _ _ _ hl2
  -- each side lists only its own face among the two split faces
  have ht2l1 : t2 ∉ l1 := by
    intro hmem
    obtain ⟨_, hx1, hx2⟩ := inv.incident _ hl1mem t2 hmem
    have hx1b : (sortPair (e.2, opp1)).1 ∈
        faceVerts (g.faces.getD t2 faceD) := hx1
    have hx2b : (sortPair (e.2, opp1)).2 ∈
        faceVerts (g.faces.getD t2 faceD) := hx2
    rw [hgd2] at hx1b hx2b
    rcases sortPair_cases e.2 opp1 with hsp | hsp <;>
      rw [hsp] at hx1b hx2b
    · rcases htr2 opp1 hx2b with hc | hc | hc <;> omega
    · rcases htr2 opp1 hx1b with hc | hc | hc <;> omega
  have ht1l2 : t1 ∉ l2 := by
    intro hmem
    obtain ⟨_, hx1, hx2⟩ := inv.incident _ hl2mem t1 hmem
    have hx1b : (sortPair (e.2, opp2)).1 ∈
        faceVerts (g.faces.getD t1 faceD) := hx1
    have hx2b : (sortPair (e.2, opp2)).2 ∈
        faceVerts (g.faces.getD t1 faceD) := hx2
    rw [hgd1] at hx1b hx2b
    rcases sortPair_cases e.2 opp2 with hsp | hsp <;>
      rw [hsp] at hx1b hx2b
    · rcases htr1 opp2 hx2b with hc | hc | hc <;> omega
    · rcases htr1 opp2 hx1b with hc | hc | hc <;> omega
  -- membership characterization of the new connection map
  have hmem2 : ∀ kv : Edge × List ℕ, kv ∈ g2.edgeConnections ↔
      (kv ∈ g.edgeConnections ∧ kv.1 ≠ e ∧ kv.1 ≠ sortPair (e.2, opp1) ∧
        kv.1 ≠ sortPair (e.2, opp2)) ∨
      kv = (sortPair (e.2, opp1), replaceAll l1 t1 g.faces.length) ∨
      kv = (sortPair (e.2, opp2), replaceAll l2 t2 (g.faces.length + 1)) ∨
      kv = ((opp1, g.verticies.length), [t1, g.faces.length]) ∨
      kv = ((opp2, g.verticies.length), [t2, g.faces.length + 1]) ∨
      kv = ((e.2, g.verticies.length), [g.faces.length, g.faces.length + 1]) ∨
      kv = ((e.1, g.verticies.length), [t1, t2]) := by
    intro kv
    rw [hg2c, mem_ainsert_iff, mem_aremove_iff, mem_ainsert_iff,
      mem_ainsert_iff, mem_aupdate_iff, mem_ainsert_iff, mem_aupdate_iff,
      mem_aremove_iff, alookup_aremove_ne _ _ _ hS1e, hl1,
      alookup_ainsert, if_neg hS2K1, alookup_aupdate, if_neg hS2S1,
      alookup_aremove_ne _ _ _ hS2e, hl2]
    constructor
    · rintro (⟨⟨(⟨(⟨(⟨(⟨(⟨⟨hC, hkve⟩, hS1⟩ | hS1eq), hK1⟩ | hK1eq), hS2⟩ |
        hS2eq), hK2⟩ | hK2eq), hKJ⟩ | hKJeq), hkve2⟩, hKI⟩ | hKIeq)
      · exact Or.inl ⟨hC, hkve, hS1, hS2⟩
      · exact Or.inr (Or.inl hS1eq)
      · exact Or.inr (Or.inr (Or.inr (Or.inl hK1eq)))
      · exact Or.inr (Or.inr (Or.inl hS2eq))
      · exact Or.inr (Or.inr (Or.inr (Or.inr (Or.inl hK2eq))))
      · exact Or.inr (Or.inr (Or.inr (Or.inr (Or.inr (Or.inl hKJeq)))))
      · exact Or.inr (Or.inr (Or.inr (Or.inr (Or.inr (Or.inr hKIeq)))))
    · have hMbound := inv.keyBound
      rintro (⟨hC, hkve, hS1, hS2⟩ | heq | heq | heq | heq | heq | heq)
      · obtain ⟨hm1, hm2⟩ := hMbound kv hC
        refine Or.inl ⟨⟨Or.inl ⟨Or.inl ⟨Or.inl ⟨Or.inl ⟨Or.inl
          ⟨⟨hC, hkve⟩, hS1⟩, ?_⟩, hS2⟩, ?_⟩, ?_⟩, hkve⟩, ?_⟩ <;>
          (intro h; have := congrArg Prod.snd h; simp at this; omega)
      · refine Or.inl ⟨⟨Or.inl ⟨Or.inl ⟨Or.inl ⟨Or.inl ⟨Or.inr heq, ?_⟩,
          ?_⟩, ?_⟩, ?_⟩, ?_⟩, ?_⟩ <;>
          (rw [heq];
           first
             | exact hS1e
             | exact hS1S2
             | (intro h; have := congrArg Prod.snd h; simp at this; omega))
      · refine Or.inl ⟨⟨Or.inl ⟨Or.inl ⟨Or.inr heq, ?_⟩, ?_⟩, ?_⟩, ?_⟩ <;>
          (rw [heq];
           first
             | exact hS2e
             | (intro h; have := congrArg Prod.snd h; simp at this; omega))
      · refine Or.inl ⟨⟨Or.inl ⟨Or.inl ⟨Or.inl ⟨Or.inr heq, ?_⟩, ?_⟩, ?_⟩,
          ?_⟩, ?_⟩ <;>
          (rw [heq];
           first
             | (intro h;
                have h1 := congrArg Prod.fst h;
                have h2 := congrArg Prod.snd h; simp at h1 h2; omega)
             | (intro h; have h1 := congrArg Prod.fst h; simp at h1; omega))
      · refine Or.inl ⟨⟨Or.inl ⟨Or.inr heq, ?_⟩, ?_⟩, ?_⟩ <;>
          (rw [heq];
           first
             | (intro h;
                have h1 := congrArg Prod.fst h;
                have h2 := congrArg Prod.snd h; simp at h1 h2; omega)
             | (intro h; have h1 := congrArg Prod.fst h; simp at h1; omega))
      · refine Or.inl ⟨⟨Or.inr heq, ?_⟩, ?_⟩ <;>
          (rw [heq];
           first
             | (intro h;
                have h1 := congrArg Prod.fst h;
                have h2 := congrArg Prod.snd h; simp at h1 h2; omega)
             | (intro h; have h1 := congrArg Prod.fst h; simp at h1; omega))
      · exact Or.inr heq
  -- lookup characterization of the new connection map
  have hlook2 : ∀ k, alookup g2.edgeConnections k =
      if k = (e.1, g.verticies.length) then some [t1, t2]
      else if k = e then none
      else if k = (e.2, g.verticies.length) then
        some [g.faces.length, g.faces.length + 1]
      else if k = (opp2, g.verticies.length) then
        some [t2, g.faces.length + 1]
      else if k = sortPair (e.2, opp2) then
        some (replaceAll l2 t2 (g.faces.length + 1))
      else if k = (opp1, g.verticies.length) then
        some [t1, g.faces.length]
      else if k = sortPair (e.2, opp1) then
        some (replaceAll l1 t1 g.faces.length)
      else alookup g.edgeConnections k := by
    intro k
    rw [hg2c, alookup_ainsert]
    by_cases h1 : k = (e.1, g.verticies.length)
    · rw [if_pos h1, if_pos h1]
    rw [if_neg h1, if_neg h1, alookup_aremove]
    by_cases h2 : k = e
    · rw [if_pos h2, if_pos h2]
    rw [if_neg h2, if_neg h2, alookup_ainsert]
    by_cases h3 : k = (e.2, g.verticies.length)
    · rw [if_pos h3, if_pos h3]
    rw [if_neg h3, if_neg h3, alookup_ainsert]
    by_cases h4 : k = (opp2, g.verticies.length)
    · rw [if_pos h4, if_pos h4]
    rw [if_neg h4, if_neg h4, alookup_aupdate]
    by_cases h5 : k = sortPair (e.2, opp2)
    · rw [if_pos h5, if_pos h5, alookup_ainsert, if_neg hS2K1,
        alookup_aupdate, if_neg hS2S1, alookup_aremove_ne _ _ _ hS2e, hl2]
      rfl
    rw [if_neg h5, if_neg h5, alookup_ainsert]
    by_cases h6 : k = (opp1, g.verticies.length)
    · rw [if_pos h6, if_pos h6]
    rw [if_neg h6, if_neg h6, alookup_aupdate]
    by_cases h7 : k = sortPair (e.2, opp1)
    · rw [if_pos h7, if_pos h7, alookup_aremove_ne _ _ _ hS1e, hl1]
      rfl
    · rw [if_neg h7, if_neg h7, alookup_aremove_ne _ _ _ h2]
  -- getters for the new face buffer
  have hlsetlen : ((g.faces.set t1
      (replaceInFace f1 e.2 g.verticies.length)) ++
      [(e.2, g.verticies.length, opp1)]).length = g.faces.length + 1 := by
    simp [List.length_set]
  have hgf_t1 : g2.faces.getD t1 faceD =
      replaceInFace f1 e.2 g.verticies.length := by
    rw [hg2f]
    refine getD_eq_of_get?_eq _ _ _ _ ?_
    rw [get?_append_left _ _ _ (by simp [List.length_set]; omega),
      get?_set_ne _ _ _ _ (fun h => ht12 h),
      get?_append_left _ _ _ (by simp [List.length_set]; omega),
      get?_set_self _ _ _ ht1N]
  have hgf_t2 : g2.faces.getD t2 faceD =
      replaceInFace f2 e.2 g.verticies.length := by
    rw [hg2f]
    refine getD_eq_of_get?_eq _ _ _ _ ?_
    rw [get?_append_left _ _ _ (by simp [List.length_set]; omega),
      get?_set_self _ _ _ (by rw [hlsetlen]; omega)]
  have hgf_N : g2.faces.getD g.faces.length faceD =
      (e.2, g.verticies.length, opp1) := by
    rw [hg2f]
    refine getD_eq_of_get?_eq _ _ _ _ ?_
    rw [get?_append_left _ _ _ (by
        simp only [List.length_append, List.length_set, List.length_cons,
          List.length_nil]
        omega),
      get?_set_ne _ _ _ _ (by omega)]
    have hls : (g.faces.set t1
        (replaceInFace f1 e.2 g.verticies.length)).length =
        g.faces.length := by simp
    rw [← hls, get?_append_length]
  have hgf_N1 : g2.faces.getD (g.faces.length + 1) faceD =
      (e.2, g.verticies.length, opp2) := by
    rw [hg2f]
    refine getD_eq_of_get?_eq _ _ _ _ ?_
    have hls : (((g.faces.set t1
        (replaceInFace f1 e.2 g.verticies.length)) ++
        [(e.2, g.verticies.length, opp1)]).set t2
        (replaceInFace f2 e.2 g.verticies.length)).length =
        g.faces.length + 1 := by simp [List.length_set]
    rw [← hls, get?_append_length]
  have hgf_old : ∀ t, t < g.faces.length → t ≠ t1 → t ≠ t2 →
      g2.faces.getD t faceD = g.faces.getD t faceD := by
    intro t ht htne1 htne2
    rw [hg2f]
    refine getD_eq_of_get?_eq _ _ _ _ ?_
    rw [get?_append_left _ _ _ (by simp [List.length_set]; omega),
      get?_set_ne _ _ _ _ htne2,
      get?_append_left _ _ _ (by simp [List.length_set]; omega),
      get?_set_ne _ _ _ _ htne1]
    exact get?_eq_of_lt_getD _ _ _ ht
  -- combinatorics of the rewritten faces
  have hMf1 : g.verticies.length ∉ faceVerts f1 := by
    intro h
    exact absurd (hb1 _ h) (lt_irrefl _)
  have hMf2 : g.verticies.length ∉ faceVerts f2 := by
    intro h
    exact absurd (hb2 _ h) (lt_irrefl _)
  obtain ⟨hdF1, hvF1⟩ :=
    replaceInFace_verts f1 e.2 g.verticies.length hd1 hMf1
  obtain ⟨hdF2, hvF2⟩ :=
    replaceInFace_verts f2 e.2 g.verticies.length hd2 hMf2
  have hF1chr : ∀ v, v ∈ faceVerts (replaceInFace f1 e.2 g.verticies.length) ↔
      (v = e.1 ∨ v = opp1 ∨ v = g.verticies.length) := by
    intro v
    rw [hvF1 v]
    constructor
    · rintro (⟨hvf, hvj⟩ | ⟨rfl, _⟩)
      · rcases htr1 v hvf with h | h | h
        · exact Or.inl h
        · exact absurd h hvj
        · exact Or.inr (Or.inl h)
      · exact Or.inr (Or.inr rfl)
    · rintro (rfl | rfl | rfl)
      · exact Or.inl ⟨hif1, by omega⟩
      · exact Or.inl ⟨hopmem, hop2⟩
      · exact Or.inr ⟨rfl, hjf1⟩
  have hF2chr : ∀ v, v ∈ faceVerts (replaceInFace f2 e.2 g.verticies.length) ↔
      (v = e.1 ∨ v = opp2 ∨ v = g.verticies.length) := by
    intro v
    rw [hvF2 v]
    constructor
    · rintro (⟨hvf, hvj⟩ | ⟨rfl, _⟩)
      · rcases htr2 v hvf with h | h | h
        · exact Or.inl h
        · exact absurd h hvj
        · exact Or.inr (Or.inl h)
      · exact Or.inr (Or.inr rfl)
    · rintro (rfl | rfl | rfl)
      · exact Or.inl ⟨hif2, by omega⟩
      · exact Or.inl ⟨hopmem2, hop2b⟩
      · exact Or.inr ⟨rfl, hjf2⟩
  have hdT1 : faceDistinct (e.2, g.verticies.length, opp1) :=
    ⟨show e.2 ≠ g.verticies.length by omega,
     show g.verticies.length ≠ opp1 by omega,
     show opp1 ≠ e.2 by omega⟩
  have hdT2 : faceDistinct (e.2, g.verticies.length, opp2) :=
    ⟨show e.2 ≠ g.verticies.length by omega,
     show g.verticies.length ≠ opp2 by omega,
     show opp2 ≠ e.2 by omega⟩
  -- old keys listing a rewritten face avoid its replaced vertex
  have hkey_t1 : ∀ kv : Edge × List ℕ, kv ∈ g.edgeConnections →
      kv.1 ≠ e → kv.1 ≠ sortPair (e.2, opp1) → t1 ∈ kv.2 →
      (kv.1.1 = e.1 ∨ kv.1.1 = opp1) ∧ (kv.1.2 = e.1 ∨ kv.1.2 = opp1) := by
    intro kv hC hkve hkvS1 ht1m
    obtain ⟨_, h1, h2⟩ := inv.incident kv hC t1 ht1m
    rw [hgd1] at h1 h2
    have hcan := inv.keysCanon kv hC
    have hx1 := htr1 _ h1
    have hx2 := htr1 _ h2
    rcases hx1 with ha | ha | ha <;> rcases hx2 with hb | hb | hb
    · omega
    · exact absurd (Prod.ext_iff.mpr ⟨ha, hb⟩) hkve
    · exact ⟨Or.inl ha, Or.inr hb⟩
    · omega
    · omega
    · exact absurd (by
        rw [sortPair_eq_left e.2 opp1 (by omega)]
        exact Prod.ext_iff.mpr ⟨ha, hb⟩) hkvS1
    · exact ⟨Or.inr ha, Or.inl hb⟩
    · exact absurd (by
        rw [sortPair_eq_right e.2 opp1 (by omega)]
        exact Prod.ext_iff.mpr ⟨ha, hb⟩) hkvS1
    · omega
  have hkey_t2 : ∀ kv : Edge × List ℕ, kv ∈ g.edgeConnections →
      kv.1 ≠ e → kv.1 ≠ sortPair (e.2, opp2) → t2 ∈ kv.2 →
      (kv.1.1 = e.1 ∨ kv.1.1 = opp2) ∧ (kv.1.2 = e.1 ∨ kv.1.2 = opp2) := by
    intro kv hC hkve hkvS2 ht2m
    obtain ⟨_, h1, h2⟩ := inv.incident kv hC t2 ht2m
    rw [hgd2] at h1 h2
    have hcan := inv.keysCanon kv hC
    have hx1 := htr2 _ h1
    have hx2 := htr2 _ h2
    rcases hx1 with ha | ha | ha <;> rcases hx2 with hb | hb | hb
    · omega
    · exact absurd (Prod.ext_iff.mpr ⟨ha, hb⟩) hkve
    · exact ⟨Or.inl ha, Or.inr hb⟩
    · omega
    · omega
    · exact absurd (by
        rw [sortPair_eq_left e.2 opp2 (by omega)]
        exact Prod.ext_iff.mpr ⟨ha, hb⟩) hkvS2
    · exact ⟨Or.inr ha, Or.inl hb⟩
    · exact absurd (by
        rw [sortPair_eq_right e.2 opp2 (by omega)]
        exact Prod.ext_iff.mpr ⟨ha, hb⟩) hkvS2
    · omega
  -- opposite-vertex computations in the new faces
  have hoppF1M : ∀ k : Edge, k.1 ≠ k.2 → (k.1 = e.1 ∨ k.1 = opp1) →
      (k.2 = e.1 ∨ k.2 = opp1) →
      oppositeVert (replaceInFace f1 e.2 g.verticies.length) k =
        some g.verticies.length := by
    intro k hk h1 h2
    refine oppositeVert_eq_of _ _ hdF1 hk ?_ ?_ _ ?_ ?_ ?_
    · rcases h1 with h | h <;>
        [exact (hF1chr _).mpr (Or.inl h);
         exact (hF1chr _).mpr (Or.inr (Or.inl h))]
    · rcases h2 with h | h <;>
        [exact (hF1chr _).mpr (Or.inl h);
         exact (hF1chr _).mpr (Or.inr (Or.inl h))]
    · exact (hF1chr _).mpr (Or.inr (Or.inr rfl))
    · rcases h1 with h | h <;> omega
    · rcases h2 with h | h <;> omega
  have hoppF2M : ∀ k : Edge, k.1 ≠ k.2 → (k.1 = e.1 ∨ k.1 = opp2) →
      (k.2 = e.1 ∨ k.2 = opp2) →
      oppositeVert (replaceInFace f2 e.2 g.verticies.length) k =
        some g.verticies.length := by
    intro k hk h1 h2
    refine oppositeVert_eq_of _ _ hdF2 hk ?_ ?_ _ ?_ ?_ ?_
    · rcases h1 with h | h <;>
        [exact (hF2chr _).mpr (Or.inl h);
         exact (hF2chr _).mpr (Or.inr (Or.inl h))]
    · rcases h2 with h | h <;>
        [exact (hF2chr _).mpr (Or.inl h);
         exact (hF2chr _).mpr (Or.inr (Or.inl h))]
    · exact (hF2chr _).mpr (Or.inr (Or.inr rfl))
    · rcases h1 with h | h <;> omega
    · rcases h2 with h | h <;> omega
  have hoppOld : ∀ t, t < g.faces.length → ∀ k : Edge, k.1 ≠ k.2 →
      k.1 ∈ faceVerts (g.faces.getD t faceD) →
      k.2 ∈ faceVerts (g.faces.getD t faceD) →
      ∃ v, oppositeVert (g.faces.getD t faceD) k = some v ∧
        v < g.verticies.length := by
    intro t ht k hk h1 h2
    obtain ⟨opp, ho, _, _, hom, _⟩ :=
      oppositeVert_spec _ k (inv.faceDist t ht) hk h1 h2
    exact ⟨opp, ho, inv.faceBound t ht _ hom⟩
  have hoppT1S1 : oppositeVert (e.2, g.verticies.length, opp1)
      (sortPair (e.2, opp1)) = some g.verticies.length := by
    refine oppositeVert_eq_of _ _ hdT1 (by omega) ?_ ?_ _ ?_ (by omega)
      (by omega)
    · rcases hS1c1 with h | h <;> rw [h] <;> simp [faceVerts]
    · rcases hS1c2 with h | h <;> rw [h] <;> simp [faceVerts]
    · simp [faceVerts]
  have hoppT2S2 : oppositeVert (e.2, g.verticies.length, opp2)
      (sortPair (e.2, opp2)) = some g.verticies.length := by
    refine oppositeVert_eq_of _ _ hdT2 (by omega) ?_ ?_ _ ?_ (by omega)
      (by omega)
    · rcases hS2c1 with h | h <;> rw [h] <;> simp [faceVerts]
    · rcases hS2c2 with h | h <;> rw [h] <;> simp [faceVerts]
    · simp [faceVerts]
  have hoppT1K1 : oppositeVert (e.2, g.verticies.length, opp1)
      (opp1, g.verticies.length) = some e.2 := by
    refine oppositeVert_eq_of _ _ hdT1 (by omega) (by simp [faceVerts])
      (by simp [faceVerts]) _ (by simp [faceVerts]) (by omega) (by omega)
  have hoppT2K2 : oppositeVert (e.2, g.verticies.length, opp2)
      (opp2, g.verticies.length) = some e.2 := by
    refine oppositeVert_eq_of _ _ hdT2 (by omega) (by simp [faceVerts])
      (by simp [faceVerts]) _ (by simp [faceVerts]) (by omega) (by omega)
  have hoppF1K1 : oppositeVert (replaceInFace f1 e.2 g.verticies.length)
      (opp1, g.verticies.length) = some e.1 := by
    refine oppositeVert_eq_of _ _ hdF1 (by omega) ?_ ?_ _ ?_ (by omega)
      (by omega)
    · exact (hF1chr _).mpr (Or.inr (Or.inl rfl))
    · exact (hF1chr _).mpr (Or.inr (Or.inr rfl))
    · exact (hF1chr _).mpr (Or.inl rfl)
  have hoppF2K2 : oppositeVert (replaceInFace f2 e.2 g.verticies.length)
      (opp2, g.verticies.length) = some e.1 := by
    refine oppositeVert_eq_of _ _ hdF2 (by omega) ?_ ?_ _ ?_ (by omega)
      (by omega)
    · exact (hF2chr _).mpr (Or.inr (Or.inl rfl))
    · exact (hF2chr _).mpr (Or.inr (Or.inr rfl))
    · exact (hF2chr _).mpr (Or.inl rfl)
  have hoppT1KJ : oppositeVert (e.2, g.verticies.length, opp1)
      (e.2, g.verticies.length) = some opp1 := by
    refine oppositeVert_eq_of _ _ hdT1 (by omega) (by simp [faceVerts])
      (by simp [faceVerts]) _ (by simp [faceVerts]) (by omega) (by omega)
  have hoppT2KJ : oppositeVert (e.2, g.verticies.length, opp2)
      (e.2, g.verticies.length) = some opp2 := by
    refine oppositeVert_eq_of _ _ hdT2 (by omega) (by simp [faceVerts])
      (by simp [faceVerts]) _ (by simp [faceVerts]) (by omega) (by omega)
  have hoppF1KI : oppositeVert (replaceInFace f1 e.2 g.verticies.length)
      (e.1, g.verticies.length) = some opp1 := by
    refine oppositeVert_eq_of _ _ hdF1 (by omega) ?_ ?_ _ ?_ (by omega)
      (by omega)
    · exact (hF1chr _).mpr (Or.inl rfl)
    · exact (hF1chr _).mpr (Or.inr (Or.inr rfl))
    · exact (hF1chr _).mpr (Or.inr (Or.inl rfl))
  have hoppF2KI : oppositeVert (replaceInFace f2 e.2 g.verticies.length)
      (e.1, g.verticies.length) = some opp2 := by
    refine oppositeVert_eq_of _ _ hdF2 (by omega) ?_ ?_ _ ?_ (by omega)
      (by omega)
    · exact (hF2chr _).mpr (Or.inl rfl)
    · exact (hF2chr _).mpr (Or.inr (Or.inr rfl))
    · exact (hF2chr _).mpr (Or.inr (Or.inl rfl))
  -- length transfer to the extended vertex buffer
  have hlen_eq : ∀ k : Edge, k.1 < g.verticies.length →
      k.2 < g.verticies.length → edgeLenSq g2 k = edgeLenSq g k := by
    intro k h1 h2
    unfold edgeLenSq
    rw [hg2v, get?_append_left _ _ _ h1, get?_append_left _ _ _ h2]
  have hshort_lift : ∀ k : Edge, k.1 < g.verticies.length →
      k.2 < g.verticies.length → shortIn g r k → shortIn g2 r k := by
    rintro k h1 h2 ⟨L, hL, hLr⟩
    exact ⟨L, by rw [hlen_eq k h1 h2]; exact hL, hLr⟩
  have henotqt : e ∉ qt := (List.nodup_cons.mp inv.queueNodup).1
  refine ⟨?_, ?_, ?_, ?_, ?_, ?_, ?_, ?_, ?_, ?_, ?_⟩
  · -- faceBound
    intro t ht v hv
    rw [hvl2]
    rw [hlen2] at ht
    by_cases h1 : t = t1
    · obtain rfl := h1.symm
      rw [hgf_t1] at hv
      rcases (hF1chr v).mp hv with rfl | rfl | rfl <;> omega
    by_cases h1b : t = t2
    · obtain rfl := h1b.symm
      rw [hgf_t2] at hv
      rcases (hF2chr v).mp hv with rfl | rfl | rfl <;> omega
    by_cases h2 : t = g.faces.length
    · subst h2
      rw [hgf_N] at hv
      simp only [faceVerts, List.mem_cons, List.not_mem_nil, or_false] at hv
      omega
    by_cases h3 : t = g.faces.length + 1
    · subst h3
      rw [hgf_N1] at hv
      simp only [faceVerts, List.mem_cons, List.not_mem_nil, or_false] at hv
      omega
    · have ht' : t < g.faces.length := by omega
      rw [hgf_old t ht' h1 h1b] at hv
      have := inv.faceBound t ht' v hv
      omega
  · -- faceDist
    intro t ht
    rw [hlen2] at ht
    by_cases h1 : t = t1
    · obtain rfl := h1.symm; rw [hgf_t1]; exact hdF1
    by_cases h1b : t = t2
    · obtain rfl := h1b.symm; rw [hgf_t2]; exact hdF2
    by_cases h2 : t = g.faces.length
    · subst h2; rw [hgf_N]; exact hdT1
    by_cases h3 : t = g.faces.length + 1
    · subst h3; rw [hgf_N1]; exact hdT2
    · have ht' : t < g.faces.length := by omega
      rw [hgf_old t ht' h1 h1b]
      exact inv.faceDist t ht'
  · -- keysCanon
    intro kv hkv
    rcases (hmem2 kv).mp hkv with ⟨hC, _, _, _⟩ | heq | heq | heq | heq |
      heq | heq
    · exact inv.keysCanon kv hC
    · rw [heq]; exact hS1lt
    · rw [heq]; exact hS2lt
    · rw [heq]; exact hoM
    · rw [heq]; exact ho2M
    · rw [heq]; exact hjM
    · rw [heq]; exact hiM
  · -- incident
    intro kv hkv t ht
    rw [hlen2]
    rcases (hmem2 kv).mp hkv with ⟨hC, hkve, hkvS1, hkvS2⟩ | heq | heq |
      heq | heq | heq | heq
    · obtain ⟨htN, h1, h2⟩ := inv.incident kv hC t ht
      by_cases h : t = t1
      · obtain rfl := h.symm
        obtain ⟨ha, hb⟩ := hkey_t1 kv hC hkve hkvS1 ht
        rw [hgf_t1]
        refine ⟨by omega, ?_, ?_⟩
        · rcases ha with h | h <;>
            [exact (hF1chr _).mpr (Or.inl h);
             exact (hF1chr _).mpr (Or.inr (Or.inl h))]
        · rcases hb with h | h <;>
            [exact (hF1chr _).mpr (Or.inl h);
             exact (hF1chr _).mpr (Or.inr (Or.inl h))]
      by_cases hb2 : t = t2
      · obtain rfl := hb2.symm
        obtain ⟨ha, hbv⟩ := hkey_t2 kv hC hkve hkvS2 ht
        rw [hgf_t2]
        refine ⟨by omega, ?_, ?_⟩
        · rcases ha with h2x | h2x <;>
            [exact (hF2chr _).mpr (Or.inl h2x);
             exact (hF2chr _).mpr (Or.inr (Or.inl h2x))]
        · rcases hbv with h2x | h2x <;>
            [exact (hF2chr _).mpr (Or.inl h2x);
             exact (hF2chr _).mpr (Or.inr (Or.inl h2x))]
      · rw [hgf_old t htN h hb2]
        exact ⟨by omega, h1, h2⟩
    · rw [heq] at ht ⊢
      rcases (mem_replaceAll l1 t1 g.faces.length t).mp ht with
        ⟨htl, htne⟩ | ⟨_, rfl⟩
      · obtain ⟨htN, h1, h2⟩ := inv.incident _ hl1mem t htl
        have htne2 : t ≠ t2 := fun h => ht2l1 (h ▸ htl)
        rw [hgf_old t htN htne htne2]
        exact ⟨by omega, h1, h2⟩
      · rw [hgf_N]
        refine ⟨by omega, ?_, ?_⟩
        · rcases hS1c1 with h | h <;> rw [h] <;> simp [faceVerts]
        · rcases hS1c2 with h | h <;> rw [h] <;> simp [faceVerts]
    · rw [heq] at ht ⊢
      rcases (mem_replaceAll l2 t2 (g.faces.length + 1) t).mp ht with
        ⟨htl, htne⟩ | ⟨_, rfl⟩
      · obtain ⟨htN, h1, h2⟩ := inv.incident _ hl2mem t htl
        have htne1 : t ≠ t1 := fun h => ht1l2 (h ▸ htl)
        rw [hgf_old t htN htne1 htne]
        exact ⟨by omega, h1, h2⟩
      · rw [hgf_N1]
        refine ⟨by omega, ?_, ?_⟩
        · rcases hS2c1 with h | h <;> rw [h] <;> simp [faceVerts]
        · rcases hS2c2 with h | h <;> rw [h] <;> simp [faceVerts]
    · rw [heq] at ht ⊢
      simp only [List.mem_cons, List.mem_singleton, List.not_mem_nil,
        or_false] at ht
      rcases ht with rfl | rfl
      · rw [hgf_t1]
        exact ⟨by omega, (hF1chr _).mpr (Or.inr (Or.inl rfl)),
          (hF1chr _).mpr (Or.inr (Or.inr rfl))⟩
      · rw [hgf_N]
        exact ⟨by omega, by simp [faceVerts], by simp [faceVerts]⟩
    · rw [heq] at ht ⊢
      simp only [List.mem_cons, List.mem_singleton, List.not_mem_nil,
        or_false] at ht
      rcases ht with rfl | rfl
      · rw [hgf_t2]
        exact ⟨by omega, (hF2chr _).mpr (Or.inr (Or.inl rfl)),
          (hF2chr _).mpr (Or.inr (Or.inr rfl))⟩
      · rw [hgf_N1]
        exact ⟨by omega, by simp [faceVerts], by simp [faceVerts]⟩
    · rw [heq] at ht ⊢
      simp only [List.mem_cons, List.mem_singleton, List.not_mem_nil,
        or_false] at ht
      rcases ht with rfl | rfl
      · rw [hgf_N]
        exact ⟨by omega, by simp [faceVerts], by simp [faceVerts]⟩
      · rw [hgf_N1]
        exact ⟨by omega, by simp [faceVerts], by simp [faceVerts]⟩
    · rw [heq] at ht ⊢
      simp only [List.mem_cons, List.mem_singleton, List.not_mem_nil,
        or_false] at ht
      rcases ht with rfl | rfl
      · rw [hgf_t1]
        exact ⟨by omega, (hF1chr _).mpr (Or.inl rfl),
          (hF1chr _).mpr (Or.inr (Or.inr rfl))⟩
      · rw [hgf_t2]
        exact ⟨by omega, (hF2chr _).mpr (Or.inl rfl),
          (hF2chr _).mpr (Or.inr (Or.inr rfl))⟩
  · -- listSize
    intro kv hkv
    rcases (hmem2 kv).mp hkv with ⟨hC, _, _, _⟩ | heq | heq | heq | heq |
      heq | heq
    · exact inv.listSize kv hC
    · rw [heq]
      exact ⟨replaceAll_ne_nil _ _ _ (inv.listSize _ hl1mem).1,
        by rw [replaceAll_length]; exact (inv.listSize _ hl1mem).2⟩
    · rw [heq]
      exact ⟨replaceAll_ne_nil _ _ _ (inv.listSize _ hl2mem).1,
        by rw [replaceAll_length]; exact (inv.listSize _ hl2mem).2⟩
    · rw [heq]; exact ⟨by simp, by simp⟩
    · rw [heq]; exact ⟨by simp, by simp⟩
    · rw [heq]; exact ⟨by simp, by simp⟩
    · rw [heq]; exact ⟨by simp, by simp⟩
  · -- distinctOpp
    intro kv hkv
    rcases (hmem2 kv).mp hkv with ⟨hC, hkve, hkvS1, hkvS2⟩ | heq | heq |
      heq | heq | heq | heq
    · obtain ⟨hnil, hlen⟩ := inv.listSize kv hC
      have hpw := inv.distinctOpp kv hC
      rcases hk2 : kv.2 with _ | ⟨s, _ | ⟨t, _ | ⟨u, rest⟩⟩⟩
      · simp
      · simp
      · rw [hk2, pairwise_pair] at hpw
        obtain ⟨hst, hoppne⟩ := hpw
        rw [pairwise_pair]
        refine ⟨hst, ?_⟩
        obtain ⟨hsN, hs1, hs2⟩ := inv.incident kv hC s (by rw [hk2]; simp)
        obtain ⟨htN, ht1x, ht2x⟩ := inv.incident kv hC t (by rw [hk2]; simp)
        have hcan := inv.keysCanon kv hC
        have hsm : s ∈ kv.2 := by rw [hk2]; simp
        have htm : t ∈ kv.2 := by rw [hk2]; simp
        have hnot12 : ¬ (s = t1 ∧ t = t2) := by
          rintro ⟨rfl, rfl⟩
          obtain ⟨ha1, hb1⟩ := hkey_t1 kv hC hkve hkvS1 hsm
          obtain ⟨ha2, hb2⟩ := hkey_t2 kv hC hkve hkvS2 htm
          rcases ha1 with h | h <;> rcases hb1 with hh | hh <;>
            rcases ha2 with h3 | h3 <;> rcases hb2 with h4 | h4 <;> omega
        have hnot21 : ¬ (s = t2 ∧ t = t1) := by
          rintro ⟨rfl, rfl⟩
          obtain ⟨ha1, hb1⟩ := hkey_t1 kv hC hkve hkvS1 htm
          obtain ⟨ha2, hb2⟩ := hkey_t2 kv hC hkve hkvS2 hsm
          rcases ha1 with h | h <;> rcases hb1 with hh | hh <;>
            rcases ha2 with h3 | h3 <;> rcases hb2 with h4 | h4 <;> omega
        by_cases hs : s = t1
        · obtain rfl := hs.symm
          have htt2 : t ≠ t2 := fun hc => hnot12 ⟨rfl, hc⟩
          have htt1 : t ≠ t1 := fun hc => hst hc.symm
          obtain ⟨ha, hbv⟩ := hkey_t1 kv hC hkve hkvS1 hsm
          rw [hgf_t1, hgf_old t htN htt1 htt2,
            hoppF1M kv.1 (by omega) ha hbv]
          obtain ⟨v, hv, hvM⟩ := hoppOld t htN kv.1 (by omega) ht1x ht2x
          rw [hv]
          intro hc
          cases Option.some_inj.mp hc
          omega
        by_cases hs2c : s = t2
        · obtain rfl := hs2c.symm
          have htt1 : t ≠ t1 := fun hc => hnot21 ⟨rfl, hc⟩
          have htt2 : t ≠ t2 := fun hc => hst hc.symm
          obtain ⟨ha, hbv⟩ := hkey_t2 kv hC hkve hkvS2 hsm
          rw [hgf_t2, hgf_old t htN htt1 htt2,
            hoppF2M kv.1 (by omega) ha hbv]
          obtain ⟨v, hv, hvM⟩ := hoppOld t htN kv.1 (by omega) ht1x ht2x
          rw [hv]
          intro hc
          cases Option.some_inj.mp hc
          omega
        by_cases htx1 : t = t1
        · obtain rfl := htx1.symm
          obtain ⟨ha, hbv⟩ := hkey_t1 kv hC hkve hkvS1 htm
          rw [hgf_t1, hgf_old s hsN hs hs2c,
            hoppF1M kv.1 (by omega) ha hbv]
          obtain ⟨v, hv, hvM⟩ := hoppOld s hsN kv.1 (by omega) hs1 hs2
          rw [hv]
          intro hc
          cases Option.some_inj.mp hc.symm
          omega
        by_cases htx2 : t = t2
        · obtain rfl := htx2.symm
          obtain ⟨ha, hbv⟩ := hkey_t2 kv hC hkve hkvS2 htm
          rw [hgf_t2, hgf_old s hsN hs hs2c,
            hoppF2M kv.1 (by omega) ha hbv]
          obtain ⟨v, hv, hvM⟩ := hoppOld s hsN kv.1 (by omega) hs1 hs2
          rw [hv]
          intro hc
          cases Option.some_inj.mp hc.symm
          omega
        · rw [hgf_old s hsN hs hs2c, hgf_old t htN htx1 htx2]
          exact hoppne
      · rw [hk2] at hlen
        simp at hlen
    · have hk1 : kv.1 = sortPair (e.2, opp1) := by rw [heq]
      have hk2 : kv.2 = replaceAll l1 t1 g.faces.length := by rw [heq]
      rw [hk2, hk1]
      obtain ⟨hnil1, hlen1⟩ := inv.listSize _ hl1mem
      have hpw := inv.distinctOpp _ hl1mem
      rcases hl1c : l1 with _ | ⟨s, _ | ⟨t, _ | ⟨u, rest⟩⟩⟩
      · rw [hl1c] at ht1l1; simp at ht1l1
      · rw [hl1c] at ht1l1
        simp only [List.mem_singleton] at ht1l1
        obtain rfl := ht1l1
        have hra : replaceAll [t1] t1 g.faces.length = [g.faces.length] := by
          simp [replaceAll]
        rw [hra]
        simp
      · rw [hl1c, pairwise_pair] at hpw
        obtain ⟨hst, hoppne⟩ := hpw
        rw [hl1c] at ht1l1
        obtain ⟨hsN, hs1, hs2⟩ := inv.incident _ hl1mem s (by rw [hl1c]; simp)
        obtain ⟨htN, ht1x, ht2x⟩ := inv.incident _ hl1mem t (by rw [hl1c]; simp)
        have hsl1 : s ∈ l1 := by rw [hl1c]; simp
        have htl1 : t ∈ l1 := by rw [hl1c]; simp
        simp only [List.mem_cons, List.mem_singleton, List.not_mem_nil,
          or_false] at ht1l1
        rcases ht1l1 with hcase | hcase
        · obtain rfl := hcase
          have ht' : t ≠ t1 := fun h => hst h.symm
          have ht2' : t ≠ t2 := fun h => ht2l1 (h ▸ htl1)
          have hrw : replaceAll [t1, t] t1 g.faces.length =
              [g.faces.length, t] := by
            simp [replaceAll, ht']
          rw [hrw, pairwise_pair]
          refine ⟨by omega, ?_⟩
          rw [hgf_N, hgf_old t htN ht' ht2', hoppT1S1]
          obtain ⟨v, hv, hvM⟩ :=
            hoppOld t htN (sortPair (e.2, opp1)) (by omega) ht1x ht2x
          rw [hv]
          intro hc
          cases Option.some_inj.mp hc
          omega
        · obtain rfl := hcase
          have hs2' : s ≠ t2 := fun h => ht2l1 (h ▸ hsl1)
          have hrw : replaceAll [s, t1] t1 g.faces.length =
              [s, g.faces.length] := by
            simp [replaceAll, hst]
          rw [hrw, pairwise_pair]
          refine ⟨by omega, ?_⟩
          rw [hgf_N, hgf_old s hsN hst hs2', hoppT1S1]
          obtain ⟨v, hv, hvM⟩ :=
            hoppOld s hsN (sortPair (e.2, opp1)) (by omega) hs1 hs2
          rw [hv]
          intro hc
          cases Option.some_inj.mp hc
          omega
      · rw [hl1c] at hlen1
        simp at hlen1
    · have hk1 : kv.1 = sortPair (e.2, opp2) := by rw [heq]
      have hk2 : kv.2 = replaceAll l2 t2 (g.faces.length + 1) := by rw [heq]
      rw [hk2, hk1]
      obtain ⟨hnil1, hlen1⟩ := inv.listSize _ hl2mem
      have hpw := inv.distinctOpp _ hl2mem
      rcases hl2c : l2 with _ | ⟨s, _ | ⟨t, _ | ⟨u, rest⟩⟩⟩
      · rw [hl2c] at ht2l2; simp at ht2l2
      · rw [hl2c] at ht2l2
        simp only [List.mem_singleton] at ht2l2
        obtain rfl := ht2l2
        have hra : replaceAll [t2] t2 (g.faces.length + 1) =
            [g.faces.length + 1] := by
          simp [replaceAll]
        rw [hra]
        simp
      · rw [hl2c, pairwise_pair] at hpw
        obtain ⟨hst, hoppne⟩ := hpw
        rw [hl2c] at ht2l2
        obtain ⟨hsN, hs1, hs2⟩ := inv.incident _ hl2mem s (by rw [hl2c]; simp)
        obtain ⟨htN, ht1x, ht2x⟩ := inv.incident _ hl2mem t (by rw [hl2c]; simp)
        have hsl2 : s ∈ l2 := by rw [hl2c]; simp
        have htl2 : t ∈ l2 := by rw [hl2c]; simp
        simp only [List.mem_cons, List.mem_singleton, List.not_mem_nil,
          or_false] at ht2l2
        rcases ht2l2 with hcase | hcase
        · obtain rfl := hcase
          have ht' : t ≠ t2 := fun h => hst h.symm
          have ht1' : t ≠ t1 := fun h => ht1l2 (h ▸ htl2)
          have hrw : replaceAll [t2, t] t2 (g.faces.length + 1) =
              [g.faces.length + 1, t] := by
            simp [replaceAll, ht']
          rw [hrw, pairwise_pair]
          refine ⟨by omega, ?_⟩
          rw [hgf_N1, hgf_old t htN ht1' ht', hoppT2S2]
          obtain ⟨v, hv, hvM⟩ :=
            hoppOld t htN (sortPair (e.2, opp2)) (by omega) ht1x ht2x
          rw [hv]
          intro hc
          cases Option.some_inj.mp hc
          omega
        · obtain rfl := hcase
          have hs1' : s ≠ t1 := fun h => ht1l2 (h ▸ hsl2)
          have hrw : replaceAll [s, t2] t2 (g.faces.length + 1) =
              [s, g.faces.length + 1] := by
            simp [replaceAll, hst]
          rw [hrw, pairwise_pair]
          refine ⟨by omega, ?_⟩
          rw [hgf_N1, hgf_old s hsN hs1' hst, hoppT2S2]
          obtain ⟨v, hv, hvM⟩ :=
            hoppOld s hsN (sortPair (e.2, opp2)) (by omega) hs1 hs2
          rw [hv]
          intro hc
          cases Option.some_inj.mp hc
          omega
      · rw [hl2c] at hlen1
        simp at hlen1
    · have hk1 : kv.1 = (opp1, g.verticies.length) := by rw [heq]
      have hk2 : kv.2 = [t1, g.faces.length] := by rw [heq]
      rw [hk2, hk1, pairwise_pair]
      refine ⟨by omega, ?_⟩
      rw [hgf_t1, hgf_N, hoppF1K1, hoppT1K1]
      intro hc
      exact hene (Option.some_inj.mp hc)
    · have hk1 : kv.1 = (opp2, g.verticies.length) := by rw [heq]
      have hk2 : kv.2 = [t2, g.faces.length + 1] := by rw [heq]
      rw [hk2, hk1, pairwise_pair]
      refine ⟨by omega, ?_⟩
      rw [hgf_t2, hgf_N1, hoppF2K2, hoppT2K2]
      intro hc
      exact hene (Option.some_inj.mp hc)
    · have hk1 : kv.1 = (e.2, g.verticies.length) := by rw [heq]
      have hk2 : kv.2 = [g.faces.length, g.faces.length + 1] := by rw [heq]
      rw [hk2, hk1, pairwise_pair]
      refine ⟨by omega, ?_⟩
      rw [hgf_N, hgf_N1, hoppT1KJ, hoppT2KJ]
      intro hc
      exact hoo (Option.some_inj.mp hc)
    · have hk1 : kv.1 = (e.1, g.verticies.length) := by rw [heq]
      have hk2 : kv.2 = [t1, t2] := by rw [heq]
      rw [hk2, hk1, pairwise_pair]
      refine ⟨ht12, ?_⟩
      rw [hgf_t1, hgf_t2, hoppF1KI, hoppF2KI]
      intro hc
      exact hoo (Option.some_inj.mp hc)
  · -- complete
    intro t ht s hs
    rw [hlen2] at ht
    by_cases h1 : t = t1
    · obtain rfl := h1.symm
      rw [hgf_t1] at hs
      obtain ⟨x, y, hx, hy, hxy, rfl⟩ := (faceSides_char _ hdF1 s).mp hs
      have hself : ∀ a b : ℕ, (a = e.1 ∨ a = opp1) → (b = e.1 ∨ b = opp1) →
          a ≠ b →
          ∃ l, alookup g2.edgeConnections (sortPair (a, b)) = some l ∧
            t1 ∈ l := by
        intro a b hau hbu hab
        have hs0 : sortPair (a, b) ∈ faceSides (g.faces.getD t1 faceD) := by
          rw [hgd1]
          refine (faceSides_char f1 hd1 _).mpr ⟨a, b, ?_, ?_, hab, rfl⟩
          · rcases hau with rfl | rfl <;> [exact hif1; exact hopmem]
          · rcases hbu with rfl | rfl <;> [exact hif1; exact hopmem]
        obtain ⟨l0, hl0, ht1l0⟩ := inv.complete t1 ht1N _ hs0
        have hc1 := sortPair_fst_mem a b
        have hc2 := sortPair_snd_mem a b
        have hne_e : sortPair (a, b) ≠ e := by
          intro h
          have hh1 := congrArg Prod.fst h
          have hh2 := congrArg Prod.snd h
          rcases hc1 with h3 | h3 <;> rcases hc2 with h4 | h4 <;>
            rcases hau with rfl | rfl <;> rcases hbu with rfl | rfl <;> omega
        have hne_S1 : sortPair (a, b) ≠ sortPair (e.2, opp1) := by
          intro h
          have hh1 := congrArg Prod.fst h
          have hh2 := congrArg Prod.snd h
          rcases hc1 with h3 | h3 <;> rcases hc2 with h4 | h4 <;>
            rcases hS1c1 with h5 | h5 <;> rcases hS1c2 with h6 | h6 <;>
            rcases hau with rfl | rfl <;> rcases hbu with rfl | rfl <;> omega
        have hne_S2 : sortPair (a, b) ≠ sortPair (e.2, opp2) := by
          intro h
          have hh1 := congrArg Prod.fst h
          have hh2 := congrArg Prod.snd h
          rcases hc1 with h3 | h3 <;> rcases hc2 with h4 | h4 <;>
            rcases hS2c1 with h5 | h5 <;> rcases hS2c2 with h6 | h6 <;>
            rcases hau with rfl | rfl <;> rcases hbu with rfl | rfl <;> omega
        refine ⟨l0, ?_, ht1l0⟩
        rw [hlook2]
        rw [if_neg (fun h => by
          have := congrArg Prod.snd h; simp at this;
          rcases hc2 with h4 | h4 <;> rcases hau with rfl | rfl <;>
            rcases hbu with rfl | rfl <;> omega),
          if_neg hne_e,
          if_neg (fun h => by
            have := congrArg Prod.snd h; simp at this;
            rcases hc2 with h4 | h4 <;> rcases hau with rfl | rfl <;>
              rcases hbu with rfl | rfl <;> omega),
          if_neg (fun h => by
            have := congrArg Prod.snd h; simp at this;
            rcases hc2 with h4 | h4 <;> rcases hau with rfl | rfl <;>
              rcases hbu with rfl | rfl <;> omega),
          if_neg hne_S2,
          if_neg (fun h => by
            have := congrArg Prod.snd h; simp at this;
            rcases hc2 with h4 | h4 <;> rcases hau with rfl | rfl <;>
              rcases hbu with rfl | rfl <;> omega),
          if_neg hne_S1]
        exact hl0
      rcases (hF1chr x).mp hx with rfl | rfl | rfl <;>
        rcases (hF1chr y).mp hy with rfl | rfl | rfl
      · exact absurd rfl hxy
      · exact hself _ _ (Or.inl rfl) (Or.inr rfl) hxy
      · refine ⟨[t1, t2], ?_, by simp⟩
        rw [sortPair_eq_left _ _ (by omega), hlook2, if_pos rfl]
      · exact hself _ _ (Or.inr rfl) (Or.inl rfl) hxy
      · exact absurd rfl hxy
      · refine ⟨[t1, g.faces.length], ?_, by simp⟩
        rw [sortPair_eq_left _ _ (by omega), hlook2]
        rw [if_neg (fun h => by
          have := congrArg Prod.fst h; simp at this; omega),
          if_neg (fun h => by
            have := congrArg Prod.snd h; simp at this; omega),
          if_neg (fun h => by
            have := congrArg Prod.fst h; simp at this; omega),
          if_neg (fun h => by
            have := congrArg Prod.fst h; simp at this; omega),
          if_neg (fun h => by
            have := congrArg Prod.snd h; simp at this; omega),
          if_pos rfl]
      · refine ⟨[t1, t2], ?_, by simp⟩
        rw [sortPair_eq_right _ _ (by omega), hlook2, if_pos rfl]
      · refine ⟨[t1, g.faces.length], ?_, by simp⟩
        rw [sortPair_eq_right _ _ (by omega), hlook2]
        rw [if_neg (fun h => by
          have := congrArg Prod.fst h; simp at this; omega),
          if_neg (fun h => by
            have := congrArg Prod.snd h; simp at this; omega),
          if_neg (fun h => by
            have := congrArg Prod.fst h; simp at this; omega),
          if_neg (fun h => by
            have := congrArg Prod.fst h; simp at this; omega),
          if_neg (fun h => by
            have := congrArg Prod.snd h; simp at this; omega),
          if_pos rfl]
      · exact absurd rfl hxy
    by_cases h1b : t = t2
    · obtain rfl := h1b.symm
      rw [hgf_t2] at hs
      obtain ⟨x, y, hx, hy, hxy, rfl⟩ := (faceSides_char _ hdF2 s).mp hs
      have hself : ∀ a b : ℕ, (a = e.1 ∨ a = opp2) → (b = e.1 ∨ b = opp2) →
          a ≠ b →
          ∃ l, alookup g2.edgeConnections (sortPair (a, b)) = some l ∧
            t2 ∈ l := by
        intro a b hau hbu hab
        have hs0 : sortPair (a, b) ∈ faceSides (g.faces.getD t2 faceD) := by
          rw [hgd2]
          refine (faceSides_char f2 hd2 _).mpr ⟨a, b, ?_, ?_, hab, rfl⟩
          · rcases hau with rfl | rfl <;> [exact hif2; exact hopmem2]
          · rcases hbu with rfl | rfl <;> [exact hif2; exact hopmem2]
        obtain ⟨l0, hl0, ht2l0⟩ := inv.complete t2 ht2N _ hs0
        have hc1 := sortPair_fst_mem a b
        have hc2 := sortPair_snd_mem a b
        have hne_e : sortPair (a, b) ≠ e := by
          intro h
          have hh1 := congrArg Prod.fst h
          have hh2 := congrArg Prod.snd h
          rcases hc1 with h3 | h3 <;> rcases hc2 with h4 | h4 <;>
            rcases hau with rfl | rfl <;> rcases hbu with rfl | rfl <;> omega
        have hne_S1 : sortPair (a, b) ≠ sortPair (e.2, opp1) := by
          intro h
          have hh1 := congrArg Prod.fst h
          have hh2 := congrArg Prod.snd h
          rcases hc1 with h3 | h3 <;> rcases hc2 with h4 | h4 <;>
            rcases hS1c1 with h5 | h5 <;> rcases hS1c2 with h6 | h6 <;>
            rcases hau with rfl | rfl <;> rcases hbu with rfl | rfl <;> omega
        have hne_S2 : sortPair (a, b) ≠ sortPair (e.2, opp2) := by
          intro h
          have hh1 := congrArg Prod.fst h
          have hh2 := congrArg Prod.snd h
          rcases hc1 with h3 | h3 <;> rcases hc2 with h4 | h4 <;>
            rcases hS2c1 with h5 | h5 <;> rcases hS2c2 with h6 | h6 <;>
            rcases hau with rfl | rfl <;> rcases hbu with rfl | rfl <;> omega
        refine ⟨l0, ?_, ht2l0⟩
        rw [hlook2]
        rw [if_neg (fun h => by
          have := congrArg Prod.snd h; simp at this;
          rcases hc2 with h4 | h4 <;> rcases hau with rfl | rfl <;>
            rcases hbu with rfl | rfl <;> omega),
          if_neg hne_e,
          if_neg (fun h => by
            have := congrArg Prod.snd h; simp at this;
            rcases hc2 with h4 | h4 <;> rcases hau with rfl | rfl <;>
              rcases hbu with rfl | rfl <;> omega),
          if_neg (fun h => by
            have := congrArg Prod.snd h; simp at this;
            rcases hc2 with h4 | h4 <;> rcases hau with rfl | rfl <;>
              rcases hbu with rfl | rfl <;> omega),
          if_neg hne_S2,
          if_neg (fun h => by
            have := congrArg Prod.snd h; simp at this;
            rcases hc2 with h4 | h4 <;> rcases hau with rfl | rfl <;>
              rcases hbu with rfl | rfl <;> omega),
          if_neg hne_S1]
        exact hl0
      rcases (hF2chr x).mp hx with rfl | rfl | rfl <;>
        rcases (hF2chr y).mp hy with rfl | rfl | rfl
      · exact absurd rfl hxy
      · exact hself _ _ (Or.inl rfl) (Or.inr rfl) hxy
      · refine ⟨[t1, t2], ?_, by simp⟩
        rw [sortPair_eq_left _ _ (by omega), hlook2, if_pos rfl]
      · exact hself _ _ (Or.inr rfl) (Or.inl rfl) hxy
      · exact absurd rfl hxy
      · refine ⟨[t2, g.faces.length + 1], ?_, by simp⟩
        rw [sortPair_eq_left _ _ (by omega), hlook2]
        rw [if_neg (fun h => by
          have := congrArg Prod.fst h; simp at this; omega),
          if_neg (fun h => by
            have := congrArg Prod.snd h; simp at this; omega),
          if_neg (fun h => by
            have := congrArg Prod.fst h; simp at this; omega),
          if_pos rfl]
      · refine ⟨[t1, t2], ?_, by simp⟩
        rw [sortPair_eq_right _ _ (by omega), hlook2, if_pos rfl]
      · refine ⟨[t2, g.faces.length + 1], ?_, by simp⟩
        rw [sortPair_eq_right _ _ (by omega), hlook2]
        rw [if_neg (fun h => by
          have := congrArg Prod.fst h; simp at this; omega),
          if_neg (fun h => by
            have := congrArg Prod.snd h; simp at this; omega),
          if_neg (fun h => by
            have := congrArg Prod.fst h; simp at this; omega),
          if_pos rfl]
      · exact absurd rfl hxy
    by_cases h2 : t = g.faces.length
    · subst h2
      rw [hgf_N] at hs
      simp only [faceSides, List.mem_cons, List.not_mem_nil, or_false] at hs
      rcases hs with rfl | rfl | rfl
      · refine ⟨[g.faces.length, g.faces.length + 1], ?_, by simp⟩
        rw [sortPair_eq_left _ _ (by omega), hlook2]
        rw [if_neg (fun h => by
          have := congrArg Prod.fst h; simp at this; omega),
          if_neg (fun h => by
            have := congrArg Prod.snd h; simp at this; omega),
          if_pos rfl]
      · refine ⟨[t1, g.faces.length], ?_, by simp⟩
        rw [sortPair_eq_right _ _ (by omega), hlook2]
        rw [if_neg (fun h => by
          have := congrArg Prod.fst h; simp at this; omega),
          if_neg (fun h => by
            have := congrArg Prod.snd h; simp at this; omega),
          if_neg (fun h => by
            have := congrArg Prod.fst h; simp at this; omega),
          if_neg (fun h => by
            have := congrArg Prod.fst h; simp at this; omega),
          if_neg (fun h => by
            have := congrArg Prod.snd h; simp at this; omega),
          if_pos rfl]
      · refine ⟨replaceAll l1 t1 g.faces.length, ?_,
          (mem_replaceAll _ _ _ _).mpr (Or.inr ⟨ht1l1, rfl⟩)⟩
        rw [sortPair_comm, hlook2]
        rw [if_neg (fun h => by
          have := congrArg Prod.snd h; simp at this; omega),
          if_neg hS1e,
          if_neg (fun h => by
            have := congrArg Prod.snd h; simp at this; omega),
          if_neg (fun h => by
            have := congrArg Prod.snd h; simp at this; omega),
          if_neg hS1S2,
          if_neg (fun h => by
            have := congrArg Prod.snd h; simp at this; omega),
          if_pos rfl]
    by_cases h3 : t = g.faces.length + 1
    · subst h3
      rw [hgf_N1] at hs
      simp only [faceSides, List.mem_cons, List.not_mem_nil, or_false] at hs
      rcases hs with rfl | rfl | rfl
      · refine ⟨[g.faces.length, g.faces.length + 1], ?_, by simp⟩
        rw [sortPair_eq_left _ _ (by omega), hlook2]
        rw [if_neg (fun h => by
          have := congrArg Prod.fst h; simp at this; omega),
          if_neg (fun h => by
            have := congrArg Prod.snd h; simp at this; omega),
          if_pos rfl]
      · refine ⟨[t2, g.faces.length + 1], ?_, by simp⟩
        rw [sortPair_eq_right _ _ (by omega), hlook2]
        rw [if_neg (fun h => by
          have := congrArg Prod.fst h; simp at this; omega),
          if_neg (fun h => by
            have := congrArg Prod.snd h; simp at this; omega),
          if_neg (fun h => by
            have := congrArg Prod.fst h; simp at this; omega),
          if_pos rfl]
      · refine ⟨replaceAll l2 t2 (g.faces.length + 1), ?_,
          (mem_replaceAll _ _ _ _).mpr (Or.inr ⟨ht2l2, rfl⟩)⟩
        rw [sortPair_comm, hlook2]
        rw [if_neg (fun h => by
          have := congrArg Prod.snd h; simp at this; omega),
          if_neg hS2e,
          if_neg (fun h => by
            have := congrArg Prod.snd h; simp at this; omega),
          if_neg (fun h => by
            have := congrArg Prod.snd h; simp at this; omega),
          if_pos rfl]
    · have ht' : t < g.faces.length := by omega
      rw [hgf_old t ht' h1 h1b] at hs
      obtain ⟨l, hl, htl⟩ := inv.complete t ht' s hs
      obtain ⟨x, y, hx, hy, hxy, hsxy⟩ :=
        (faceSides_char _ (inv.faceDist t ht') s).mp hs
      have hxM := inv.faceBound t ht' x hx
      have hyM := inv.faceBound t ht' y hy
      have hsM2 : s.2 < g.verticies.length := by
        rcases sortPair_snd_mem x y with h | h <;> rw [hsxy] <;> omega
      have hse : s ≠ e := by
        intro hc
        rw [hc, htris] at hl
        cases Option.some_inj.mp hl
        simp at htl
        rcases htl with rfl | rfl
        · exact h1 rfl
        · exact h1b rfl
      by_cases hsS1 : s = sortPair (e.2, opp1)
      · have hll1 : l = l1 := by
          rw [hsS1, hl1] at hl
          exact Option.some_inj.mp hl.symm
        refine ⟨replaceAll l1 t1 g.faces.length, ?_,
          (mem_replaceAll _ _ _ _).mpr (Or.inl ⟨hll1 ▸ htl, h1⟩)⟩
        rw [hlook2]
        rw [if_neg (fun h => by
          have := congrArg Prod.snd h; simp at this; omega),
          if_neg hse,
          if_neg (fun h => by
            have := congrArg Prod.snd h; simp at this; omega),
          if_neg (fun h => by
            have := congrArg Prod.snd h; simp at this; omega),
          if_neg (fun h => by rw [hsS1] at h; exact hS1S2 h),
          if_neg (fun h => by
            have := congrArg Prod.snd h; simp at this; omega),
          if_pos hsS1]
      by_cases hsS2 : s = sortPair (e.2, opp2)
      · have hll2 : l = l2 := by
          rw [hsS2, hl2] at hl
          exact Option.some_inj.mp hl.symm
        refine ⟨replaceAll l2 t2 (g.faces.length + 1), ?_,
          (mem_replaceAll _ _ _ _).mpr (Or.inl ⟨hll2 ▸ htl, h1b⟩)⟩
        rw [hlook2]
        rw [if_neg (fun h => by
          have := congrArg Prod.snd h; simp at this; omega),
          if_neg hse,
          if_neg (fun h => by
            have := congrArg Prod.snd h; simp at this; omega),
          if_neg (fun h => by
            have := congrArg Prod.snd h; simp at this; omega),
          if_pos hsS2]
      · refine ⟨l, ?_, htl⟩
        rw [hlook2]
        rw [if_neg (fun h => by
          have := congrArg Prod.snd h; simp at this; omega),
          if_neg hse,
          if_neg (fun h => by
            have := congrArg Prod.snd h; simp at this; omega),
          if_neg (fun h => by
            have := congrArg Prod.snd h; simp at this; omega),
          if_neg hsS2,
          if_neg (fun h => by
            have := congrArg Prod.snd h; simp at this; omega),
          if_neg hsS1]
        exact hl
  · -- shortOrQueued
    intro kv hkv
    rcases (hmem2 kv).mp hkv with ⟨hC, hkve, hkvS1, hkvS2⟩ | heq | heq |
      heq | heq | heq | heq
    · rcases inv.shortOrQueued kv hC with hsh | hq
      · obtain ⟨hm1, hm2⟩ := inv.keyBound kv hC
        exact Or.inl (hshort_lift _ hm1 hm2 hsh)
      · rcases List.mem_cons.mp hq with hc | hc
        · exact absurd hc hkve
        · exact Or.inr (List.mem_append_left _ hc)
    · rcases inv.shortOrQueued _ hl1mem with hsh | hq
      · rw [heq]
        exact Or.inl (hshort_lift _ hS1M1 hS1M2 hsh)
      · rcases List.mem_cons.mp hq with hc | hc
        · exact absurd hc hS1e
        · rw [heq]
          exact Or.inr (List.mem_append_left _ hc)
    · rcases inv.shortOrQueued _ hl2mem with hsh | hq
      · rw [heq]
        exact Or.inl (hshort_lift _ hS2M1 hS2M2 hsh)
      · rcases List.mem_cons.mp hq with hc | hc
        · exact absurd hc hS2e
        · rw [heq]
          exact Or.inr (List.mem_append_left _ hc)
    all_goals {
      rw [heq]
      have hx : (((opp1, g.verticies.length) : Edge) ∈
          [((opp1 : ℕ), g.verticies.length), (opp2, g.verticies.length),
            (e.2, g.verticies.length), (e.1, g.verticies.length)]) ∧
          (((opp2, g.verticies.length) : Edge) ∈
          [((opp1 : ℕ), g.verticies.length), (opp2, g.verticies.length),
            (e.2, g.verticies.length), (e.1, g.verticies.length)]) ∧
          (((e.2, g.verticies.length) : Edge) ∈
          [((opp1 : ℕ), g.verticies.length), (opp2, g.verticies.length),
            (e.2, g.verticies.length), (e.1, g.verticies.length)]) ∧
          (((e.1, g.verticies.length) : Edge) ∈
          [((opp1 : ℕ), g.verticies.length), (opp2, g.verticies.length),
            (e.2, g.verticies.length), (e.1, g.verticies.length)]) := by
        simp
      first
        | (by_cases hlong : longIn g2 r ((opp1, g.verticies.length) : Edge)
           · exact Or.inr (List.mem_append_right _
               ((filterLong_spec g2 r _ keep hfl _ hx.1).1 hlong))
           · exact Or.inl ((filterLong_spec g2 r _ keep hfl _ hx.1).2.2
               hlong))
        | (by_cases hlong : longIn g2 r ((opp2, g.verticies.length) : Edge)
           · exact Or.inr (List.mem_append_right _
               ((filterLong_spec g2 r _ keep hfl _ hx.2.1).1 hlong))
           · exact Or.inl ((filterLong_spec g2 r _ keep hfl _ hx.2.1).2.2
               hlong))
        | (by_cases hlong : longIn g2 r ((e.2, g.verticies.length) : Edge)
           · exact Or.inr (List.mem_append_right _
               ((filterLong_spec g2 r _ keep hfl _ hx.2.2.1).1 hlong))
           · exact Or.inl ((filterLong_spec g2 r _ keep hfl _ hx.2.2.1).2.2
               hlong))
        | (by_cases hlong : longIn g2 r ((e.1, g.verticies.length) : Edge)
           · exact Or.inr (List.mem_append_right _
               ((filterLong_spec g2 r _ keep hfl _ hx.2.2.2).1 hlong))
           · exact Or.inl ((filterLong_spec g2 r _ keep hfl _ hx.2.2.2).2.2
               hlong)) }
  · -- queueKeys
    intro x hx
    rcases List.mem_append.mp hx with hq | hk
    · obtain ⟨l, hl⟩ := inv.queueKeys x (List.mem_cons_of_mem _ hq)
      obtain ⟨hm10, hm20⟩ :=
        inv.keyBound (x, l) (mem_of_alookup_eq_some _ _ _ hl)
      have hm1 : x.1 < g.verticies.length := hm10
      have hm2 : x.2 < g.verticies.length := hm20
      have hxe : x ≠ e := fun hc => henotqt (hc ▸ hq)
      by_cases hxS1 : x = sortPair (e.2, opp1)
      · refine ⟨replaceAll l1 t1 g.faces.length, ?_⟩
        rw [hlook2]
        rw [if_neg (fun h => by
          have := congrArg Prod.snd h; simp at this; omega),
          if_neg hxe,
          if_neg (fun h => by
            have := congrArg Prod.snd h; simp at this; omega),
          if_neg (fun h => by
            have := congrArg Prod.snd h; simp at this; omega),
          if_neg (fun h => by rw [hxS1] at h; exact hS1S2 h),
          if_neg (fun h => by
            have := congrArg Prod.snd h; simp at this; omega),
          if_pos hxS1]
      by_cases hxS2 : x = sortPair (e.2, opp2)
      · refine ⟨replaceAll l2 t2 (g.faces.length + 1), ?_⟩
        rw [hlook2]
        rw [if_neg (fun h => by
          have := congrArg Prod.snd h; simp at this; omega),
          if_neg hxe,
          if_neg (fun h => by
            have := congrArg Prod.snd h; simp at this; omega),
          if_neg (fun h => by
            have := congrArg Prod.snd h; simp at this; omega),
          if_pos hxS2]
      · refine ⟨l, ?_⟩
        rw [hlook2]
        rw [if_neg (fun h => by
          have := congrArg Prod.snd h; simp at this; omega),
          if_neg hxe,
          if_neg (fun h => by
            have := congrArg Prod.snd h; simp at this; omega),
          if_neg (fun h => by
            have := congrArg Prod.snd h; simp at this; omega),
          if_neg hxS2,
          if_neg (fun h => by
            have := congrArg Prod.snd h; simp at this; omega),
          if_neg hxS1]
        exact hl
    · have hkm := (filterLong_sublist g2 r _ keep hfl).subset hk
      simp only [List.mem_cons, List.not_mem_nil, or_false] at hkm
      rcases hkm with rfl | rfl | rfl | rfl
      · refine ⟨[t1, g.faces.length], ?_⟩
        rw [hlook2]
        rw [if_neg (fun h => by
          have := congrArg Prod.fst h; simp at this; omega),
          if_neg (fun h => by
            have := congrArg Prod.snd h; simp at this; omega),
          if_neg (fun h => by
            have := congrArg Prod.fst h; simp at this; omega),
          if_neg (fun h => by
            have := congrArg Prod.fst h; simp at this; omega),
          if_neg (fun h => by
            have := congrArg Prod.snd h; simp at this; omega),
          if_pos rfl]
      · refine ⟨[t2, g.faces.length + 1], ?_⟩
        rw [hlook2]
        rw [if_neg (fun h => by
          have := congrArg Prod.fst h; simp at this; omega),
          if_neg (fun h => by
            have := congrArg Prod.snd h; simp at this; omega),
          if_neg (fun h => by
            have := congrArg Prod.fst h; simp at this; omega),
          if_pos rfl]
      · refine ⟨[g.faces.length, g.faces.length + 1], ?_⟩
        rw [hlook2]
        rw [if_neg (fun h => by
          have := congrArg Prod.fst h; simp at this; omega),
          if_neg (fun h => by
            have := congrArg Prod.snd h; simp at this; omega),
          if_pos rfl]
      · exact ⟨[t1, t2], by rw [hlook2, if_pos rfl]⟩
  · -- queueLong
    intro x hx
    rcases List.mem_append.mp hx with hq | hk
    · obtain ⟨L, hL, hLr⟩ := inv.queueLong x (List.mem_cons_of_mem _ hq)
      obtain ⟨l, hl⟩ := inv.queueKeys x (List.mem_cons_of_mem _ hq)
      obtain ⟨hm10, hm20⟩ :=
        inv.keyBound (x, l) (mem_of_alookup_eq_some _ _ _ hl)
      have hm1 : x.1 < g.verticies.length := hm10
      have hm2 : x.2 < g.verticies.length := hm20
      exact ⟨L, by rw [hlen_eq x hm1 hm2]; exact hL, hLr⟩
    · exact (filterLong_spec g2 r _ keep hfl x
        ((filterLong_sublist g2 r _ keep hfl).subset hk)).2.1 hk
  · -- queueNodup
    rw [List.nodup_append]
    refine ⟨(List.nodup_cons.mp inv.queueNodup).2, ?_, ?_⟩
    · refine List.Nodup.sublist (filterLong_sublist g2 r _ keep hfl) ?_
      simp [Prod.ext_iff]
      omega
    · intro x hq hk
      obtain ⟨l, hl⟩ := inv.queueKeys x (List.mem_cons_of_mem _ hq)
      obtain ⟨hm10, hm20⟩ :=
        inv.keyBound (x, l) (mem_of_alookup_eq_some _ _ _ hl)
      have hm2 : x.2 < g.verticies.length := hm20
      have hkm := (filterLong_sublist g2 r _ keep hfl).subset hk
      simp only [List.mem_cons, List.not_mem_nil, or_false] at hkm
      rcases hkm with rfl | rfl | rfl | rfl <;> simp at hm2

/-- One split preserves the invariant, whatever the size of the incidence
list of the popped edge. -/
theorem subInv_step (r : ℚ) (g : TriMeshGraph) (e : Edge) (qt : List Edge)
    (inv : SubInv r g (e :: qt)) (g2 : TriMeshGraph) (ne keep : List Edge)
    (hde : divideEdge g e = some (g2, ne))
    (hfl : filterLong g2 r ne = some keep) :
    SubInv r g2 (qt ++ keep) := by
  obtain ⟨tris, htris⟩ := inv.queueKeys e (List.mem_cons_self _ _)
  have hmem := mem_of_alookup_eq_some _ _ _ htris
  obtain ⟨hnil, hlen⟩ := inv.listSize _ hmem
  have hlen2 : tris.length ≤ 2 := hlen
  rcases tris with _ | ⟨t1, _ | ⟨t2, _ | ⟨t3, rest⟩⟩⟩
  · exact absurd rfl hnil
  · exact subInv_step_one r g e qt t1 inv htris g2 ne keep hde hfl
  · exact subInv_step_two r g e qt t1 t2 inv htris g2 ne keep hde hfl
  · simp at hlen2

/-- The work loop of `subdivide` preserves the invariant and, when it
completes, has emptied the queue. -/
theorem subInv_loop (r : ℚ) : ∀ (fuel : ℕ) (g : TriMeshGraph)
    (q : List Edge) (g2 : TriMeshGraph), SubInv r g q →
    subdivideLoop r fuel g q = SubRes.done g2 → SubInv r g2 [] := by
  intro fuel
  induction fuel with
  | zero =>
    intro g q g2 inv h
    cases q with
    | nil =>
      rw [subdivideLoop] at h
      cases h
      exact inv
    | cons e qt => exact absurd h (by rw [subdivideLoop]; simp)
  | succ n ih =>
    intro g q g2 inv h
    cases q with
    | nil =>
      rw [subdivideLoop] at h
      cases h
      exact inv
    | cons e qt =>
      rw [subdivideLoop] at h
      rcases hde : divideEdge g e with _ | ⟨⟨g3, ne⟩⟩ <;>
        simp only [hde] at h
      · exact absurd h (by simp)
      rcases hfl : filterLong g3 r ne with _ | keep <;> simp only [hfl] at h
      · exact absurd h (by simp)
      exact ih g3 (qt ++ keep) g2
        (subInv_step r g e qt inv g3 ne keep hde hfl) h

/-- When the invariant holds with an empty queue, every edge key and every
side of every face is short. -/
theorem subInv_done_short (r : ℚ) (g2 : TriMeshGraph)
    (inv : SubInv r g2 ([] : List Edge)) :
    (∀ kv ∈ g2.edgeConnections, shortIn g2 r kv.1) ∧
    (∀ t, t < g2.faces.length →
      ∀ s ∈ faceSides (g2.faces.getD t faceD), shortIn g2 r s) := by
  constructor
  · intro kv hkv
    rcases inv.shortOrQueued kv hkv with h | h
    · exact h
    · simp at h
  · intro t ht s hs
    obtain ⟨l, hl, _⟩ := inv.complete t ht s hs
    rcases inv.shortOrQueued (s, l) (mem_of_alookup_eq_some _ _ _ hl) with
      h | h
    · exact h
    · simp at h

theorem getD_mem {α} (l : List α) (n : ℕ) (d : α) (h : n < l.length) :
    l.getD n d ∈ l :=
  List.get?_mem (get?_eq_of_lt_getD l n d h)

/-- Effect of pushing one face index onto one edge key. -/
theorem pushConn_facts (m : Conns) (k : Edge) (ti : ℕ) :
    (∀ kv ∈ pushConn m k ti, ∀ t ∈ kv.2,
        (∃ kv2 ∈ m, kv2.1 = kv.1 ∧ t ∈ kv2.2) ∨ (t = ti ∧ kv.1 = k)) ∧
    (∀ k2 l, alookup m k2 = some l →
        ∃ l2, alookup (pushConn m k ti) k2 = some l2 ∧ ∀ x ∈ l, x ∈ l2) ∧
    (∃ l2, alookup (pushConn m k ti) k = some l2 ∧ ti ∈ l2) ∧
    ((∀ kv ∈ m, kv.2 ≠ []) → ∀ kv ∈ pushConn m k ti, kv.2 ≠ []) ∧
    (m.Pairwise (fun a b => a.1 ≠ b.1) →
      (pushConn m k ti).Pairwise (fun a b => a.1 ≠ b.1)) := by
  refine ⟨?_, ?_, ?_, ?_, ?_⟩
  · intro kv hkv t ht
    rcases (mem_aupdate_iff m k _ kv).mp hkv with ⟨hm, hne⟩ | heq
    · exact Or.inl ⟨kv, hm, rfl, ht⟩
    · have hk2 : kv.2 = ((alookup m k).getD []) ++ [ti] := by rw [heq]
      have hk1 : kv.1 = k := by rw [heq]
      rw [hk2] at ht
      rcases List.mem_append.mp ht with h | h
      · rcases hl : alookup m k with _ | l
        · rw [hl] at h; simp at h
        · rw [hl] at h
          exact Or.inl ⟨(k, l), mem_of_alookup_eq_some _ _ _ hl, hk1.symm, h⟩
      · simp at h
        exact Or.inr ⟨h, hk1⟩
  · intro k2 l hl
    rw [pushConn, alookup_aupdate]
    by_cases h : k2 = k
    · refine ⟨((alookup m k).getD []) ++ [ti], by rw [if_pos h], ?_⟩
      intro x hx
      rw [← h, hl]
      simp [hx]
    · exact ⟨l, by rw [if_neg h]; exact hl, fun x hx => hx⟩
  · rw [pushConn, alookup_aupdate, if_pos rfl]
    exact ⟨_, rfl, by simp⟩
  · intro hnil kv hkv
    rcases (mem_aupdate_iff m k _ kv).mp hkv with ⟨hm, _⟩ | heq
    · exact hnil kv hm
    · have hk2 : kv.2 = ((alookup m k).getD []) ++ [ti] := by rw [heq]
      rw [hk2]
      simp
  · intro hnd
    rw [pushConn, aupdate, ainsert]
    rw [List.pairwise_append]
    refine ⟨List.Pairwise.sublist (List.filter_sublist _) hnd, by simp, ?_⟩
    intro a ha b hb
    simp only [List.mem_singleton] at hb
    rw [hb]
    have := List.of_mem_filter ha
    simpa using this

/-- Full characterization of the adjacency-building loop: every listed
incidence is a genuine side of the listed face, every side of every
processed face is listed, lists are nonempty, and keys are unrepeated. -/
theorem buildConnsGo_spec (faces : List (ℕ × ℕ × ℕ)) :
    ∀ (fs : List (ℕ × ℕ × ℕ)) (tInd : ℕ) (m : Conns),
    (∀ j, faces.get? (tInd + j) = fs.get? j) →
    (∀ kv ∈ m, ∀ t ∈ kv.2, t < tInd ∧
      kv.1 ∈ faceSides (faces.getD t faceD)) →
    (∀ t, t < tInd → ∀ s ∈ faceSides (faces.getD t faceD),
      ∃ l, alookup m s = some l ∧ t ∈ l) →
    (∀ kv ∈ m, kv.2 ≠ []) →
    (m.Pairwise (fun a b => a.1 ≠ b.1)) →
    (∀ kv ∈ buildConnsGo m tInd fs, ∀ t ∈ kv.2, t < tInd + fs.length ∧
      kv.1 ∈ faceSides (faces.getD t faceD)) ∧
    (∀ t, t < tInd + fs.length → ∀ s ∈ faceSides (faces.getD t faceD),
      ∃ l, alookup (buildConnsGo m tInd fs) s = some l ∧ t ∈ l) ∧
    (∀ kv ∈ buildConnsGo m tInd fs, kv.2 ≠ []) ∧
    ((buildConnsGo m tInd fs).Pairwise (fun a b => a.1 ≠ b.1)) := by
  intro fs
  induction fs with
  | nil =>
    intro tInd m hfs hm hmc hnil hnd
    rw [buildConnsGo]
    exact ⟨fun kv hkv t ht => by
        obtain ⟨h1, h2⟩ := hm kv hkv t ht
        exact ⟨by omega, h2⟩,
      fun t ht => hmc t (by simpa using ht), hnil, hnd⟩
  | cons f rest ih =>
    intro tInd m hfs hm hmc hnil hnd
    have hface : faces.getD tInd faceD = f := by
      refine getD_eq_of_get?_eq _ _ _ _ ?_
      have := hfs 0
      simpa using this
    have hsides : faceSides f =
        [sortPair (f.1, f.2.1), sortPair (f.2.1, f.2.2),
          sortPair (f.2.2, f.1)] := rfl
    obtain ⟨hp1A, hp1B, hp1C, hp1D, hp1E⟩ :=
      pushConn_facts m (sortPair (f.1, f.2.1)) tInd
    obtain ⟨hp2A, hp2B, hp2C, hp2D, hp2E⟩ :=
      pushConn_facts (pushConn m (sortPair (f.1, f.2.1)) tInd)
        (sortPair (f.2.1, f.2.2)) tInd
    obtain ⟨hp3A, hp3B, hp3C, hp3D, hp3E⟩ :=
      pushConn_facts (pushConn (pushConn m (sortPair (f.1, f.2.1)) tInd)
        (sortPair (f.2.1, f.2.2)) tInd) (sortPair (f.2.2, f.1)) tInd
    rw [buildConnsGo]
    have hm3 : ∀ kv ∈ pushConn (pushConn (pushConn m
        (sortPair (f.1, f.2.1)) tInd) (sortPair (f.2.1, f.2.2)) tInd)
        (sortPair (f.2.2, f.1)) tInd, ∀ t ∈ kv.2, t < tInd + 1 ∧
        kv.1 ∈ faceSides (faces.getD t faceD) := by
      intro kv hkv t ht
      rcases hp3A kv hkv t ht with ⟨kv2, hkv2, hkeq, htm⟩ | ⟨rfl, hk⟩
      · rcases hp2A kv2 hkv2 t htm with ⟨kv3, hkv3, hkeq2, htm2⟩ | ⟨rfl, hk⟩
        · rcases hp1A kv3 hkv3 t htm2 with ⟨kv4, hkv4, hkeq3, htm3⟩ |
            ⟨rfl, hk⟩
          · obtain ⟨h1, h2⟩ := hm kv4 hkv4 t htm3
            rw [hkeq3, hkeq2, hkeq] at h2
            exact ⟨by omega, h2⟩
          · rw [hkeq2, hkeq] at hk
            rw [hface, hk, hsides]
            exact ⟨by omega, by simp⟩
        · rw [hkeq] at hk
          rw [hface, hk, hsides]
          exact ⟨by omega, by simp⟩
      · rw [hface, hk, hsides]
        exact ⟨by omega, by simp⟩
    have hmc3 : ∀ t, t < tInd + 1 →
        ∀ s ∈ faceSides (faces.getD t faceD),
        ∃ l, alookup (pushConn (pushConn (pushConn m
          (sortPair (f.1, f.2.1)) tInd) (sortPair (f.2.1, f.2.2)) tInd)
          (sortPair (f.2.2, f.1)) tInd) s = some l ∧ t ∈ l := by
      intro t ht s hs
      by_cases htt : t = tInd
      · subst htt
        rw [hface, hsides] at hs
        simp only [List.mem_cons, List.not_mem_nil, or_false] at hs
        rcases hs with rfl | rfl | rfl
        · obtain ⟨l1x, hl1x, hml1x⟩ := hp1C
          obtain ⟨l2x, hl2x, hml2x⟩ := hp2B _ _ hl1x
          obtain ⟨l3x, hl3x, hml3x⟩ := hp3B _ _ hl2x
          exact ⟨l3x, hl3x, hml3x _ (hml2x _ hml1x)⟩
        · obtain ⟨l2x, hl2x, hml2x⟩ := hp2C
          obtain ⟨l3x, hl3x, hml3x⟩ := hp3B _ _ hl2x
          exact ⟨l3x, hl3x, hml3x _ hml2x⟩
        · obtain ⟨l3x, hl3x, hml3x⟩ := hp3C
          exact ⟨l3x, hl3x, hml3x⟩
      · obtain ⟨l, hl, htl⟩ := hmc t (by omega) s hs
        obtain ⟨l2x, hl2x, hml2x⟩ := hp1B _ _ hl
        obtain ⟨l3x, hl3x, hml3x⟩ := hp2B _ _ hl2x
        obtain ⟨l4x, hl4x, hml4x⟩ := hp3B _ _ hl3x
        exact ⟨l4x, hl4x, hml4x _ (hml3x _ (hml2x _ htl))⟩
    have hfs3 : ∀ j, faces.get? (tInd + 1 + j) = rest.get? j := by
      intro j
      have := hfs (j + 1)
      rw [show tInd + (j + 1) = tInd + 1 + j by omega] at this
      simpa using this
    obtain ⟨r1, r2, r3, r4⟩ := ih (tInd + 1) _ hfs3 hm3 hmc3
      (hp3D (hp2D (hp1D hnil))) (hp3E (hp2E (hp1E hnd)))
    refine ⟨fun kv hkv t ht => ?_,
      fun t ht => r2 t (by simp only [List.length_cons] at ht; omega),
      r3, r4⟩
    obtain ⟨h1, h2⟩ := r1 kv hkv t ht
    refine ⟨?_, h2⟩
    simp only [List.length_cons]
    omega

/-- Properties of the queue-seeding pass of `subdivide`. -/
theorem seedQueueGo_spec (g : TriMeshGraph) (r : ℚ) :
    ∀ (c : Conns) (q : List Edge), seedQueueGo g r c = some q →
    (∀ x ∈ q, ∃ kv, kv ∈ c ∧ kv.1 = x) ∧
    (∀ x ∈ q, longIn g r x) ∧
    (∀ kv ∈ c, longIn g r kv.1 → kv.1 ∈ q) ∧
    (∀ kv ∈ c, shortIn g r kv.1 ∨ kv.1 ∈ q) ∧
    (c.Pairwise (fun a b => a.1 ≠ b.1) → q.Nodup) := by
  intro c
  induction c with
  | nil =>
    intro q h
    rw [seedQueueGo] at h
    cases h
    exact ⟨by simp, by simp, by simp, by simp, fun _ => List.nodup_nil⟩
  | cons kv rest ih =>
    intro q h
    rw [seedQueueGo] at h
    rcases hL : edgeLenSq g kv.1 with _ | L <;> simp only [hL] at h
    · exact absurd h (by simp)
    rcases hr : seedQueueGo g r rest with _ | q2 <;> simp only [hr] at h
    · exact absurd h (by simp)
    obtain ⟨ih1, ih2, ih3, ih4, ih5⟩ := ih q2 hr
    by_cases hlong : r * r < L
    · rw [if_pos hlong] at h
      cases h
      refine ⟨?_, ?_, ?_, ?_, ?_⟩
      · intro x hx
        rcases List.mem_cons.mp hx with rfl | hx2
        · exact ⟨kv, List.mem_cons_self _ _, rfl⟩
        · obtain ⟨kv2, h1, h2⟩ := ih1 x hx2
          exact ⟨kv2, List.mem_cons_of_mem _ h1, h2⟩
      · intro x hx
        rcases List.mem_cons.mp hx with rfl | hx2
        · exact ⟨L, hL, hlong⟩
        · exact ih2 x hx2
      · intro kv2 hkv2 hlong2
        rcases List.mem_cons.mp hkv2 with rfl | hkv3
        · exact List.mem_cons_self _ _
        · exact List.mem_cons_of_mem _ (ih3 kv2 hkv3 hlong2)
      · intro kv2 hkv2
        rcases List.mem_cons.mp hkv2 with rfl | hkv3
        · exact Or.inr (List.mem_cons_self _ _)
        · rcases ih4 kv2 hkv3 with hs | hq
          · exact Or.inl hs
          · exact Or.inr (List.mem_cons_of_mem _ hq)
      · intro hnd
        rw [List.nodup_cons]
        have hpw := List.pairwise_cons.mp hnd
        refine ⟨?_, ih5 hpw.2⟩
        intro hmem
        obtain ⟨kv2, h1, h2⟩ := ih1 _ hmem
        exact hpw.1 kv2 h1 h2.symm
    · rw [if_neg hlong] at h
      cases h
      refine ⟨?_, ih2, ?_, ?_, fun hnd => ih5 (List.pairwise_cons.mp hnd).2⟩
      · intro x hx
        obtain ⟨kv2, h1, h2⟩ := ih1 x hx
        exact ⟨kv2, List.mem_cons_of_mem _ h1, h2⟩
      · intro kv2 hkv2 hlong2
        rcases List.mem_cons.mp hkv2 with rfl | hkv3
        · obtain ⟨L2, hL2, hlr⟩ := hlong2
          rw [hL] at hL2
          cases Option.some_inj.mp hL2
          exact absurd hlr hlong
        · exact ih3 kv2 hkv3 hlong2
      · intro kv2 hkv2
        rcases List.mem_cons.mp hkv2 with rfl | hkv3
        · exact Or.inl ⟨L, hL, not_lt.mp hlong⟩
        · exact ih4 kv2 hkv3

/-- The invariant holds at entry to the subdivision loop, for any input
mesh whose faces have in-range, pairwise-distinct vertex indices and whose
adjacency map is manifold-like (at most two faces per edge, with distinct
faces and distinct opposite vertices per edge). -/
theorem subInv_init (r : ℚ) (verts : List V3) (faces : List (ℕ × ℕ × ℕ))
    (q0 : List Edge)
    (hbound : ∀ f ∈ faces, ∀ v ∈ faceVerts f, v < verts.length)
    (hdist : ∀ f ∈ faces, faceDistinct f)
    (hsize : ∀ kv ∈ buildConns faces, kv.2.length ≤ 2)
    (hopp : ∀ kv ∈ buildConns faces, kv.2.Pairwise (fun s t => s ≠ t ∧
      oppositeVert (faces.getD s faceD) kv.1 ≠
        oppositeVert (faces.getD t faceD) kv.1))
    (hseed : seedQueue (buildGraph verts faces) r = some q0) :
    SubInv r (buildGraph verts faces) q0 := by
  obtain ⟨b1, b2, b3, b4⟩ := buildConnsGo_spec faces faces 0 []
    (fun j => by simp) (by simp) (fun t ht => absurd ht (by omega)) (by simp)
    (by simp)
  rw [show buildConnsGo [] 0 faces = buildConns faces from rfl] at b1 b2 b3 b4
  obtain ⟨s1, s2, s3, s4, s5⟩ :=
    seedQueueGo_spec (buildGraph verts faces) r (buildConns faces) q0 hseed
  have hkey_side : ∀ kv ∈ buildConns faces, ∀ t ∈ kv.2,
      t < faces.length ∧ kv.1 ∈ faceSides (faces.getD t faceD) := by
    intro kv hkv t ht
    have := b1 kv hkv t ht
    simpa using this
  refine ⟨?_, ?_, ?_, ?_, ?_, ?_, ?_, ?_, ?_, ?_, ?_⟩
  · -- faceBound
    intro t ht v hv
    exact hbound _ (getD_mem faces t faceD ht) v hv
  · -- faceDist
    intro t ht
    exact hdist _ (getD_mem faces t faceD ht)
  · -- keysCanon
    intro kv hkv
    have hnilkv := b3 kv hkv
    rcases hk : kv.2 with _ | ⟨t, rest⟩
    · exact absurd hk hnilkv
    · have htm : t ∈ kv.2 := by rw [hk]; simp
      obtain ⟨htf, hside⟩ := hkey_side kv hkv t htm
      obtain ⟨x, y, hx, hy, hxy, hs⟩ :=
        (faceSides_char _ (hdist _ (getD_mem faces t faceD htf)) kv.1).mp
          hside
      rw [hs]
      exact sortPair_lt x y hxy
  · -- incident
    intro kv hkv t ht
    obtain ⟨htf, hside⟩ := hkey_side kv hkv t ht
    obtain ⟨x, y, hx, hy, hxy, hs⟩ :=
      (faceSides_char _ (hdist _ (getD_mem faces t faceD htf)) kv.1).mp hside
    refine ⟨htf, ?_, ?_⟩
    · rcases sortPair_fst_mem x y with h | h <;> rw [hs, h]
      · exact hx
      · exact hy
    · rcases sortPair_snd_mem x y with h | h <;> rw [hs, h]
      · exact hx
      · exact hy
  · -- listSize
    intro kv hkv
    exact ⟨b3 kv hkv, hsize kv hkv⟩
  · -- distinctOpp
    intro kv hkv
    exact hopp kv hkv
  · -- complete
    intro t ht s hs
    exact b2 t (by simpa using ht) s hs
  · -- shortOrQueued
    intro kv hkv
    exact s4 kv hkv
  · -- queueKeys
    intro x hx
    obtain ⟨kv2, h1, h2⟩ := s1 x hx
    obtain ⟨v, hv⟩ := alookup_isSome_of_mem _ kv2 h1
    exact ⟨v, h2 ▸ hv⟩
  · -- queueLong
    intro x hx
    exact s2 x hx
  · -- queueNodup
    exact s5 b4

/-- **C2.** For every input mesh whose faces use in-range, pairwise-distinct
vertex indices and whose edge-to-faces map is manifold-like (each edge
shared by at most two faces, listed without repetition and with distinct
opposite vertices — the data model's caller-input requirements), and every
`r`, if `subdivide(r)` completes then every edge of the refined mesh — both
every canonical key of the adjacency map and every side of every face — has
squared length at most `r²`. -/
theorem claim2_subdivide_edges_short (r : ℚ) (verts : List V3)
    (faces : List (ℕ × ℕ × ℕ)) (fuel : ℕ) (g2 : TriMeshGraph)
    (hbound : ∀ f ∈ faces, ∀ v ∈ faceVerts f, v < verts.length)
    (hdist : ∀ f ∈ faces, faceDistinct f)
    (hsize : ∀ kv ∈ buildConns faces, kv.2.length ≤ 2)
    (hopp : ∀ kv ∈ buildConns faces, kv.2.Pairwise (fun s t => s ≠ t ∧
      oppositeVert (faces.getD s faceD) kv.1 ≠
        oppositeVert (faces.getD t faceD) kv.1))
    (hdone : triMeshGraphNew fuel r verts faces = SubRes.done g2) :
    (∀ kv ∈ g2.edgeConnections, shortIn g2 r kv.1) ∧
    (∀ t, t < g2.faces.length →
      ∀ s ∈ faceSides (g2.faces.getD t faceD), shortIn g2 r s) := by
  unfold triMeshGraphNew subdivideFuel at hdone
  rcases hseed : seedQueue (buildGraph verts faces) r with _ | q0 <;>
    simp only [hseed] at hdone
  · exact absurd hdone (by simp)
  exact subInv_done_short r g2 (subInv_loop r fuel _ q0 g2
    (subInv_init r verts faces q0 hbound hdist hsize hopp hseed) hdone)

/-- A concrete run for the witness: one long edge, one split, then done. -/
def vertsW : List V3 := [⟨0, 0, 0⟩, ⟨3, 0, 0⟩, ⟨3/2, 1, 0⟩]

def facesW : List (ℕ × ℕ × ℕ) := [(0, 1, 2)]

def graphW : TriMeshGraph :=
  ⟨[⟨0, 0, 0⟩, ⟨3, 0, 0⟩, ⟨3/2, 1, 0⟩, ⟨3/2, 0, 0⟩],
   [((0, 2), [0]), ((1, 2), [1]), ((2, 3), [0, 1]), ((1, 3), [1]),
     ((0, 3), [0])],
   [(0, 3, 2), (1, 3, 2)]⟩

theorem claim2_witness :
    triMeshGraphNew 1 2 vertsW facesW = SubRes.done graphW ∧
    ((∀ kv ∈ graphW.edgeConnections, shortIn graphW 2 kv.1) ∧
     (∀ t, t < graphW.faces.length →
       ∀ s ∈ faceSides (graphW.faces.getD t faceD), shortIn graphW 2 s)) := by
  have hrun : triMeshGraphNew 1 2 vertsW facesW = SubRes.done graphW := by
    norm_num [triMeshGraphNew, subdivideFuel, buildGraph, buildConns,
      buildConnsGo, pushConn, aupdate, ainsert, aremove, alookup, sortPair,
      seedQueue, seedQueueGo, edgeLenSq, Vm.distSq, Vm.lenSq, Vm.diff,
      subdivideLoop, divideEdge,
      divideEdgeLoop, divideEdgeFace, oppositeVert, replaceInFace, replaceAll,
      filterLong, Vm.midpoint, vertsW, facesW, graphW, List.filter]
  exact ⟨hrun, claim2_subdivide_edges_short 2 vertsW facesW 1 graphW
    (by decide) (by decide) (by decide) (by decide) hrun⟩

/-! ### Termination of `subdivide` on manifold inputs -/

theorem distSq_midpoint_left (a b : V3) :
    Vm.distSq a (Vm.midpoint a b) = Vm.distSq a b / 4 := by
  simp only [Vm.distSq, Vm.midpoint, Vm.diff, Vm.lenSq]
  ring

theorem distSq_midpoint_right (a b : V3) :
    Vm.distSq b (Vm.midpoint a b) = Vm.distSq a b / 4 := by
  simp only [Vm.distSq, Vm.midpoint, Vm.diff, Vm.lenSq]
  ring

/-- The median identity: the squared distance from a vertex to the midpoint
of the opposite edge. -/
theorem distSq_midpoint_median (a b c : V3) :
    Vm.distSq c (Vm.midpoint a b) =
      (2 * Vm.distSq a c + 2 * Vm.distSq b c - Vm.distSq a b) / 4 := by
  simp only [Vm.distSq, Vm.midpoint, Vm.diff, Vm.lenSq]
  ring

/-- `retain` succeeds when all the edge lengths involved are defined. -/
theorem filterLong_total (g : TriMeshGraph) (r : ℚ) :
    ∀ es : List Edge, (∀ x ∈ es, ∃ L, edgeLenSq g x = some L) →
    ∃ ks, filterLong g r es = some ks := by
  intro es
  induction es with
  | nil => exact fun _ => ⟨[], rfl⟩
  | cons e rest ih =>
    intro h
    obtain ⟨L, hL⟩ := h e (List.mem_cons_self _ _)
    obtain ⟨ks, hks⟩ := ih (fun x hx => h x (List.mem_cons_of_mem _ hx))
    refine ⟨if r * r < L then e :: ks else ks, ?_⟩
    rw [filterLong, hL, hks]

/-- The queue seeding succeeds when all the edge lengths involved are
defined. -/
theorem seedQueueGo_total (g : TriMeshGraph) (r : ℚ) :
    ∀ c : Conns, (∀ kv ∈ c, ∃ L, edgeLenSq g kv.1 = some L) →
    ∃ q, seedQueueGo g r c = some q := by
  intro c
  induction c with
  | nil => exact fun _ => ⟨[], rfl⟩
  | cons kv rest ih =>
    intro h
    obtain ⟨L, hL⟩ := h kv (List.mem_cons_self _ _)
    obtain ⟨q, hq⟩ := ih (fun x hx => h x (List.mem_cons_of_mem _ hx))
    refine ⟨if r * r < L then kv.1 :: q else q, ?_⟩
    rw [seedQueueGo, hL, hq]

/-- Under the invariant and a global length bound `B + r²/4`, popping an
edge with one incident face succeeds, the created edges are all bounded by
`B`, and all keys of the new graph are again bounded by `B + r²/4`. -/
theorem subInv_run_one (r B : ℚ) (hr : 0 < r) (hB : r * r ≤ B)
    (g : TriMeshGraph) (e : Edge) (qt : List Edge) (t1 : ℕ)
    (inv : SubInv r g (e :: qt))
    (htris : alookup g.edgeConnections e = some [t1])
    (hkeys : ∀ kv ∈ g.edgeConnections, ∀ L, edgeLenSq g kv.1 = some L →
      L ≤ B + r * r / 4) :
    ∃ g2 ne, divideEdge g e = some (g2, ne) ∧
      (∃ keep, filterLong g2 r ne = some keep) ∧
      (∀ x ∈ ne, ∃ L, edgeLenSq g2 x = some L ∧ L ≤ B) ∧
      (∀ kv ∈ g2.edgeConnections, ∀ L, edgeLenSq g2 kv.1 = some L →
        L ≤ B + r * r / 4) ∧
      (∀ k : Edge, k.1 < g.verticies.length →
        k.2 < g.verticies.length → edgeLenSq g2 k = edgeLenSq g k) := by
  have hr2 : 0 < r * r := mul_pos hr hr
  have hee : (e, [t1]) ∈ g.edgeConnections := mem_of_alookup_eq_some _ _ _ htris
  have hij : e.1 < e.2 := inv.keysCanon _ hee
  obtain ⟨hiM0, hjM0⟩ := inv.keyBound (e, [t1]) hee
  have hiM : e.1 < g.verticies.length := hiM0
  have hjM : e.2 < g.verticies.length := hjM0
  obtain ⟨ht1N, hif10, hjf10⟩ := inv.incident (e, [t1]) hee t1 (by simp)
  have hgd1 : g.faces.get? t1 = some (g.faces.getD t1 faceD) :=
    get?_eq_of_lt_getD _ _ _ ht1N
  have hif1 : e.1 ∈ faceVerts (g.faces.getD t1 faceD) := hif10
  have hjf1 : e.2 ∈ faceVerts (g.faces.getD t1 faceD) := hjf10
  have hd1 : faceDistinct (g.faces.getD t1 faceD) := inv.faceDist t1 ht1N
  have hb1 : ∀ v ∈ faceVerts (g.faces.getD t1 faceD),
      v < g.verticies.length := fun v hv => inv.faceBound t1 ht1N v hv
  have hene : e.1 ≠ e.2 := by omega
  obtain ⟨opp1, hov, hop1, hop2, hopmem, htr1⟩ :=
    oppositeVert_spec _ e hd1 hene hif1 hjf1
  have hoM : opp1 < g.verticies.length := hb1 _ hopmem
  have hA : g.verticies.get? e.1 =
      some (g.verticies.getD e.1 ⟨0, 0, 0⟩) := get?_eq_of_lt_getD _ _ _ hiM
  have hBv : g.verticies.get? e.2 =
      some (g.verticies.getD e.2 ⟨0, 0, 0⟩) := get?_eq_of_lt_getD _ _ _ hjM
  have hOv : g.verticies.get? opp1 =
      some (g.verticies.getD opp1 ⟨0, 0, 0⟩) := get?_eq_of_lt_getD _ _ _ hoM
  -- the call succeeds
  have hde0 : ∃ p, divideEdge g e = some p := by
    unfold divideEdge
    rw [hA, hBv, htris]
    simp only [divideEdgeLoop, divideEdgeFace, hgd1, hov]
    exact ⟨_, rfl⟩
  obtain ⟨⟨g2, ne⟩, hde⟩ := hde0
  obtain ⟨vA, vB, f1, opp1b, hA2, hBv2, hf12, hov2, hg2, hne⟩ :=
    divideEdge_spec_one g e t1 htris g2 ne hde
  rw [hA] at hA2
  cases Option.some_inj.mp hA2
  rw [hBv] at hBv2
  cases Option.some_inj.mp hBv2
  rw [hgd1] at hf12
  cases Option.some_inj.mp hf12
  rw [hov] at hov2
  cases Option.some_inj.mp hov2
  rw [sortPair_eq_right g.verticies.length opp1 hoM,
    sortPair_eq_right g.verticies.length e.2 hjM,
    sortPair_eq_left e.1 g.verticies.length (by omega)] at hg2 hne
  subst hne
  have hg2v : g2.verticies =
      g.verticies ++ [Vm.midpoint (g.verticies.getD e.1 ⟨0, 0, 0⟩)
        (g.verticies.getD e.2 ⟨0, 0, 0⟩)] := by rw [hg2]
  have hg2c : g2.edgeConnections =
      ainsert (aremove (ainsert
        (ainsert
          (aupdate (aremove g.edgeConnections e) (sortPair (e.2, opp1))
            (fun l => replaceAll l t1 g.faces.length))
          (opp1, g.verticies.length) [t1, g.faces.length])
        (e.2, g.verticies.length) [g.faces.length]) e)
        (e.1, g.verticies.length) [t1] := by rw [hg2]
  -- lengths of the three new edges
  have hget : ∀ v, v < g.verticies.length →
      g2.verticies.get? v = some (g.verticies.getD v ⟨0, 0, 0⟩) := by
    intro v hv
    rw [hg2v, get?_append_left _ _ _ hv]
    exact get?_eq_of_lt_getD _ _ _ hv
  have hgetM : g2.verticies.get? g.verticies.length =
      some (Vm.midpoint (g.verticies.getD e.1 ⟨0, 0, 0⟩)
        (g.verticies.getD e.2 ⟨0, 0, 0⟩)) := by
    rw [hg2v, get?_append_length]
  have hlenK1 : edgeLenSq g2 (opp1, g.verticies.length) =
      some (Vm.distSq (g.verticies.getD opp1 ⟨0, 0, 0⟩)
        (Vm.midpoint (g.verticies.getD e.1 ⟨0, 0, 0⟩)
          (g.verticies.getD e.2 ⟨0, 0, 0⟩))) := by
    unfold edgeLenSq
    rw [hget opp1 hoM, hgetM]
  have hlenKJ : edgeLenSq g2 (e.2, g.verticies.length) =
      some (Vm.distSq (g.verticies.getD e.2 ⟨0, 0, 0⟩)
        (Vm.midpoint (g.verticies.getD e.1 ⟨0, 0, 0⟩)
          (g.verticies.getD e.2 ⟨0, 0, 0⟩))) := by
    unfold edgeLenSq
    rw [hget e.2 hjM, hgetM]
  have hlenKI : edgeLenSq g2 (e.1, g.verticies.length) =
      some (Vm.distSq (g.verticies.getD e.1 ⟨0, 0, 0⟩)
        (Vm.midpoint (g.verticies.getD e.1 ⟨0, 0, 0⟩)
          (g.verticies.getD e.2 ⟨0, 0, 0⟩))) := by
    unfold edgeLenSq
    rw [hget e.1 hiM, hgetM]
  -- the length of the split edge
  have hLe : edgeLenSq g e = some (Vm.distSq (g.verticies.getD e.1 ⟨0, 0, 0⟩)
      (g.verticies.getD e.2 ⟨0, 0, 0⟩)) := by
    unfold edgeLenSq
    rw [hA, hBv]
  have hLbound : Vm.distSq (g.verticies.getD e.1 ⟨0, 0, 0⟩)
      (g.verticies.getD e.2 ⟨0, 0, 0⟩) ≤ B + r * r / 4 :=
    hkeys (e, [t1]) hee _ hLe
  obtain ⟨Le, hLe2, hLlong0⟩ := inv.queueLong e (List.mem_cons_self _ _)
  rw [hLe] at hLe2
  cases Option.some_inj.mp hLe2
  -- lengths of the two old sides through the opposite vertex
  have hside : ∀ a : ℕ, a < g.verticies.length → a ≠ opp1 →
      a ∈ faceVerts (g.faces.getD t1 faceD) →
      ∃ l0, (sortPair (a, opp1), l0) ∈ g.edgeConnections ∧
        edgeLenSq g (sortPair (a, opp1)) =
          some (Vm.distSq (g.verticies.getD a ⟨0, 0, 0⟩)
            (g.verticies.getD opp1 ⟨0, 0, 0⟩)) := by
    intro a haM hao ham
    have hs0 : sortPair (a, opp1) ∈ faceSides (g.faces.getD t1 faceD) :=
      (faceSides_char _ hd1 _).mpr ⟨a, opp1, ham, hopmem, hao, rfl⟩
    obtain ⟨l0, hl0, _⟩ := inv.complete t1 ht1N _ hs0
    refine ⟨l0, mem_of_alookup_eq_some _ _ _ hl0, ?_⟩
    have hAv : g.verticies.get? a =
        some (g.verticies.getD a ⟨0, 0, 0⟩) := get?_eq_of_lt_getD _ _ _ haM
    rcases sortPair_cases a opp1 with hsp | hsp <;> rw [hsp] <;>
      unfold edgeLenSq
    · rw [hAv, hOv]
    · rw [hAv, hOv, Vm.distSq_comm]
  obtain ⟨l01, hl01mem, hs1len⟩ :=
    hside e.1 hiM (fun h => hop1 h.symm) hif1
  obtain ⟨l02, hl02mem, hs2len⟩ :=
    hside e.2 hjM (fun h => hop2 h.symm) hjf1
  have hs1B := hkeys _ hl01mem _ hs1len
  have hs2B := hkeys _ hl02mem _ hs2len
  -- numeric bounds for the new edges
  have hbK1 : Vm.distSq (g.verticies.getD opp1 ⟨0, 0, 0⟩)
      (Vm.midpoint (g.verticies.getD e.1 ⟨0, 0, 0⟩)
        (g.verticies.getD e.2 ⟨0, 0, 0⟩)) ≤ B := by
    rw [distSq_midpoint_median]
    linarith
  have hbKI : Vm.distSq (g.verticies.getD e.1 ⟨0, 0, 0⟩)
      (Vm.midpoint (g.verticies.getD e.1 ⟨0, 0, 0⟩)
        (g.verticies.getD e.2 ⟨0, 0, 0⟩)) ≤ B := by
    rw [distSq_midpoint_left]
    linarith
  have hbKJ : Vm.distSq (g.verticies.getD e.2 ⟨0, 0, 0⟩)
      (Vm.midpoint (g.verticies.getD e.1 ⟨0, 0, 0⟩)
        (g.verticies.getD e.2 ⟨0, 0, 0⟩)) ≤ B := by
    rw [distSq_midpoint_right]
    linarith
  have hnew : ∀ x ∈ [((opp1 : ℕ), g.verticies.length),
      (e.2, g.verticies.length), (e.1, g.verticies.length)],
      ∃ L, edgeLenSq g2 x = some L ∧ L ≤ B := by
    intro x hx
    simp only [List.mem_cons, List.not_mem_nil, or_false] at hx
    rcases hx with rfl | rfl | rfl
    · exact ⟨_, hlenK1, hbK1⟩
    · exact ⟨_, hlenKJ, hbKJ⟩
    · exact ⟨_, hlenKI, hbKI⟩
  have hlen_eq : ∀ k : Edge, k.1 < g.verticies.length →
      k.2 < g.verticies.length → edgeLenSq g2 k = edgeLenSq g k := by
    intro k h1 h2
    unfold edgeLenSq
    rw [hg2v, get?_append_left _ _ _ h1, get?_append_left _ _ _ h2]
  refine ⟨g2, _, hde, ?_, hnew, ?_, hlen_eq⟩
  · exact filterLong_total g2 r _ (fun x hx => by
      obtain ⟨L, hL, _⟩ := hnew x hx
      exact ⟨L, hL⟩)
  · -- all keys of the new graph remain bounded
    have hS1c1 := sortPair_fst_mem e.2 opp1
    have hS1c2 := sortPair_snd_mem e.2 opp1
    intro kv hkv L hL
    rw [hg2c] at hkv
    rcases (mem_ainsert_iff _ _ _ _).mp hkv with ⟨hkv1, _⟩ | heq
    · rcases (mem_aremove_iff _ _ _).mp hkv1 with ⟨hkv2, _⟩
      rcases (mem_ainsert_iff _ _ _ _).mp hkv2 with ⟨hkv3, _⟩ | heq
      · rcases (mem_ainsert_iff _ _ _ _).mp hkv3 with ⟨hkv4, _⟩ | heq
        · rcases (mem_ainsert_iff _ _ _ _).mp hkv4 with ⟨hkv5, _⟩ | heq
          · rcases (mem_aremove_iff _ _ _).mp hkv5 with ⟨hkv6, _⟩
            obtain ⟨hm1, hm2⟩ := inv.keyBound kv hkv6
            rw [hlen_eq kv.1 hm1 hm2] at hL
            exact hkeys kv hkv6 L hL
          · have hk1 : kv.1 = sortPair (e.2, opp1) := by rw [heq]
            rw [hk1, hlen_eq _ (by rcases hS1c1 with h | h <;> omega)
              (by rcases hS1c2 with h | h <;> omega)] at hL
            obtain ⟨l1x, hl1x, hs1lenx⟩ :=
              hside e.2 hjM (fun h => hop2 h.symm) hjf1
            rw [hs1lenx] at hL
            cases Option.some_inj.mp hL
            exact hkeys _ hl1x _ hs1lenx
        · have hk1 : kv.1 = (opp1, g.verticies.length) := by rw [heq]
          rw [hk1, hlenK1] at hL
          cases Option.some_inj.mp hL
          linarith
      · have hk1 : kv.1 = (e.2, g.verticies.length) := by rw [heq]
        rw [hk1, hlenKJ] at hL
        cases Option.some_inj.mp hL
        linarith
    · have hk1 : kv.1 = (e.1, g.verticies.length) := by rw [heq]
      rw [hk1, hlenKI] at hL
      cases Option.some_inj.mp hL
      linarith

/-- Two-face analogue of `subInv_run_one`. -/
theorem subInv_run_two (r B : ℚ) (hr : 0 < r) (hB : r * r ≤ B)
    (g : TriMeshGraph) (e : Edge) (qt : List Edge) (t1 t2 : ℕ)
    (inv : SubInv r g (e :: qt))
    (htris : alookup g.edgeConnections e = some [t1, t2])
    (hkeys : ∀ kv ∈ g.edgeConnections, ∀ L, edgeLenSq g kv.1 = some L →
      L ≤ B + r * r / 4) :
    ∃ g2 ne, divideEdge g e = some (g2, ne) ∧
      (∃ keep, filterLong g2 r ne = some keep) ∧
      (∀ x ∈ ne, ∃ L, edgeLenSq g2 x = some L ∧ L ≤ B) ∧
      (∀ kv ∈ g2.edgeConnections, ∀ L, edgeLenSq g2 kv.1 = some L →
        L ≤ B + r * r / 4) ∧
      (∀ k : Edge, k.1 < g.verticies.length →
        k.2 < g.verticies.length → edgeLenSq g2 k = edgeLenSq g k) := by
  have hr2 : 0 < r * r := mul_pos hr hr
  have hee : (e, [t1, t2]) ∈ g.edgeConnections :=
    mem_of_alookup_eq_some _ _ _ htris
  have hij : e.1 < e.2 := inv.keysCanon _ hee
  obtain ⟨hiM0, hjM0⟩ := inv.keyBound (e, [t1, t2]) hee
  have hiM : e.1 < g.verticies.length := hiM0
  have hjM : e.2 < g.verticies.length := hjM0
  obtain ⟨ht1N, hif10, hjf10⟩ := inv.incident (e, [t1, t2]) hee t1 (by simp)
  obtain ⟨ht2N, hif20, hjf20⟩ := inv.incident (e, [t1, t2]) hee t2 (by simp)
  have hpw12 := inv.distinctOpp (e, [t1, t2]) hee
  rw [pairwise_pair] at hpw12
  obtain ⟨ht12, hoppne12⟩ := hpw12
  have hgd1 : g.faces.get? t1 = some (g.faces.getD t1 faceD) :=
    get?_eq_of_lt_getD _ _ _ ht1N
  have hgd2 : g.faces.get? t2 = some (g.faces.getD t2 faceD) :=
    get?_eq_of_lt_getD _ _ _ ht2N
  have hif1 : e.1 ∈ faceVerts (g.faces.getD t1 faceD) := hif10
  have hjf1 : e.2 ∈ faceVerts (g.faces.getD t1 faceD) := hjf10
  have hif2 : e.1 ∈ faceVerts (g.faces.getD t2 faceD) := hif20
  have hjf2 : e.2 ∈ faceVerts (g.faces.getD t2 faceD) := hjf20
  have hd1 : faceDistinct (g.faces.getD t1 faceD) := inv.faceDist t1 ht1N
  have hd2 : faceDistinct (g.faces.getD t2 faceD) := inv.faceDist t2 ht2N
  have hb1 : ∀ v ∈ faceVerts (g.faces.getD t1 faceD),
      v < g.verticies.length := fun v hv => inv.faceBound t1 ht1N v hv
  have hb2 : ∀ v ∈ faceVerts (g.faces.getD t2 faceD),
      v < g.verticies.length := fun v hv => inv.faceBound t2 ht2N v hv
  have hene : e.1 ≠ e.2 := by omega
  obtain ⟨opp1, hov1, hop1, hop2, hopmem, htr1⟩ :=
    oppositeVert_spec _ e hd1 hene hif1 hjf1
  obtain ⟨opp2, hov2, hop1b, hop2b, hopmem2, htr2⟩ :=
    oppositeVert_spec _ e hd2 hene hif2 hjf2
  have hoM : opp1 < g.verticies.length := hb1 _ hopmem
  have ho2M : opp2 < g.verticies.length := hb2 _ hopmem2
  have hA : g.verticies.get? e.1 =
      some (g.verticies.getD e.1 ⟨0, 0, 0⟩) := get?_eq_of_lt_getD _ _ _ hiM
  have hBv : g.verticies.get? e.2 =
      some (g.verticies.getD e.2 ⟨0, 0, 0⟩) := get?_eq_of_lt_getD _ _ _ hjM
  have hOv : g.verticies.get? opp1 =
      some (g.verticies.getD opp1 ⟨0, 0, 0⟩) := get?_eq_of_lt_getD _ _ _ hoM
  have hOv2 : g.verticies.get? opp2 =
      some (g.verticies.getD opp2 ⟨0, 0, 0⟩) := get?_eq_of_lt_getD _ _ _ ho2M
  have hf2get : ((g.faces.set t1 (replaceInFace (g.faces.getD t1 faceD) e.2
      g.verticies.length)) ++
      [(e.2, g.verticies.length, opp1)]).get? t2 =
      some (g.faces.getD t2 faceD) := by
    rw [get?_append_left _ _ _ (by simp [List.length_set]; omega),
      get?_set_ne _ _ _ _ (fun h => ht12 h.symm)]
    exact hgd2
  -- the call succeeds
  have hde0 : ∃ p, divideEdge g e = some p := by
    unfold divideEdge
    rw [hA, hBv, htris]
    simp only [divideEdgeLoop, divideEdgeFace, hgd1, hov1, hf2get, hov2]
    exact ⟨_, rfl⟩
  obtain ⟨⟨g2, ne⟩, hde⟩ := hde0
  obtain ⟨vA, vB, f1, opp1b2, f2, opp2b2, hA2, hBv2, hf12, hov12, hf22,
    hov22, hg2, hne⟩ := divideEdge_spec_two g e t1 t2 htris g2 ne hde
  rw [hA] at hA2
  cases Option.some_inj.mp hA2
  rw [hBv] at hBv2
  cases Option.some_inj.mp hBv2
  rw [hgd1] at hf12
  cases Option.some_inj.mp hf12
  rw [hov1] at hov12
  cases Option.some_inj.mp hov12
  rw [hf2get] at hf22
  cases Option.some_inj.mp hf22
  rw [hov2] at hov22
  cases Option.some_inj.mp hov22
  rw [sortPair_eq_right g.verticies.length opp1 hoM,
    sortPair_eq_right g.verticies.length opp2 ho2M,
    sortPair_eq_right g.verticies.length e.2 hjM,
    sortPair_eq_left e.1 g.verticies.length (by omega)] at hg2 hne
  subst hne
  have hg2v : g2.verticies =
      g.verticies ++ [Vm.midpoint (g.verticies.getD e.1 ⟨0, 0, 0⟩)
        (g.verticies.getD e.2 ⟨0, 0, 0⟩)] := by rw [hg2]
  have hg2c : g2.edgeConnections =
      ainsert (aremove (ainsert
        (ainsert
          (aupdate
            (ainsert
              (aupdate (aremove g.edgeConnections e) (sortPair (e.2, opp1))
                (fun l => replaceAll l t1 g.faces.length))
              (opp1, g.verticies.length) [t1, g.faces.length])
            (sortPair (e.2, opp2))
            (fun l => replaceAll l t2 (g.faces.length + 1)))
          (opp2, g.verticies.length) [t2, g.faces.length + 1])
        (e.2, g.verticies.length) [g.faces.length, g.faces.length + 1]) e)
        (e.1, g.verticies.length) [t1, t2] := by rw [hg2]
  have hget : ∀ v, v < g.verticies.length →
      g2.verticies.get? v = some (g.verticies.getD v ⟨0, 0, 0⟩) := by
    intro v hv
    rw [hg2v, get?_append_left _ _ _ hv]
    exact get?_eq_of_lt_getD _ _ _ hv
  have hgetM : g2.verticies.get? g.verticies.length =
      some (Vm.midpoint (g.verticies.getD e.1 ⟨0, 0, 0⟩)
        (g.verticies.getD e.2 ⟨0, 0, 0⟩)) := by
    rw [hg2v, get?_append_length]
  have hlenK1 : edgeLenSq g2 (opp1, g.verticies.length) =
      some (Vm.distSq (g.verticies.getD opp1 ⟨0, 0, 0⟩)
        (Vm.midpoint (g.verticies.getD e.1 ⟨0, 0, 0⟩)
          (g.verticies.getD e.2 ⟨0, 0, 0⟩))) := by
    unfold edgeLenSq
    rw [hget opp1 hoM, hgetM]
  have hlenK2 : edgeLenSq g2 (opp2, g.verticies.length) =
      some (Vm.distSq (g.verticies.getD opp2 ⟨0, 0, 0⟩)
        (Vm.midpoint (g.verticies.getD e.1 ⟨0, 0, 0⟩)
          (g.verticies.getD e.2 ⟨0, 0, 0⟩))) := by
    unfold edgeLenSq
    rw [hget opp2 ho2M, hgetM]
  have hlenKJ : edgeLenSq g2 (e.2, g.verticies.length) =
      some (Vm.distSq (g.verticies.getD e.2 ⟨0, 0, 0⟩)
        (Vm.midpoint (g.verticies.getD e.1 ⟨0, 0, 0⟩)
          (g.verticies.getD e.2 ⟨0, 0, 0⟩))) := by
    unfold edgeLenSq
    rw [hget e.2 hjM, hgetM]
  have hlenKI : edgeLenSq g2 (e.1, g.verticies.length) =
      some (Vm.distSq (g.verticies.getD e.1 ⟨0, 0, 0⟩)
        (Vm.midpoint (g.verticies.getD e.1 ⟨0, 0, 0⟩)
          (g.verticies.getD e.2 ⟨0, 0, 0⟩))) := by
    unfold edgeLenSq
    rw [hget e.1 hiM, hgetM]
  have hLe : edgeLenSq g e = some (Vm.distSq (g.verticies.getD e.1 ⟨0, 0, 0⟩)
      (g.verticies.getD e.2 ⟨0, 0, 0⟩)) := by
    unfold edgeLenSq
    rw [hA, hBv]
  have hLbound : Vm.distSq (g.verticies.getD e.1 ⟨0, 0, 0⟩)
      (g.verticies.getD e.2 ⟨0, 0, 0⟩) ≤ B + r * r / 4 :=
    hkeys (e, [t1, t2]) hee _ hLe
  obtain ⟨Le, hLe2, hLlong0⟩ := inv.queueLong e (List.mem_cons_self _ _)
  rw [hLe] at hLe2
  cases Option.some_inj.mp hLe2
  have hside : ∀ (t : ℕ), t < g.faces.length → ∀ (o a : ℕ),
      o ∈ faceVerts (g.faces.getD t faceD) → o < g.verticies.length →
      a < g.verticies.length → a ≠ o →
      a ∈ faceVerts (g.faces.getD t faceD) →
      ∃ l0, (sortPair (a, o), l0) ∈ g.edgeConnections ∧
        edgeLenSq g (sortPair (a, o)) =
          some (Vm.distSq (g.verticies.getD a ⟨0, 0, 0⟩)
            (g.verticies.getD o ⟨0, 0, 0⟩)) := by
    intro t htN o a hom hoMx haM hao ham
    have hs0 : sortPair (a, o) ∈ faceSides (g.faces.getD t faceD) :=
      (faceSides_char _ (inv.faceDist t htN) _).mpr ⟨a, o, ham, hom, hao, rfl⟩
    obtain ⟨l0, hl0, _⟩ := inv.complete t htN _ hs0
    refine ⟨l0, mem_of_alookup_eq_some _ _ _ hl0, ?_⟩
    have hAv : g.verticies.get? a =
        some (g.verticies.getD a ⟨0, 0, 0⟩) := get?_eq_of_lt_getD _ _ _ haM
    have hOvx : g.verticies.get? o =
        some (g.verticies.getD o ⟨0, 0, 0⟩) := get?_eq_of_lt_getD _ _ _ hoMx
    rcases sortPair_cases a o with hsp | hsp <;> rw [hsp] <;>
      unfold edgeLenSq
    · rw [hAv, hOvx]
    · rw [hAv, hOvx, Vm.distSq_comm]
  obtain ⟨l01, hl01mem, hs1len⟩ := hside t1 ht1N opp1 e.1 hopmem hoM hiM
    (fun h => hop1 h.symm) hif1
  obtain ⟨l02, hl02mem, hs2len⟩ := hside t1 ht1N opp1 e.2 hopmem hoM hjM
    (fun h => hop2 h.symm) hjf1
  obtain ⟨l03, hl03mem, hs3len⟩ := hside t2 ht2N opp2 e.1 hopmem2 ho2M hiM
    (fun h => hop1b h.symm) hif2
  obtain ⟨l04, hl04mem, hs4len⟩ := hside t2 ht2N opp2 e.2 hopmem2 ho2M hjM
    (fun h => hop2b h.symm) hjf2
  have hs1B := hkeys _ hl01mem _ hs1len
  have hs2B := hkeys _ hl02mem _ hs2len
  have hs3B := hkeys _ hl03mem _ hs3len
  have hs4B := hkeys _ hl04mem _ hs4len
  have hbK1 : Vm.distSq (g.verticies.getD opp1 ⟨0, 0, 0⟩)
      (Vm.midpoint (g.verticies.getD e.1 ⟨0, 0, 0⟩)
        (g.verticies.getD e.2 ⟨0, 0, 0⟩)) ≤ B := by
    rw [distSq_midpoint_median]
    linarith
  have hbK2 : Vm.distSq (g.verticies.getD opp2 ⟨0, 0, 0⟩)
      (Vm.midpoint (g.verticies.getD e.1 ⟨0, 0, 0⟩)
        (g.verticies.getD e.2 ⟨0, 0, 0⟩)) ≤ B := by
    rw [distSq_midpoint_median]
    linarith
  have hbKI : Vm.distSq (g.verticies.getD e.1 ⟨0, 0, 0⟩)
      (Vm.midpoint (g.verticies.getD e.1 ⟨0, 0, 0⟩)
        (g.verticies.getD e.2 ⟨0, 0, 0⟩)) ≤ B := by
    rw [distSq_midpoint_left]
    linarith
  have hbKJ : Vm.distSq (g.verticies.getD e.2 ⟨0, 0, 0⟩)
      (Vm.midpoint (g.verticies.getD e.1 ⟨0, 0, 0⟩)
        (g.verticies.getD e.2 ⟨0, 0, 0⟩)) ≤ B := by
    rw [distSq_midpoint_right]
    linarith
  have hnew : ∀ x ∈ [((opp1 : ℕ), g.verticies.length),
      (opp2, g.verticies.length), (e.2, g.verticies.length),
      (e.1, g.verticies.length)],
      ∃ L, edgeLenSq g2 x = some L ∧ L ≤ B := by
    intro x hx
    simp only [List.mem_cons, List.not_mem_nil, or_false] at hx
    rcases hx with rfl | rfl | rfl | rfl
    · exact ⟨_, hlenK1, hbK1⟩
    · exact ⟨_, hlenK2, hbK2⟩
    · exact ⟨_, hlenKJ, hbKJ⟩
    · exact ⟨_, hlenKI, hbKI⟩
  have hlen_eq : ∀ k : Edge, k.1 < g.verticies.length →
      k.2 < g.verticies.length → edgeLenSq g2 k = edgeLenSq g k := by
    intro k h1 h2
    unfold edgeLenSq
    rw [hg2v, get?_append_left _ _ _ h1, get?_append_left _ _ _ h2]
  refine ⟨g2, _, hde, ?_, hnew, ?_, hlen_eq⟩
  · exact filterLong_total g2 r _ (fun x hx => by
      obtain ⟨L, hL, _⟩ := hnew x hx
      exact ⟨L, hL⟩)
  · have hS1c1 := sortPair_fst_mem e.2 opp1
    have hS1c2 := sortPair_snd_mem e.2 opp1
    have hS2c1 := sortPair_fst_mem e.2 opp2
    have hS2c2 := sortPair_snd_mem e.2 opp2
    intro kv hkv L hL
    rw [hg2c] at hkv
    rcases (mem_ainsert_iff _ _ _ _).mp hkv with ⟨hkv1, _⟩ | heq
    · rcases (mem_aremove_iff _ _ _).mp hkv1 with ⟨hkv2, _⟩
      rcases (mem_ainsert_iff _ _ _ _).mp hkv2 with ⟨hkv3, _⟩ | heq
      · rcases (mem_ainsert_iff _ _ _ _).mp hkv3 with ⟨hkv4, _⟩ | heq
        · rcases (mem_aupdate_iff _ _ _ _).mp hkv4 with ⟨hkv5, _⟩ | heq
          · rcases (mem_ainsert_iff _ _ _ _).mp hkv5 with ⟨hkv6, _⟩ | heq
            · rcases (mem_aupdate_iff _ _ _ _).mp hkv6 with ⟨hkv7, _⟩ | heq
              · rcases (mem_aremove_iff _ _ _).mp hkv7 with ⟨hkv8, _⟩
                obtain ⟨hm1, hm2⟩ := inv.keyBound kv hkv8
                rw [hlen_eq kv.1 hm1 hm2] at hL
                exact hkeys kv hkv8 L hL
              · have hk1 : kv.1 = sortPair (e.2, opp1) := by rw [heq]
                rw [hk1, hlen_eq _ (by rcases hS1c1 with h | h <;> omega)
                  (by rcases hS1c2 with h | h <;> omega), hs2len] at hL
                cases Option.some_inj.mp hL
                exact hs2B
            · have hk1 : kv.1 = (opp1, g.verticies.length) := by rw [heq]
              rw [hk1, hlenK1] at hL
              cases Option.some_inj.mp hL
              linarith
          · have hk1 : kv.1 = sortPair (e.2, opp2) := by rw [heq]
            rw [hk1, hlen_eq _ (by rcases hS2c1 with h | h <;> omega)
              (by rcases hS2c2 with h | h <;> omega), hs4len] at hL
            cases Option.some_inj.mp hL
            exact hs4B
        · have hk1 : kv.1 = (opp2, g.verticies.length) := by rw [heq]
          rw [hk1, hlenK2] at hL
          cases Option.some_inj.mp hL
          linarith
      · have hk1 : kv.1 = (e.2, g.verticies.length) := by rw [heq]
        rw [hk1, hlenKJ] at hL
        cases Option.some_inj.mp hL
        linarith
    · have hk1 : kv.1 = (e.1, g.verticies.length) := by rw [heq]
      rw [hk1, hlenKI] at hL
      cases Option.some_inj.mp hL
      linarith

/-- Combined success-and-bounds lemma for one loop iteration: under the
invariant and a global key bound `B + r²/4`, popping the front edge
succeeds, preserves the invariant, creates only edges bounded by `B`,
keeps every key bounded by `B + r²/4`, and leaves the lengths of all old
edges unchanged. -/
theorem subInv_run (r B : ℚ) (hr : 0 < r) (hB : r * r ≤ B)
    (g : TriMeshGraph) (e : Edge) (qt : List Edge)
    (inv : SubInv r g (e :: qt))
    (hkeys : ∀ kv ∈ g.edgeConnections, ∀ L, edgeLenSq g kv.1 = some L →
      L ≤ B + r * r / 4) :
    ∃ g2 ne keep, divideEdge g e = some (g2, ne) ∧
      filterLong g2 r ne = some keep ∧
      SubInv r g2 (qt ++ keep) ∧
      (∀ x ∈ keep, ∃ L, edgeLenSq g2 x = some L ∧ L ≤ B) ∧
      (∀ kv ∈ g2.edgeConnections, ∀ L, edgeLenSq g2 kv.1 = some L →
        L ≤ B + r * r / 4) ∧
      (∀ k : Edge, k.1 < g.verticies.length →
        k.2 < g.verticies.length → edgeLenSq g2 k = edgeLenSq g k) := by
  obtain ⟨tris, htris⟩ := inv.queueKeys e (List.mem_cons_self _ _)
  have hmem := mem_of_alookup_eq_some _ _ _ htris
  obtain ⟨hnil, hlen⟩ := inv.listSize _ hmem
  have hlen2 : tris.length ≤ 2 := hlen
  rcases tris with _ | ⟨t1, _ | ⟨t2, _ | ⟨t3, rest⟩⟩⟩
  · exact absurd rfl hnil
  · obtain ⟨g2, ne, hde, ⟨keep, hfl⟩, hnew, hbound, hpres⟩ :=
      subInv_run_one r B hr hB g e qt t1 inv htris hkeys
    exact ⟨g2, ne, keep, hde, hfl,
      subInv_step r g e qt inv g2 ne keep hde hfl,
      fun x hx => hnew x ((filterLong_sublist g2 r ne keep hfl).subset hx),
      hbound, hpres⟩
  · obtain ⟨g2, ne, hde, ⟨keep, hfl⟩, hnew, hbound, hpres⟩ :=
      subInv_run_two r B hr hB g e qt t1 t2 inv htris hkeys
    exact ⟨g2, ne, keep, hde, hfl,
      subInv_step r g e qt inv g2 ne keep hde hfl,
      fun x hx => hnew x ((filterLong_sublist g2 r ne keep hfl).subset hx),
      hbound, hpres⟩
  · simp at hlen2

/-- The number of queue entries whose (defined) squared length exceeds
`c`; the termination measure at one level of the bound. -/
def topCount (g : TriMeshGraph) (c : ℚ) (q : List Edge) : ℕ :=
  q.countP (fun x => decide (c < (edgeLenSq g x).getD 0))

theorem topCount_append (g : TriMeshGraph) (c : ℚ) (l1 l2 : List Edge) :
    topCount g c (l1 ++ l2) = topCount g c l1 + topCount g c l2 :=
  List.countP_append _ l1 l2

theorem topCount_cons (g : TriMeshGraph) (c : ℚ) (e : Edge) (q : List Edge) :
    topCount g c (e :: q) =
      topCount g c q + if c < (edgeLenSq g e).getD 0 then 1 else 0 := by
  rw [topCount, topCount, List.countP_cons]
  by_cases h : c < (edgeLenSq g e).getD 0
  · simp [h]
  · simp [h]

theorem topCount_congr (g g2 : TriMeshGraph) (c : ℚ) (q : List Edge)
    (h : ∀ x ∈ q, edgeLenSq g2 x = edgeLenSq g x) :
    topCount g2 c q = topCount g c q := by
  rw [topCount, topCount]
  refine List.countP_congr ?_
  intro x hx
  simp only [decide_eq_true_eq]
  rw [h x hx]

theorem topCount_eq_zero (g : TriMeshGraph) (c : ℚ) (q : List Edge)
    (h : ∀ x ∈ q, ¬ c < (edgeLenSq g x).getD 0) : topCount g c q = 0 := by
  rw [topCount]
  refine List.countP_eq_zero.mpr ?_
  intro a ha
  simp only [decide_eq_true_eq]
  exact h a ha

theorem topCount_pos (g : TriMeshGraph) (c : ℚ) (q : List Edge) (x : Edge)
    (hx : x ∈ q) (h : c < (edgeLenSq g x).getD 0) : 0 < topCount g c q := by
  rw [topCount]
  exact List.countP_pos_iff.mpr ⟨x, hx, by simpa using h⟩

/-- Splitting a list at the first element satisfying a Boolean
predicate. -/
theorem exists_first_top {α : Type} (p : α → Bool) : ∀ q : List α,
    (∃ x ∈ q, p x = true) →
    ∃ pre x post, q = pre ++ x :: post ∧ p x = true ∧
      ∀ y ∈ pre, ¬ p y = true := by
  intro q
  induction q with
  | nil =>
    rintro ⟨x, hx, _⟩
    cases hx
  | cons a q ih =>
    rintro ⟨x, hx, hpx⟩
    by_cases hpa : p a = true
    · exact ⟨[], a, q, rfl, hpa, by simp⟩
    · have hex : ∃ x ∈ q, p x = true := by
        rcases List.mem_cons.mp hx with h | h
        · exact absurd (h ▸ hpx) hpa
        · exact ⟨x, h, hpx⟩
      obtain ⟨pre, y, post, heq2, hpy, hpre⟩ := ih hex
      refine ⟨a :: pre, y, post, by rw [heq2, List.cons_append], hpy, ?_⟩
      intro z hz
      rcases List.mem_cons.mp hz with h | h
      · rw [h]; exact hpa
      · exact hpre z h

/-- Core termination argument: if every key of the graph has squared
length at most `r² + K·(r²/4)`, the subdivision loop terminates for some
fuel.  Outer induction on the level `K` (each split halves the parent
length and median lengths cross strictly below the next level); inner
induction on the number of queue entries above the next-lower bound;
innermost induction on the queue prefix before the first such entry. -/
theorem subdivide_term_aux (r : ℚ) (hr : 0 < r) :
    ∀ K : ℕ, ∀ (g : TriMeshGraph) (q : List Edge), SubInv r g q →
    (∀ kv ∈ g.edgeConnections, ∀ L, edgeLenSq g kv.1 = some L →
      L ≤ r * r + (K : ℚ) * (r * r / 4)) →
    ∃ fuel g2, subdivideLoop r fuel g q = SubRes.done g2 := by
  have hr2 : 0 < r * r := mul_pos hr hr
  have hq4 : 0 < r * r / 4 := by positivity
  intro K
  induction K with
  | zero =>
    intro g q inv hkeys
    cases q with
    | nil => exact ⟨0, g, by rw [subdivideLoop]⟩
    | cons e qt =>
      exfalso
      obtain ⟨L, hL, hlong⟩ := inv.queueLong e (List.mem_cons_self _ _)
      obtain ⟨l, hal⟩ := inv.queueKeys e (List.mem_cons_self _ _)
      have hb := hkeys (e, l) (mem_of_alookup_eq_some _ _ _ hal) L hL
      norm_num at hb
      linarith
  | succ K ihK =>
    have hKnn : (0 : ℚ) ≤ (K : ℚ) * (r * r / 4) :=
      mul_nonneg (Nat.cast_nonneg K) (le_of_lt hq4)
    have Hcnt : ∀ cnt : ℕ, ∀ (g : TriMeshGraph) (q : List Edge),
        SubInv r g q →
        (∀ kv ∈ g.edgeConnections, ∀ L, edgeLenSq g kv.1 = some L →
          L ≤ (r * r + (K : ℚ) * (r * r / 4)) + r * r / 4) →
        topCount g (r * r + (K : ℚ) * (r * r / 4)) q ≤ cnt →
        ∃ fuel g2, subdivideLoop r fuel g q = SubRes.done g2 := by
      intro cnt
      induction cnt with
      | zero =>
        intro g q inv hkeys hcnt
        refine ihK g q inv ?_
        intro kv hkv L hL
        by_cases htop : r * r + (K : ℚ) * (r * r / 4) < L
        · exfalso
          rcases inv.shortOrQueued kv hkv with hsh | hqm
          · obtain ⟨L2, hL2, hsb⟩ := hsh
            rw [hL] at hL2
            cases Option.some_inj.mp hL2
            linarith
          · have hpos : 0 < topCount g (r * r + (K : ℚ) * (r * r / 4)) q :=
              topCount_pos g _ q kv.1 hqm (by rw [hL]; simpa using htop)
            omega
        · exact not_lt.mp htop
      | succ cnt ihcnt =>
        have Hpre : ∀ pre : List Edge, ∀ (g : TriMeshGraph) (etop : Edge)
            (post : List Edge), SubInv r g (pre ++ etop :: post) →
            (∀ kv ∈ g.edgeConnections, ∀ L, edgeLenSq g kv.1 = some L →
              L ≤ (r * r + (K : ℚ) * (r * r / 4)) + r * r / 4) →
            topCount g (r * r + (K : ℚ) * (r * r / 4))
              (pre ++ etop :: post) ≤ cnt + 1 →
            (∀ y ∈ pre,
              ¬ r * r + (K : ℚ) * (r * r / 4) < (edgeLenSq g y).getD 0) →
            r * r + (K : ℚ) * (r * r / 4) < (edgeLenSq g etop).getD 0 →
            ∃ fuel g2, subdivideLoop r fuel g (pre ++ etop :: post) =
              SubRes.done g2 := by
          intro pre
          induction pre with
          | nil =>
            intro g etop post inv hkeys hcnt hpre htop
            simp only [List.nil_append] at inv hcnt ⊢
            obtain ⟨g2, ne, keep, hde, hfl, inv2, hkeep, hbound2, hpres⟩ :=
              subInv_run r (r * r + (K : ℚ) * (r * r / 4)) hr
                (by linarith) g etop post inv hkeys
            have htrans : ∀ x ∈ etop :: post,
                edgeLenSq g2 x = edgeLenSq g x := by
              intro x hx
              obtain ⟨l, hal⟩ := inv.queueKeys x hx
              obtain ⟨h1, h2⟩ :=
                inv.keyBound (x, l) (mem_of_alookup_eq_some _ _ _ hal)
              have h1x : x.1 < g.verticies.length := h1
              have h2x : x.2 < g.verticies.length := h2
              exact hpres x h1x h2x
            have hck : topCount g2 (r * r + (K : ℚ) * (r * r / 4))
                (post ++ keep) ≤ cnt := by
              rw [topCount_append]
              have hzk : topCount g2 (r * r + (K : ℚ) * (r * r / 4)) keep
                  = 0 := by
                refine topCount_eq_zero _ _ _ ?_
                intro x hx
                obtain ⟨L, hL, hLb⟩ := hkeep x hx
                rw [hL]
                simpa using not_lt.mpr hLb
              have hcp : topCount g2 (r * r + (K : ℚ) * (r * r / 4)) post =
                  topCount g (r * r + (K : ℚ) * (r * r / 4)) post :=
                topCount_congr g g2 _ post
                  (fun x hx => htrans x (List.mem_cons_of_mem _ hx))
              rw [topCount_cons, if_pos htop] at hcnt
              rw [hzk, hcp]
              omega
            obtain ⟨fuel, gf, hrun⟩ := ihcnt g2 (post ++ keep) inv2 hbound2
              hck
            refine ⟨fuel + 1, gf, ?_⟩
            rw [subdivideLoop]
            simp only [hde, hfl]
            exact hrun
          | cons a pre ihpre =>
            intro g etop post inv hkeys hcnt hpre htop
            rw [List.cons_append] at inv hcnt ⊢
            have hanot : ¬ r * r + (K : ℚ) * (r * r / 4) <
                (edgeLenSq g a).getD 0 :=
              hpre a (List.mem_cons_self _ _)
            obtain ⟨g2, ne, keep, hde, hfl, inv2, hkeep, hbound2, hpres⟩ :=
              subInv_run r (r * r + (K : ℚ) * (r * r / 4)) hr
                (by linarith) g a (pre ++ etop :: post) inv hkeys
            have htrans : ∀ x ∈ a :: (pre ++ etop :: post),
                edgeLenSq g2 x = edgeLenSq g x := by
              intro x hx
              obtain ⟨l, hal⟩ := inv.queueKeys x hx
              obtain ⟨h1, h2⟩ :=
                inv.keyBound (x, l) (mem_of_alookup_eq_some _ _ _ hal)
              have h1x : x.1 < g.verticies.length := h1
              have h2x : x.2 < g.verticies.length := h2
              exact hpres x h1x h2x
            have hmem_e : etop ∈ a :: (pre ++ etop :: post) := by simp
            have htop2 : r * r + (K : ℚ) * (r * r / 4) <
                (edgeLenSq g2 etop).getD 0 := by
              rw [htrans etop hmem_e]
              exact htop
            have hassoc : (pre ++ etop :: post) ++ keep =
                pre ++ etop :: (post ++ keep) := by
              simp [List.append_assoc]
            have inv2b : SubInv r g2 (pre ++ etop :: (post ++ keep)) := by
              rwa [hassoc] at inv2
            have hzk : topCount g2 (r * r + (K : ℚ) * (r * r / 4)) keep
                = 0 := by
              refine topCount_eq_zero _ _ _ ?_
              intro x hx
              obtain ⟨L, hL, hLb⟩ := hkeep x hx
              rw [hL]
              simpa using not_lt.mpr hLb
            have hcpre : topCount g2 (r * r + (K : ℚ) * (r * r / 4)) pre =
                topCount g (r * r + (K : ℚ) * (r * r / 4)) pre :=
              topCount_congr g g2 _ pre (fun x hx => htrans x (by simp [hx]))
            have hcpost : topCount g2 (r * r + (K : ℚ) * (r * r / 4)) post =
                topCount g (r * r + (K : ℚ) * (r * r / 4)) post :=
              topCount_congr g g2 _ post (fun x hx => htrans x (by simp [hx]))
            have hcnt2 : topCount g2 (r * r + (K : ℚ) * (r * r / 4))
                (pre ++ etop :: (post ++ keep)) ≤ cnt + 1 := by
              rw [topCount_append, topCount_cons, topCount_append,
                if_pos htop2, hzk, hcpre, hcpost]
              rw [topCount_cons, if_neg hanot, topCount_append,
                topCount_cons, if_pos htop] at hcnt
              omega
            have hpre2 : ∀ y ∈ pre,
                ¬ r * r + (K : ℚ) * (r * r / 4) <
                  (edgeLenSq g2 y).getD 0 := by
              intro y hy
              rw [htrans y (by simp [hy])]
              exact hpre y (List.mem_cons_of_mem _ hy)
            obtain ⟨fuel, gf, hrun⟩ := ihpre g2 etop (post ++ keep) inv2b
              hbound2 hcnt2 hpre2 htop2
            refine ⟨fuel + 1, gf, ?_⟩
            rw [subdivideLoop]
            simp only [hde, hfl]
            rw [hassoc]
            exact hrun
        intro g q inv hkeys hcnt
        by_cases hc0 : topCount g (r * r + (K : ℚ) * (r * r / 4)) q ≤ cnt
        · exact ihcnt g q inv hkeys hc0
        have hpos : 0 < topCount g (r * r + (K : ℚ) * (r * r / 4)) q := by
          omega
        rw [topCount] at hpos
        obtain ⟨x0, hx0, hpx0⟩ := List.countP_pos_iff.mp hpos
        obtain ⟨pre, etop, post, heq, hptop, hprene⟩ :=
          exists_first_top (fun x => decide (r * r + (K : ℚ) * (r * r / 4) <
            (edgeLenSq g x).getD 0)) q ⟨x0, hx0, hpx0⟩
        subst heq
        refine Hpre pre g etop post inv hkeys hcnt ?_ ?_
        · intro y hy
          have h := hprene y hy
          simpa using h
        · simpa using hptop
    intro g q inv hkeys
    refine Hcnt (topCount g (r * r + (K : ℚ) * (r * r / 4)) q) g q inv ?_
      le_rfl
    intro kv hkv L hL
    have h0 := hkeys kv hkv L hL
    have h1 : r * r + ((K : ℚ) + 1) * (r * r / 4) =
        (r * r + (K : ℚ) * (r * r / 4)) + r * r / 4 := by ring
    push_cast at h0
    linarith

/-- Some level `K` bounds the lengths of all (finitely many) initial
keys. -/
theorem exists_level_bound (r : ℚ) (hr : 0 < r) (g : TriMeshGraph) :
    ∀ c : Conns, ∃ K : ℕ, ∀ kv ∈ c, ∀ L, edgeLenSq g kv.1 = some L →
      L ≤ r * r + (K : ℚ) * (r * r / 4) := by
  have hq4 : 0 < r * r / 4 := by positivity
  intro c
  induction c with
  | nil => exact ⟨0, by simp⟩
  | cons kv rest ih =>
    obtain ⟨K1, hK1⟩ := ih
    rcases hL : edgeLenSq g kv.1 with _ | L0
    · refine ⟨K1, ?_⟩
      intro kv2 h2 L hL2
      rcases List.mem_cons.mp h2 with h2 | h2
      · rw [h2, hL] at hL2
        cases hL2
      · exact hK1 kv2 h2 L hL2
    · obtain ⟨K2, hK2⟩ := exists_nat_ge ((L0 - r * r) / (r * r / 4))
      refine ⟨max K1 K2, ?_⟩
      intro kv2 h2 L hL2
      rcases List.mem_cons.mp h2 with h2 | h2
      · rw [h2, hL] at hL2
        cases Option.some_inj.mp hL2
        have h3 : L0 - r * r ≤ (K2 : ℚ) * (r * r / 4) := by
          rw [div_le_iff hq4] at hK2
          linarith
        have h1 : ((K2 : ℕ) : ℚ) ≤ ((max K1 K2 : ℕ) : ℚ) :=
          Nat.cast_le.mpr (le_max_right K1 K2)
        have h4 : (K2 : ℚ) * (r * r / 4) ≤
            ((max K1 K2 : ℕ) : ℚ) * (r * r / 4) :=
          mul_le_mul_of_nonneg_right h1 (le_of_lt hq4)
        linarith
      · have h0 := hK1 kv2 h2 L hL2
        have h1 : ((K1 : ℕ) : ℚ) ≤ ((max K1 K2 : ℕ) : ℚ) :=
          Nat.cast_le.mpr (le_max_left K1 K2)
        have h4 : (K1 : ℚ) * (r * r / 4) ≤
            ((max K1 K2 : ℕ) : ℚ) * (r * r / 4) :=
          mul_le_mul_of_nonneg_right h1 (le_of_lt hq4)
        linarith

/-- Every key the adjacency builder creates joins two valid vertex
indices, so its squared length is defined. -/
theorem buildConns_len_defined (verts : List V3) (faces : List (ℕ × ℕ × ℕ))
    (hbound : ∀ f ∈ faces, ∀ v ∈ faceVerts f, v < verts.length)
    (hdist : ∀ f ∈ faces, faceDistinct f) :
    ∀ kv ∈ buildConns faces, ∃ L,
      edgeLenSq (buildGraph verts faces) kv.1 = some L := by
  obtain ⟨b1, b2, b3, b4⟩ := buildConnsGo_spec faces faces 0 []
    (fun j => by simp) (by simp) (fun t ht => absurd ht (by omega)) (by simp)
    (by simp)
  rw [show buildConnsGo [] 0 faces = buildConns faces from rfl] at b1 b3
  intro kv hkv
  have hnilkv := b3 kv hkv
  rcases hk : kv.2 with _ | ⟨t, rest⟩
  · exact absurd hk hnilkv
  have htm : t ∈ kv.2 := by rw [hk]; simp
  have hb1 := b1 kv hkv t htm
  simp only at hb1
  obtain ⟨htf, hside⟩ := hb1
  have htf2 : t < faces.length := by omega
  obtain ⟨x, y, hx, hy, hxy, hs⟩ :=
    (faceSides_char _ (hdist _ (getD_mem faces t faceD htf2)) kv.1).mp hside
  have hxm : x < verts.length := hbound _ (getD_mem faces t faceD htf2) x hx
  have hym : y < verts.length := hbound _ (getD_mem faces t faceD htf2) y hy
  have h1 : kv.1.1 < verts.length := by
    rcases sortPair_fst_mem x y with h | h <;> rw [hs, h]
    · exact hxm
    · exact hym
  have h2 : kv.1.2 < verts.length := by
    rcases sortPair_snd_mem x y with h | h <;> rw [hs, h]
    · exact hxm
    · exact hym
  refine ⟨Vm.distSq (verts.getD kv.1.1 ⟨0, 0, 0⟩)
    (verts.getD kv.1.2 ⟨0, 0, 0⟩), ?_⟩
  unfold edgeLenSq
  rw [show (buildGraph verts faces).verticies = verts from rfl]
  rw [get?_eq_of_lt_getD _ _ _ h1, get?_eq_of_lt_getD _ _ _ h2]

/-- **C6 (amended).** On every input mesh satisfying the data model's
caller requirements — in-range, slot-distinct face indices, and a
manifold-like edge map (at most two distinct incident faces per edge with
distinct opposite vertices) — and every `r > 0`, `subdivide(r)`
terminates: some finite fuel makes the work loop empty its queue and
return the refined graph.  (Without the manifold requirements the loop
need not terminate, see the counterexample.) -/
theorem claim6_termination (r : ℚ) (hr : 0 < r) (verts : List V3)
    (faces : List (ℕ × ℕ × ℕ))
    (hbound : ∀ f ∈ faces, ∀ v ∈ faceVerts f, v < verts.length)
    (hdist : ∀ f ∈ faces, faceDistinct f)
    (hsize : ∀ kv ∈ buildConns faces, kv.2.length ≤ 2)
    (hopp : ∀ kv ∈ buildConns faces, kv.2.Pairwise (fun s t => s ≠ t ∧
      oppositeVert (faces.getD s faceD) kv.1 ≠
        oppositeVert (faces.getD t faceD) kv.1)) :
    ∃ fuel g2, triMeshGraphNew fuel r verts faces = SubRes.done g2 := by
  have hlens := buildConns_len_defined verts faces hbound hdist
  obtain ⟨q0, hseed0⟩ := seedQueueGo_total (buildGraph verts faces) r
    (buildConns faces) hlens
  have hseed : seedQueue (buildGraph verts faces) r = some q0 := hseed0
  have inv := subInv_init r verts faces q0 hbound hdist hsize hopp hseed
  obtain ⟨K, hK⟩ := exists_level_bound r hr (buildGraph verts faces)
    (buildGraph verts faces).edgeConnections
  obtain ⟨fuel, g2, hrun⟩ :=
    subdivide_term_aux r hr K (buildGraph verts faces) q0 inv hK
  refine ⟨fuel, g2, ?_⟩
  unfold triMeshGraphNew subdivideFuel
  simp only [hseed]
  exact hrun

theorem claim6_witness :
    (0 : ℚ) < 2 ∧
    ∃ fuel g2, triMeshGraphNew fuel 2 vertsW facesW = SubRes.done g2 :=
  ⟨by norm_num, claim6_termination 2 (by norm_num) vertsW facesW
    (by decide) (by decide) (by decide) (by decide)⟩

end MeshRand
